import Mathlib

/-!
Distance covariance and distance correlation: a shallow embedding of `dcov`
and `dcor` of `src/src/dc.cpp`.  Doubles are modelled in exact
arithmetic over a linear ordered field `K`, extended by the IEEE special
values that the final divisions and square roots can produce.  Vectors are
lists; every bounds or size check that the matrix library performs at run
time is an explicit failure in the `Arma` monad.  The `int` product `n * n`
of line 140 is formed modulo `2^32`, as the machine forms it.  In `mergeLevel`
and `mergeLoop` the loop counters are natural numbers, which are the values of
the `int` counters of the code for every length up to `2^30`; `mergeLevel32`
and `mergeLoop32` are the same loop with `gap = 2 * i` in 32-bit arithmetic.
-/

namespace Dccpp

/-! ## Failures and scalar results -/

/-- Run-time failures: the two checks of the matrix library that `dcov` can
trip, and the exhaustion of the iteration budget of a modelled loop. -/
inductive ArmaError where
  | indexOutOfBounds
  | incompatibleDimensions
  | loopBudget
  deriving DecidableEq

/-- Computations that may fail with an `ArmaError`. -/
abbrev Arma := Except ArmaError

/-- A `double` in exact arithmetic: a field element, or one of the IEEE special
values.  Signed zeros are identified; a zero divisor counts as `+0`. -/
inductive Dbl (K : Type) where
  | fin (v : K)
  | pinf
  | ninf
  | nan
  deriving DecidableEq

namespace Dbl

variable {K : Type} [LinearOrderedField K]

/-- Addition of doubles. -/
def add : Dbl K → Dbl K → Dbl K
  | fin a, fin b => fin (a + b)
  | nan, _ => nan
  | _, nan => nan
  | pinf, ninf => nan
  | ninf, pinf => nan
  | pinf, _ => pinf
  | _, pinf => pinf
  | ninf, _ => ninf
  | _, ninf => ninf

/-- Negation of doubles. -/
def neg : Dbl K → Dbl K
  | fin a => fin (-a)
  | pinf => ninf
  | ninf => pinf
  | nan => nan

/-- Subtraction of doubles. -/
def sub (a b : Dbl K) : Dbl K := add a (neg b)

/-- The infinity with the sign of `a`, not-a-number for `a = 0`. -/
def signedInf (a : K) : Dbl K :=
  if 0 < a then pinf else if a < 0 then ninf else nan

/-- Multiplication of doubles. -/
def mul : Dbl K → Dbl K → Dbl K
  | fin a, fin b => fin (a * b)
  | nan, _ => nan
  | _, nan => nan
  | fin a, pinf => signedInf a
  | fin a, ninf => signedInf (-a)
  | pinf, fin b => signedInf b
  | ninf, fin b => signedInf (-b)
  | pinf, pinf => pinf
  | ninf, ninf => pinf
  | pinf, ninf => ninf
  | ninf, pinf => ninf

/-- Division of doubles: `a / 0` is an infinity for `a ≠ 0` and not-a-number
for `a = 0`. -/
def div : Dbl K → Dbl K → Dbl K
  | fin a, fin b => if b = 0 then signedInf a else fin (a / b)
  | nan, _ => nan
  | _, nan => nan
  | fin _, pinf => fin 0
  | fin _, ninf => fin 0
  | pinf, fin b => if 0 ≤ b then pinf else ninf
  | ninf, fin b => if 0 ≤ b then ninf else pinf
  | pinf, pinf => nan
  | pinf, ninf => nan
  | ninf, pinf => nan
  | ninf, ninf => nan

/-- Square root of a double, given the square root `rt` of the field:
not-a-number below zero. -/
def sqrt (rt : K → K) : Dbl K → Dbl K
  | fin a => if a < 0 then nan else fin (rt a)
  | pinf => pinf
  | ninf => nan
  | nan => nan

/-- Comparison `a <= b` of doubles: false as soon as one side is not-a-number. -/
def le : Dbl K → Dbl K → Prop
  | fin a, fin b => a ≤ b
  | nan, _ => False
  | _, nan => False
  | ninf, _ => True
  | _, pinf => True
  | pinf, _ => False
  | _, ninf => False

end Dbl

/-! ## Integer and vector primitives -/

/-- Value of a 32-bit signed `int` after wrap-around. -/
def wrap32 (z : Int) : Int := (z + 2 ^ 31) % 2 ^ 32 - 2 ^ 31

/-- Unsigned 64-bit `v - 1`. -/
def usub1 (v : Nat) : Nat := if v = 0 then 2 ^ 64 - 1 else v - 1

/-- Bounds-checked element access `v(i)`. -/
def vecAt {α : Type} (v : List α) (i : Nat) : Arma α :=
  match v[i]? with
  | some a => .ok a
  | none => .error .indexOutOfBounds

/-- Bounds-checked element assignment `v(i) = a`. -/
def setAt {α : Type} (v : List α) (i : Nat) (a : α) : Arma (List α) :=
  if i < v.length then .ok (v.set i a) else .error .indexOutOfBounds

/-- Gather `v.elem(ix)`. -/
def elem {α : Type} (v : List α) (ix : List Nat) : Arma (List α) :=
  ix.mapM (vecAt v)

/-- Contiguous view `v.subvec(span(a, b))`, both ends included. -/
def subvec {α : Type} (v : List α) (a b : Nat) : Arma (List α) :=
  if a ≤ b ∧ b < v.length then .ok ((v.drop a).take (b + 1 - a))
  else .error .indexOutOfBounds

/-- Assignment `v(span(a, b)) = w`, both ends included. -/
def assignSpan {α : Type} (v : List α) (a b : Nat) (w : List α) : Arma (List α) :=
  if a ≤ b ∧ b < v.length then
    if w.length = b + 1 - a then .ok (v.take a ++ w ++ v.drop (b + 1))
    else .error .incompatibleDimensions
  else .error .indexOutOfBounds

/-- Scatter `v.elem(ix) = w`. -/
def scatter {α : Type} (v : List α) (ix : List Nat) (w : List α) : Arma (List α) :=
  if ix.length = w.length then
    (ix.zip w).foldlM (fun acc p => setAt acc p.1 p.2) v
  else .error .incompatibleDimensions

/-- Regularly spaced values `regspace(start, delta, stop)`. -/
def regspace (start delta stop : Int) : List Int :=
  if (start < stop ∧ delta < 0) ∨ (stop < start ∧ 0 < delta) ∨ delta = 0 then []
  else (List.range ((|stop - start| / |delta|).toNat + 1)).map
    (fun (m : Nat) =>
      if start ≤ stop then start + (m : Int) * |delta| else start - (m : Int) * |delta|)

/-- Two-argument `regspace(start, stop)`: step `+1` upwards, `-1` downwards. -/
def regspace2 (start stop : Int) : List Int :=
  regspace start (if start ≤ stop then 1 else -1) stop

variable {K : Type} [LinearOrderedField K]

/-- Running sums, `cumsum` of the matrix library, started from `acc`. -/
def cumsumFrom (acc : K) : List K → List K
  | [] => []
  | a :: l => (acc + a) :: cumsumFrom (acc + a) l

/-- Running sums `cumsum(v)`. -/
def cumsum (v : List K) : List K := cumsumFrom 0 v

/-- Sum of all elements `accu(v)`. -/
def accu (v : List K) : K := v.sum

/-- Arithmetic mean `mean(v)`. -/
def mean (v : List K) : K := accu v / (v.length : K)

/-- Element-wise product `a % b`. -/
def schur (a b : List K) : Arma (List K) :=
  if a.length = b.length then .ok (List.zipWith (· * ·) a b)
  else .error .incompatibleDimensions

/-- Element-wise sum `a + b`. -/
def vadd (a b : List K) : Arma (List K) :=
  if a.length = b.length then .ok (List.zipWith (· + ·) a b)
  else .error .incompatibleDimensions

/-- Inner product `as_scalar(a.t() * b)`. -/
def dot (a b : List K) : Arma K :=
  if a.length = b.length then .ok (List.zipWith (· * ·) a b).sum
  else .error .incompatibleDimensions

/-- Ascending sort `arma::sort(x)`. -/
def sort (x : List K) : List K := x.insertionSort (· ≤ ·)

/-- Indices that sort `x` ascending, `sort_index(x)`. -/
def sort_index (x : List K) : List Nat :=
  (List.range x.length).insertionSort (fun a b => x.getD a 0 ≤ x.getD b 0)

/-- The closed form `regspace(-(n - 2), 2, n) % s + (si(si.n_elem - 1) - 2 * si)`
with `si = cumsum(s)`, used for `ax` and for `by`. -/
def absDevSums (n : Nat) (s : List K) : Arma (List K) := do
  let si := cumsum s
  let coef : List K := (regspace (-((n : Int) - 2)) 2 n).map (fun (z : Int) => (z : K))
  let lhs ← schur coef s
  let last ← vecAt si (usub1 si.length)
  vadd lhs (si.map (fun c => last - 2 * c))

/-! ## The merge loop -/

/-- Three-column matrix, stored by columns (`v` and `csumv`). -/
structure Mat3 (K : Type) where
  c0 : List K
  c1 : List K
  c2 : List K

/-- The variables that the merge loop updates: the write counter, the two read
cursors, the index column under construction (`idx.col(s - 1)`), and the four
accumulators. -/
structure MergeState (K : Type) where
  k : Nat
  st1 : Nat
  st2 : Nat
  idxs : List Nat
  iv1 : List K
  iv2 : List K
  iv3 : List K
  iv4 : List K

/-- In-place update `v(i) = v(i) + a`. -/
def addAt (v : List K) (i : Nat) (a : K) : Arma (List K) := do
  let old ← vecAt v i
  setAt v i (old + a)

/-- One iteration of `while ((st1 <= e1) && (st2 <= e2))`. -/
def mergeStep (ys : List K) (idxr : List Nat) (csumv : Mat3 K) (e1 : Nat)
    (σ : MergeState K) : Arma (MergeState K) := do
  let k := σ.k + 1
  let idx1 := usub1 (← vecAt idxr σ.st1)
  let idx2 := usub1 (← vecAt idxr σ.st2)
  let y1 ← vecAt ys idx1
  let y2 ← vecAt ys idx2
  if y1 ≥ y2 then
    let idxs ← setAt σ.idxs (k - 1) (idx1 + 1)
    pure { σ with k := k, idxs := idxs, st1 := σ.st1 + 1 }
  else
    let idxs ← setAt σ.idxs (k - 1) (idx2 + 1)
    let iv1 ← addAt σ.iv1 idx2 (((e1 : Int) - (σ.st1 : Int) + 1 : Int) : K)
    let iv2 ← addAt σ.iv2 idx2 ((← vecAt csumv.c0 (e1 + 1)) - (← vecAt csumv.c0 σ.st1))
    let iv3 ← addAt σ.iv3 idx2 ((← vecAt csumv.c1 (e1 + 1)) - (← vecAt csumv.c1 σ.st1))
    let iv4 ← addAt σ.iv4 idx2 ((← vecAt csumv.c2 (e1 + 1)) - (← vecAt csumv.c2 σ.st1))
    pure { σ with k := k, idxs := idxs, st2 := σ.st2 + 1,
                  iv1 := iv1, iv2 := iv2, iv3 := iv3, iv4 := iv4 }

/-- The loop `while ((st1 <= e1) && (st2 <= e2))`, with an iteration budget. -/
def mergeWhile (ys : List K) (idxr : List Nat) (csumv : Mat3 K) (e1 e2 : Nat) :
    Nat → MergeState K → Arma (MergeState K)
  | 0, σ => if σ.st1 ≤ e1 ∧ σ.st2 ≤ e2 then .error .loopBudget else .ok σ
  | fuel + 1, σ =>
    if σ.st1 ≤ e1 ∧ σ.st2 ≤ e2 then
      mergeStep ys idxr csumv e1 σ >>= mergeWhile ys idxr csumv e1 e2 fuel
    else .ok σ

/-- The code after the inner loop: copy what is left of the left block, or
else of the right block, to the target column. -/
def copyTail (idxr : List Nat) (e1 e2 : Nat) (σ : MergeState K) : Arma (MergeState K) := do
  if σ.st1 ≤ e1 then
    let kf := σ.k + e1 - σ.st1 + 1
    let idxs ← assignSpan σ.idxs σ.k (kf - 1) (← subvec idxr σ.st1 e1)
    pure { σ with idxs := idxs, k := kf }
  else if σ.st2 ≤ e2 then
    let kf := σ.k + e2 - σ.st2 + 1
    let idxs ← assignSpan σ.idxs σ.k (kf - 1) (← subvec idxr σ.st2 e2)
    pure { σ with idxs := idxs, k := kf }
  else pure σ

/-- Body of the loop over `j`: merge the blocks `[j, j+i)` and `[j+i, j+2i)`
of `idxr`, then copy what is left of either block. -/
def mergeBlock (n i : Nat) (ys : List K) (idxr : List Nat) (csumv : Mat3 K)
    (σ : MergeState K) (j : Nat) : Arma (MergeState K) := do
  let st1 := j
  let e1 := min (st1 + i - 1) (n - 1)
  let st2 := j + i
  let e2 := min (st2 + i - 1) (n - 1)
  let σ ← mergeWhile ys idxr csumv e1 e2 (2 * i) { σ with st1 := st1, st2 := st2 }
  copyTail idxr e1 e2 σ

/-- The state carried by `while (i < n)`: block size, the two columns of `idx`,
the column selectors `r` and `s`, and the accumulators. -/
structure LoopState (K : Type) where
  i : Nat
  r : Nat
  s : Nat
  col0 : List Nat
  col1 : List Nat
  iv1 : List K
  iv2 : List K
  iv3 : List K
  iv4 : List K

/-- Column `idx.col(c)` of the two-column index matrix. -/
def LoopState.col (L : LoopState K) (c : Nat) : Arma (List Nat) :=
  if c = 0 then .ok L.col0 else if c = 1 then .ok L.col1 else .error .indexOutOfBounds

/-- Write back column `c` of the index matrix. -/
def LoopState.setCol (L : LoopState K) (c : Nat) (w : List Nat) : Arma (LoopState K) :=
  if c = 0 then .ok { L with col0 := w }
  else if c = 1 then .ok { L with col1 := w } else .error .indexOutOfBounds

/-- One pass of `while (i < n)`: one merge level at block size `i`. The counters
are natural numbers: the values of the `int` counters for every `n <= 2^30`. -/
def mergeLevel (n : Nat) (v : Mat3 K) (ys : List K) (L : LoopState K) :
    Arma (LoopState K) := do
  let gap := 2 * L.i
  let idxr ← L.col (L.r - 1)
  let rows := idxr.map usub1
  let csumv : Mat3 K :=
    { c0 := 0 :: cumsum (← elem v.c0 rows)
      c1 := 0 :: cumsum (← elem v.c1 rows)
      c2 := 0 :: cumsum (← elem v.c2 rows) }
  let target ← L.col (L.s - 1)
  let σ0 : MergeState K :=
    { k := 0, st1 := 0, st2 := 0, idxs := target,
      iv1 := L.iv1, iv2 := L.iv2, iv3 := L.iv3, iv4 := L.iv4 }
  let js := (regspace 0 gap ((n : Int) - 1)).map Int.toNat
  let σ ← js.foldlM (mergeBlock n L.i ys idxr csumv) σ0
  let L ← L.setCol (L.s - 1) σ.idxs
  pure { L with i := gap, r := 3 - L.r, s := 3 - L.s,
                iv1 := σ.iv1, iv2 := σ.iv2, iv3 := σ.iv3, iv4 := σ.iv4 }

/-- The loop `while (i < n)`, with an iteration budget. -/
def mergeLoop (n : Nat) (v : Mat3 K) (ys : List K) :
    Nat → LoopState K → Arma (LoopState K)
  | 0, L => if L.i < n then .error .loopBudget else .ok L
  | fuel + 1, L =>
    if L.i < n then mergeLevel n v ys L >>= mergeLoop n v ys fuel else .ok L

/-- One pass of `while (i < n)` with the loop control as the code has it, in
32-bit `int` arithmetic: `gap = 2 * i` wraps (line 65), the block starts are
`regspace<uvec>(0, gap, n - 1)` (line 71) and the pass ends with `i = gap`
(line 114). The value of `i` is passed and returned next to the state. -/
def mergeLevel32 (n : Nat) (v : Mat3 K) (ys : List K) (i : Int) (L : LoopState K) :
    Arma (Int × LoopState K) := do
  let gap := wrap32 (2 * i)
  let idxr ← L.col (L.r - 1)
  let rows := idxr.map usub1
  let csumv : Mat3 K :=
    { c0 := 0 :: cumsum (← elem v.c0 rows)
      c1 := 0 :: cumsum (← elem v.c1 rows)
      c2 := 0 :: cumsum (← elem v.c2 rows) }
  let target ← L.col (L.s - 1)
  let σ0 : MergeState K :=
    { k := 0, st1 := 0, st2 := 0, idxs := target,
      iv1 := L.iv1, iv2 := L.iv2, iv3 := L.iv3, iv4 := L.iv4 }
  let js := (regspace 0 gap ((n : Int) - 1)).map Int.toNat
  let σ ← js.foldlM (mergeBlock n i.toNat ys idxr csumv) σ0
  let L ← L.setCol (L.s - 1) σ.idxs
  pure (gap, { L with i := gap.toNat, r := 3 - L.r, s := 3 - L.s,
                      iv1 := σ.iv1, iv2 := σ.iv2, iv3 := σ.iv3, iv4 := σ.iv4 })

/-- The loop `while (i < n)` with `i` a 32-bit `int`, with an iteration budget. -/
def mergeLoop32 (n : Nat) (v : Mat3 K) (ys : List K) :
    Nat → Int → LoopState K → Arma (Int × LoopState K)
  | 0, i, L => if i < (n : Int) then .error .loopBudget else .ok (i, L)
  | fuel + 1, i, L =>
    if i < (n : Int) then
      mergeLevel32 n v ys i L >>= fun p => mergeLoop32 n v ys fuel p.1 p.2
    else .ok (i, L)

/-! ## `dcov` and `dcor` -/

/-- Everything `dcov` has computed when the merge loop ends. -/
structure Merged (K : Type) where
  n : Nat
  xs : List K
  ys : List K
  ax : List K
  v : Mat3 K
  L : LoopState K

/-- Lines 32 to 117 of `dcov`: sort by `x`, the closed form `ax`, and the merge
loop. -/
def dcovMerge (x y : List K) : Arma (Merged K) := do
  let n := x.length
  let ys ← elem y (sort_index x)
  let xs := sort x
  let ax ← absDevSums n xs
  let v : Mat3 K := { c0 := xs, c1 := ys, c2 := ← schur xs ys }
  let col0 := (regspace2 1 n).map Int.toNat
  let L0 : LoopState K :=
    { i := 1, r := 1, s := 2,
      col0 := ← (if col0.length = n then .ok col0 else .error .incompatibleDimensions),
      col1 := List.replicate n 0,
      iv1 := List.replicate n 0, iv2 := List.replicate n 0,
      iv3 := List.replicate n 0, iv4 := List.replicate n 0 }
  let L ← mergeLoop n v ys n L0
  pure { n := n, xs := xs, ys := ys, ax := ax, v := v, L := L }

/-- The values that lines 119 to 146 of `dcov` compute. -/
structure Terms (K : Type) where
  covterm : K
  c1 : K
  c2 : K
  c3 : K
  c4 : K
  d : K
  sub_y : List Nat
  ysorted : List K
  by' : List K
  term1 : K
  term2 : K
  term3 : K

/-- Lines 119 to 146 of `dcov`: the cross term `d`, the vector `by`, and the
three terms `term1 = d`, `term2` and `term3`. -/
def dcovTerms (x y : List K) : Arma (Terms K) := do
  let m ← dcovMerge x y
  let n := m.n
  let covterm ← dot ((x.map (· - mean x)).map ((n : K) * ·)) (y.map (· - mean x))
  let c1 ← dot m.L.iv1 m.v.c2
  let c2 := accu m.L.iv4
  let c3 ← dot m.L.iv2 m.ys
  let c4 ← dot m.L.iv3 m.xs
  let d := 4 * ((c1 + c2) - (c3 + c4)) - 2 * covterm
  let rowsel := (regspace2 ((n : Int) - 1) 0).map Int.toNat
  let sub_y := (← elem (← m.L.col (m.L.r - 1)) rowsel).map usub1
  let ysorted ← elem m.ys sub_y
  let by' ← scatter (List.replicate n (0 : K)) sub_y (← absDevSums n ysorted)
  let term2 ← dot m.ax by'
  let term3 := accu m.ax * accu by'
  pure { covterm := covterm, c1 := c1, c2 := c2, c3 := c3, c4 := c4, d := d, sub_y := sub_y,
         ysorted := ysorted, by' := by', term1 := d, term2 := term2, term3 := term3 }

/-- The arithmetic in which the `int` product `n * n` of line 140 is formed:
32-bit two's complement. -/
inductive IntMode where
  | int32
  deriving DecidableEq

/-- The product of two `int` values: the exact product wrapped to 32 bits. -/
def IntMode.mul : IntMode → Int → Int → Int
  | .int32, a, b => wrap32 (a * b)

/-- The divisors `n1`, `n2`, `n3` of lines 140 to 142: `n * n` is an `int`
product, the other two are products of doubles. -/
def scaleDivisors (im : IntMode) (n : Nat) : Dbl K × Dbl K × Dbl K :=
  let n1 : Dbl K := .fin ((im.mul (n : Int) (n : Int) : Int) : K)
  let n2 := Dbl.mul n1 (.fin (n : K))
  let n3 := Dbl.mul n2 (.fin (n : K))
  (n1, n2, n3)

/-- The value `covsq` of `dcov` (line 149). -/
def covsq (im : IntMode) (x y : List K) : Arma (Dbl K) := do
  let t ← dcovTerms x y
  let (n1, n2, n3) := scaleDivisors (K := K) im x.length
  pure (Dbl.add (Dbl.sub (Dbl.div (.fin t.term1) n1)
    (Dbl.div (Dbl.mul (.fin 2) (.fin t.term2)) n2)) (Dbl.div (.fin t.term3) n3))

/-- The function `dcov(x, y)`; `rt` is the square root of the field. -/
def dcov (im : IntMode) (rt : K → K) (x y : List K) : Arma (Dbl K) := do
  let c ← covsq im x y
  pure (Dbl.sqrt rt c)

/-- Horizontal join `join_horiz(x, y)` of two column vectors. -/
def join_horiz (x y : List K) : Arma (List (List K)) :=
  if x.length = y.length then .ok [x, y] else .error .incompatibleDimensions

/-- The function `dcor(x, y)`. -/
def dcor (im : IntMode) (rt : K → K) (x y : List K) : Arma (Dbl K) := do
  let x_y ← join_horiz x y
  let col_idx : List Nat := [0, 0, 1, 1]
  let dcov_vals ← [0, 1, 2].mapM (fun i => do
    dcov im rt (← vecAt x_y (← vecAt col_idx i)) (← vecAt x_y (← vecAt col_idx (i + 1))))
  pure (Dbl.div (← vecAt dcov_vals 1)
    (Dbl.sqrt rt (Dbl.mul (← vecAt dcov_vals 0) (← vecAt dcov_vals 2))))

open Finset

/-! ## Definitions used to state the properties -/

/-- Pairwise distance `|x[i] - x[j]|`. -/
def dist (x : List K) (i j : Nat) : K := |x.getD i 0 - x.getD j 0|

/-- Sum of row `i` of the distance matrix. -/
def rowSum (x : List K) (i : Nat) : K := ∑ j in range x.length, dist x i j

/-- Inner product of the two distance matrices. -/
def frob (x y : List K) : K :=
  ∑ i in range x.length, ∑ j in range x.length, dist x i j * dist y i j

/-- Mean of row `i` of the distance matrix. -/
def rowMean (x : List K) (i : Nat) : K :=
  (∑ j in range x.length, dist x i j) / (x.length : K)

/-- Mean of column `j` of the distance matrix. -/
def colMean (x : List K) (j : Nat) : K :=
  (∑ i in range x.length, dist x i j) / (x.length : K)

/-- Mean of all entries of the distance matrix. -/
def grandMean (x : List K) : K :=
  (∑ i in range x.length, ∑ j in range x.length, dist x i j) / ((x.length : K) * (x.length : K))

/-- Entry of the double-centered distance matrix: the distance minus its row
mean, minus its column mean, plus the grand mean. -/
def centered (x : List K) (i j : Nat) : K :=
  dist x i j - rowMean x i - colMean x j + grandMean x

/-- The quadratic-time reference value of the squared distance covariance:
`(1/n^2)` times the sum of the products of the entries of the two double-centered
distance matrices. -/
def refCovsq (x y : List K) : K :=
  (∑ i in range x.length, ∑ j in range x.length, centered x i j * centered y i j)
    / ((x.length : K) * (x.length : K))

/-- Merge of two position lists by descending key; on a tie the element of the
left list comes first. -/
def mergeOut (key : Nat → K) : List Nat → List Nat → List Nat
  | [], R => R
  | l :: L, [] => l :: L
  | l :: L, r :: R =>
    if key l ≥ key r then l :: mergeOut key L (r :: R) else r :: mergeOut key (l :: L) R
termination_by L R => L.length + R.length

/-- What one merge adds to the accumulator entry of position `p` for the weight
`w`: each time an element `r` of the right list is emitted before the left list
is exhausted, the weights of the remaining left elements go to entry `r`. -/
def accDelta (key w : Nat → K) : List Nat → List Nat → Nat → K
  | [], _, _ => 0
  | _ :: _, [], _ => 0
  | l :: L, r :: R, p =>
    if key l ≥ key r then accDelta key w L (r :: R) p
    else (if p = r then ((l :: L).map w).sum else 0) + accDelta key w (l :: L) R p
termination_by L R => L.length + R.length

/-- The facts about the data of one merge level that the inner loop relies on:
`idxr` holds the positions `idxr0` shifted by one, all inside the sample, and
`csumv` holds the running sums of the columns of `v` along `idxr`. -/
structure LevelCtx (n : Nat) (ys : List K) (v : Mat3 K) (idxr idxr0 : List Nat)
    (csumv : Mat3 K) : Prop where
  hys : ys.length = n
  hidx : idxr = idxr0.map (· + 1)
  hlen0 : idxr0.length = n
  hlt : ∀ p ∈ idxr0, p < n
  hc0 : csumv.c0 = 0 :: cumsum (idxr0.map (fun p => v.c0.getD p 0))
  hc1 : csumv.c1 = 0 :: cumsum (idxr0.map (fun p => v.c1.getD p 0))
  hc2 : csumv.c2 = 0 :: cumsum (idxr0.map (fun p => v.c2.getD p 0))

/-- The part of `idxr0` between the cursor `st` and the block end `e`, included. -/
def remaining (idxr0 : List Nat) (st e : Nat) : List Nat := (idxr0.take (e + 1)).drop st

/-- How the state after the inner loop and the tail copy relates to the state
before: the counter advances over both blocks, the target column receives the
merged block, and every accumulator grows by `accDelta` of its weight. -/
structure MergePost (key : Nat → K) (v : Mat3 K) (n : Nat) (σ σ' : MergeState K)
    (Lr Rr : List Nat) : Prop where
  hk : σ'.k = σ.k + Lr.length + Rr.length
  hidxs : σ'.idxs = σ.idxs.take σ.k ++ (mergeOut key Lr Rr).map (· + 1)
            ++ σ.idxs.drop (σ.k + Lr.length + Rr.length)
  hl1 : σ'.iv1.length = n
  hl2 : σ'.iv2.length = n
  hl3 : σ'.iv3.length = n
  hl4 : σ'.iv4.length = n
  h1 : ∀ p, σ'.iv1.getD p 0 = σ.iv1.getD p 0 + accDelta key (fun _ => 1) Lr Rr p
  h2 : ∀ p, σ'.iv2.getD p 0 = σ.iv2.getD p 0 + accDelta key (fun q => v.c0.getD q 0) Lr Rr p
  h3 : ∀ p, σ'.iv3.getD p 0 = σ.iv3.getD p 0 + accDelta key (fun q => v.c1.getD q 0) Lr Rr p
  h4 : ∀ p, σ'.iv4.getD p 0 = σ.iv4.getD p 0 + accDelta key (fun q => v.c2.getD q 0) Lr Rr p

/-- Order of a merged block: keys do not increase. -/
def DescBy (key : Nat → K) (l : List Nat) : Prop := l.Pairwise (fun a b => key a ≥ key b)

def blockOf (l : List Nat) (a len : Nat) : List Nat := (l.drop a).take len

/-- The target column after the first `b` block pairs of a level of block size `i`. -/
def levelOut (key : Nat → K) (cur0 : List Nat) (i : Nat) : Nat → List Nat
  | 0 => []
  | b + 1 => levelOut key cur0 i b
      ++ mergeOut key (blockOf cur0 (b * (2 * i)) i) (blockOf cur0 (b * (2 * i) + i) i)

/-- What the first `b` block pairs of a level add to accumulator entry `p`. -/
def levelDelta (key w : Nat → K) (cur0 : List Nat) (i : Nat) : Nat → Nat → K
  | 0, _ => 0
  | b + 1, p => levelDelta key w cur0 i b p
      + accDelta key w (blockOf cur0 (b * (2 * i)) i) (blockOf cur0 (b * (2 * i) + i) i) p

/-- State of the loop over `j` after `b` block pairs. -/
structure FoldPost (key : Nat → K) (v : Mat3 K) (n i : Nat) (cur0 : List Nat)
    (σ0 σ : MergeState K) (b : Nat) : Prop where
  hk : σ.k = min (b * (2 * i)) n
  hlen : σ.idxs.length = n
  hidxs : σ.idxs.take σ.k = (levelOut key cur0 i b).map (· + 1)
  hl1 : σ.iv1.length = n
  hl2 : σ.iv2.length = n
  hl3 : σ.iv3.length = n
  hl4 : σ.iv4.length = n
  h1 : ∀ p, σ.iv1.getD p 0 = σ0.iv1.getD p 0 + levelDelta key (fun _ => 1) cur0 i b p
  h2 : ∀ p, σ.iv2.getD p 0 = σ0.iv2.getD p 0 + levelDelta key (fun q => v.c0.getD q 0) cur0 i b p
  h3 : ∀ p, σ.iv3.getD p 0 = σ0.iv3.getD p 0 + levelDelta key (fun q => v.c1.getD q 0) cur0 i b p
  h4 : ∀ p, σ.iv4.getD p 0 = σ0.iv4.getD p 0 + levelDelta key (fun q => v.c2.getD q 0) cur0 i b p

/-- The shape of the index column at block size `i`: it lists the positions
`0 .. n-1`, and its block number `b` holds positions of the range
`[b*i, (b+1)*i)` in an order of non-increasing key. -/
structure BlockInv (key : Nat → K) (n i : Nat) (cur0 : List Nat) : Prop where
  hi : 1 ≤ i
  hperm : cur0.Perm (List.range n)
  hdesc : ∀ b, DescBy key (blockOf cur0 (b * i) i)
  hblk : ∀ b, ∀ p ∈ blockOf cur0 (b * i) i, p / i = b

/-- The content an accumulator entry must have at block size `i`: the weights of
the positions before `p`, in the block of `p`, whose key is strictly smaller. -/
def accSpec (key w : Nat → K) (i p : Nat) : K :=
  ∑ q in (range p).filter (fun q => q / i = p / i ∧ key q < key p), w q

/-- The invariant of `while (i < n)`: `idx.col(r - 1)` holds the positions `cur0`
shifted by one, `cur0` has the block shape of block size `i`, and every
accumulator holds the content that block size `i` requires. -/
structure LoopInv (n : Nat) (v : Mat3 K) (ys : List K) (L : LoopState K) (cur0 : List Nat) :
    Prop where
  hrs : (L.r = 1 ∧ L.s = 2) ∨ (L.r = 2 ∧ L.s = 1)
  hcur : (if L.r = 1 then L.col0 else L.col1) = cur0.map (· + 1)
  hother : (if L.r = 1 then L.col1 else L.col0).length = n
  hB : BlockInv (fun p => ys.getD p 0) n L.i cur0
  hl1 : L.iv1.length = n
  hl2 : L.iv2.length = n
  hl3 : L.iv3.length = n
  hl4 : L.iv4.length = n
  g1 : ∀ p, p < n → L.iv1.getD p 0 = accSpec (fun p => ys.getD p 0) (fun _ => 1) L.i p
  g2 : ∀ p, p < n →
    L.iv2.getD p 0 = accSpec (fun p => ys.getD p 0) (fun q => v.c0.getD q 0) L.i p
  g3 : ∀ p, p < n →
    L.iv3.getD p 0 = accSpec (fun p => ys.getD p 0) (fun q => v.c1.getD q 0) L.i p
  g4 : ∀ p, p < n →
    L.iv4.getD p 0 = accSpec (fun p => ys.getD p 0) (fun q => v.c2.getD q 0) L.i p

/-- Double centering of a matrix `a` of size `n`: subtract the row mean and the
column mean, add the grand mean. -/
def dcenter (a : Nat → Nat → K) (n : Nat) (i j : Nat) : K :=
  a i j - (∑ l in range n, a i l) / (n : K) - (∑ l in range n, a l j) / (n : K)
    + (∑ k in range n, ∑ l in range n, a k l) / ((n : K) * (n : K))

/-- Indicator of `s < t` as a field element. -/
def below (s t : K) : K := if s < t then 1 else 0

/-- The function `rt` is the exact square root on the non-negative part of the field. -/
def IsSqrt (rt : K → K) : Prop := ∀ a, 0 ≤ a → 0 ≤ rt a ∧ rt a * rt a = a

/-- A sample of length 46341: 46340 zeros followed by a one. -/
def overflowSample : List ℚ := List.replicate 46340 0 ++ [1]

/-- A sample of length 65536: 65535 zeros followed by a one. -/
def zeroWrapSample : List ℚ := List.replicate 65535 0 ++ [1]

/-- The constant sample of length 65536 with value five. -/
def zeroWrapConstant : List ℚ := List.replicate 65536 5

/-- The state in which `while (i < n)` is entered (lines 44 to 54): `idx.col(0)`
holds `1 .. n`, everything else is zero. -/
def initLoop (n : Nat) : LoopState K :=
  { i := 1, r := 1, s := 2,
    col0 := (regspace2 1 n).map Int.toNat,
    col1 := List.replicate n 0,
    iv1 := List.replicate n 0, iv2 := List.replicate n 0,
    iv3 := List.replicate n 0, iv4 := List.replicate n 0 }

/-- The state of `while (i < n)` after `k` passes of its body. -/
def levelsRun (n : Nat) (v : Mat3 K) (ys : List K) (L : LoopState K) :
    Nat → Arma (LoopState K)
  | 0 => .ok L
  | k + 1 => levelsRun n v ys L k >>= mergeLevel n v ys

/-- The inner state at the end of the loop over `j` of one pass (lines 65 to
113): the part of `mergeLevel` that precedes the write-back of the column. -/
def levelFold (n : Nat) (v : Mat3 K) (ys : List K) (L : LoopState K) :
    Arma (MergeState K) := do
  let gap := 2 * L.i
  let idxr ← L.col (L.r - 1)
  let rows := idxr.map usub1
  let csumv : Mat3 K :=
    { c0 := 0 :: cumsum (← elem v.c0 rows)
      c1 := 0 :: cumsum (← elem v.c1 rows)
      c2 := 0 :: cumsum (← elem v.c2 rows) }
  let target ← L.col (L.s - 1)
  let σ0 : MergeState K :=
    { k := 0, st1 := 0, st2 := 0, idxs := target,
      iv1 := L.iv1, iv2 := L.iv2, iv3 := L.iv3, iv4 := L.iv4 }
  let js := (regspace 0 gap ((n : Int) - 1)).map Int.toNat
  js.foldlM (mergeBlock n L.i ys idxr csumv) σ0

/-- At block size `i`, position `q` lies in the left block and position `p` in the
right block of one pair of blocks that the pass merges. -/
def pairedAt (i q p : Nat) : Prop := q / i + 1 = p / i ∧ (p / i) % 2 = 1

instance pairedAt_decidable (i q p : Nat) : Decidable (pairedAt i q p) := by
  unfold pairedAt; infer_instance

/-- Tie order of a merged block: of two entries with equal keys, the one that
comes first is the smaller position. -/
def StableBy {α : Type} (key : Nat → α) (l : List Nat) : Prop :=
  l.Pairwise (fun a b => key a = key b → a < b)

/-- The tie order of the index column at block size `i`: inside every block,
entries with equal keys are in increasing position order. -/
def StableInv {α : Type} (key : Nat → α) (i : Nat) (cur0 : List Nat) : Prop :=
  ∀ b, StableBy key (blockOf cur0 (b * i) i)

/-- The values that the `int` counter `i` takes when `i = 2 * i` is iterated in
32-bit arithmetic from one: the powers of two up to `2^30`, then `-2^31`, then
zero for ever. -/
def OverflowOrbit (i : Int) : Prop :=
  i = 0 ∨ i = -2 ^ 31 ∨ ∃ k : Nat, k ≤ 30 ∧ i = 2 ^ k

/-! ## Theorems -/

theorem usub1_succ (a : Nat) : usub1 (a + 1) = a := by simp [usub1]

theorem vecAt_ok_getD {α : Type} (v : List α) (i : Nat) (d : α) (h : i < v.length) :
    vecAt v i = .ok (v.getD i d) := by
  simp [vecAt, List.getElem?_eq_getElem h, List.getD_eq_getElem?_getD]

theorem setAt_ok {α : Type} (v : List α) (i : Nat) (a : α) (h : i < v.length) :
    setAt v i a = .ok (v.set i a) := by
  simp [setAt, h]

theorem addAt_ok (v : List K) (i : Nat) (a : K) (h : i < v.length) :
    addAt v i a = .ok (v.set i (v.getD i 0 + a)) := by
  simp only [addAt, vecAt_ok_getD v i 0 h, setAt_ok _ _ _ h]
  rfl

theorem getD_set_add (v : List K) (i p : Nat) (a : K) (h : i < v.length) :
    (v.set i (v.getD i 0 + a)).getD p 0 = v.getD p 0 + (if p = i then a else 0) := by
  simp only [List.getD_eq_getElem?_getD, List.getElem?_set]
  by_cases hp : p = i
  · subst hp; simp [h]
  · have : ¬ i = p := fun e => hp e.symm
    simp [hp, this]

theorem elem_ok {α : Type} (v : List α) (d : α) (ix : List Nat) (h : ∀ i ∈ ix, i < v.length) :
    elem v ix = .ok (ix.map (fun i => v.getD i d)) := by
  unfold elem
  induction ix with
  | nil => rfl
  | cons a l ih =>
    have ha : a < v.length := h a (List.mem_cons_self _ _)
    have hl : ∀ i ∈ l, i < v.length := fun i hi => h i (List.mem_cons_of_mem _ hi)
    simp only [List.mapM_cons, vecAt_ok_getD v a d ha, ih hl, List.map_cons]
    rfl

theorem cumsumFrom_length (acc : K) (l : List K) : (cumsumFrom acc l).length = l.length := by
  induction l generalizing acc with
  | nil => rfl
  | cons a l ih => simp [cumsumFrom, ih]

theorem cumsum_length (l : List K) : (cumsum l).length = l.length := cumsumFrom_length 0 l

theorem cumsumFrom_getD (acc : K) (l : List K) (t : Nat) (h : t < l.length) :
    (cumsumFrom acc l).getD t 0 = acc + (l.take (t + 1)).sum := by
  induction l generalizing acc t with
  | nil => simp at h
  | cons a l ih =>
    cases t with
    | zero => simp [cumsumFrom]
    | succ t =>
      have ht : t < l.length := by simpa using h
      simp only [cumsumFrom, List.getD_cons_succ, ih _ _ ht, List.take_succ_cons, List.sum_cons]
      ring

/-- Entry `t` of `join_vert(0, cumsum(l))` is the sum of the first `t` entries of `l`. -/
theorem zero_cumsum_getD (l : List K) (t : Nat) (h : t ≤ l.length) :
    ((0 : K) :: cumsum l).getD t 0 = (l.take t).sum := by
  cases t with
  | zero => simp
  | succ t =>
    have ht : t < l.length := h
    have := cumsumFrom_getD 0 l t ht
    simp only [List.getD_cons_succ, cumsum, this, zero_add]

theorem zero_cumsum_diff (l : List K) (a b : Nat) (hab : a ≤ b) (hb : b ≤ l.length) :
    ((0 : K) :: cumsum l).getD b 0 - ((0 : K) :: cumsum l).getD a 0
      = ((l.take b).drop a).sum := by
  rw [zero_cumsum_getD l b hb, zero_cumsum_getD l a (le_trans hab hb)]
  have h1 : l.take b = (l.take b).take a ++ (l.take b).drop a := (List.take_append_drop a _).symm
  have h2 : (l.take b).take a = l.take a := by
    rw [List.take_take, min_eq_left hab]
  rw [h2] at h1
  conv_lhs => rw [h1]
  simp

theorem remaining_length (idxr0 : List Nat) (st e : Nat) (he : e < idxr0.length) :
    (remaining idxr0 st e).length = e + 1 - st := by
  simp [remaining]; omega

theorem remaining_cons (idxr0 : List Nat) (st e : Nat) (he : e < idxr0.length) (hst : st ≤ e) :
    remaining idxr0 st e = idxr0.getD st 0 :: remaining idxr0 (st + 1) e := by
  unfold remaining
  have h1 : st < (idxr0.take (e + 1)).length := by simp; omega
  rw [List.drop_eq_getElem_cons h1]
  congr 1
  rw [List.getElem_take, List.getD_eq_getElem?_getD, List.getElem?_eq_getElem (by omega)]
  rfl

theorem remaining_nil (idxr0 : List Nat) (st e : Nat) (hst : e < st) :
    remaining idxr0 st e = [] := by
  unfold remaining
  apply List.drop_eq_nil_of_le
  simp; omega

theorem getD_mem_lt {n : Nat} (idxr0 : List Nat) (hlt : ∀ p ∈ idxr0, p < n) (t : Nat)
    (ht : t < idxr0.length) : idxr0.getD t 0 < n := by
  apply hlt
  rw [List.getD_eq_getElem?_getD, List.getElem?_eq_getElem ht]
  exact List.getElem_mem ht

theorem LevelCtx.read_idxr {n : Nat} {ys : List K} {v : Mat3 K} {idxr idxr0 : List Nat}
    {csumv : Mat3 K} (C : LevelCtx n ys v idxr idxr0 csumv) (t : Nat) (ht : t < n) :
    vecAt idxr t = .ok (idxr0.getD t 0 + 1) := by
  have h : t < idxr.length := by rw [C.hidx]; simp [C.hlen0, ht]
  rw [vecAt_ok_getD idxr t 0 h]
  congr 1
  simp only [List.getD_eq_getElem?_getD, C.hidx, List.getElem?_map]
  rw [List.getElem?_eq_getElem (by rw [C.hlen0]; exact ht)]
  rfl

theorem LevelCtx.read_csum0 {n : Nat} {ys : List K} {v : Mat3 K} {idxr idxr0 : List Nat}
    {csumv : Mat3 K} (C : LevelCtx n ys v idxr idxr0 csumv) (t : Nat) (ht : t ≤ n) :
    vecAt csumv.c0 t = .ok (csumv.c0.getD t 0) := by
  apply vecAt_ok_getD
  rw [C.hc0]; simp [cumsum_length, C.hlen0]; omega

theorem LevelCtx.read_csum1 {n : Nat} {ys : List K} {v : Mat3 K} {idxr idxr0 : List Nat}
    {csumv : Mat3 K} (C : LevelCtx n ys v idxr idxr0 csumv) (t : Nat) (ht : t ≤ n) :
    vecAt csumv.c1 t = .ok (csumv.c1.getD t 0) := by
  apply vecAt_ok_getD
  rw [C.hc1]; simp [cumsum_length, C.hlen0]; omega

theorem LevelCtx.read_csum2 {n : Nat} {ys : List K} {v : Mat3 K} {idxr idxr0 : List Nat}
    {csumv : Mat3 K} (C : LevelCtx n ys v idxr idxr0 csumv) (t : Nat) (ht : t ≤ n) :
    vecAt csumv.c2 t = .ok (csumv.c2.getD t 0) := by
  apply vecAt_ok_getD
  rw [C.hc2]; simp [cumsum_length, C.hlen0]; omega

theorem csum_diff_remaining (idxr0 : List Nat) (w : Nat → K) (st e : Nat)
    (hst : st ≤ e) (he : e < idxr0.length) :
    ((0 : K) :: cumsum (idxr0.map w)).getD (e + 1) 0 - ((0 : K) :: cumsum (idxr0.map w)).getD st 0
      = ((remaining idxr0 st e).map w).sum := by
  rw [zero_cumsum_diff _ st (e + 1) (by omega) (by simp; omega)]
  simp [remaining, List.map_drop, List.map_take]

/-- The inner loop body when the left element is emitted. -/
theorem mergeStep_left {n : Nat} {ys : List K} {v : Mat3 K} {idxr idxr0 : List Nat}
    {csumv : Mat3 K} (C : LevelCtx n ys v idxr idxr0 csumv) (e1 : Nat) (σ : MergeState K)
    (h1 : σ.st1 < n) (h2 : σ.st2 < n) (hk : σ.k < σ.idxs.length)
    (hc : ys.getD (idxr0.getD σ.st1 0) 0 ≥ ys.getD (idxr0.getD σ.st2 0) 0) :
    mergeStep ys idxr csumv e1 σ
      = .ok { σ with k := σ.k + 1, idxs := σ.idxs.set σ.k (idxr0.getD σ.st1 0 + 1),
                     st1 := σ.st1 + 1 } := by
  have hl : idxr0.getD σ.st1 0 < ys.length := by
    rw [C.hys]; exact getD_mem_lt idxr0 C.hlt _ (by rw [C.hlen0]; exact h1)
  have hr : idxr0.getD σ.st2 0 < ys.length := by
    rw [C.hys]; exact getD_mem_lt idxr0 C.hlt _ (by rw [C.hlen0]; exact h2)
  unfold mergeStep
  simp only [C.read_idxr _ h1, C.read_idxr _ h2, usub1_succ, vecAt_ok_getD ys _ 0 hl,
    vecAt_ok_getD ys _ 0 hr, bind, Except.bind, Nat.add_sub_cancel, setAt_ok _ _ _ hk, hc,
    if_true, pure, Except.pure]

/-- The inner loop body when the right element is emitted: the four accumulator
entries of that element grow by the count and the sums over the rest of the left
block. -/
theorem mergeStep_right {n : Nat} {ys : List K} {v : Mat3 K} {idxr idxr0 : List Nat}
    {csumv : Mat3 K} (C : LevelCtx n ys v idxr idxr0 csumv) (e1 : Nat) (σ : MergeState K)
    (h1 : σ.st1 ≤ e1) (he1 : e1 < n) (h2 : σ.st2 < n) (hk : σ.k < σ.idxs.length)
    (hv1 : σ.iv1.length = n) (hv2 : σ.iv2.length = n) (hv3 : σ.iv3.length = n)
    (hv4 : σ.iv4.length = n)
    (hc : ¬ ys.getD (idxr0.getD σ.st1 0) 0 ≥ ys.getD (idxr0.getD σ.st2 0) 0) :
    mergeStep ys idxr csumv e1 σ
      = .ok { σ with
          k := σ.k + 1, idxs := σ.idxs.set σ.k (idxr0.getD σ.st2 0 + 1), st2 := σ.st2 + 1,
          iv1 := σ.iv1.set (idxr0.getD σ.st2 0) (σ.iv1.getD (idxr0.getD σ.st2 0) 0
            + ((remaining idxr0 σ.st1 e1).map (fun _ => (1 : K))).sum),
          iv2 := σ.iv2.set (idxr0.getD σ.st2 0) (σ.iv2.getD (idxr0.getD σ.st2 0) 0
            + ((remaining idxr0 σ.st1 e1).map (fun p => v.c0.getD p 0)).sum),
          iv3 := σ.iv3.set (idxr0.getD σ.st2 0) (σ.iv3.getD (idxr0.getD σ.st2 0) 0
            + ((remaining idxr0 σ.st1 e1).map (fun p => v.c1.getD p 0)).sum),
          iv4 := σ.iv4.set (idxr0.getD σ.st2 0) (σ.iv4.getD (idxr0.getD σ.st2 0) 0
            + ((remaining idxr0 σ.st1 e1).map (fun p => v.c2.getD p 0)).sum) } := by
  have h1n : σ.st1 < n := lt_of_le_of_lt h1 he1
  have hl : idxr0.getD σ.st1 0 < ys.length := by
    rw [C.hys]; exact getD_mem_lt idxr0 C.hlt _ (by rw [C.hlen0]; exact h1n)
  have hrn : idxr0.getD σ.st2 0 < n :=
    getD_mem_lt idxr0 C.hlt _ (by rw [C.hlen0]; exact h2)
  have hr : idxr0.getD σ.st2 0 < ys.length := by rw [C.hys]; exact hrn
  have he0 : e1 < idxr0.length := by rw [C.hlen0]; exact he1
  have hcount : (((e1 : Int) - (σ.st1 : Int) + 1 : Int) : K)
      = ((remaining idxr0 σ.st1 e1).map (fun _ => (1 : K))).sum := by
    simp only [List.map_const', List.sum_replicate, remaining_length idxr0 _ _ he0, nsmul_eq_mul,
      mul_one]
    have : ((e1 + 1 - σ.st1 : Nat) : Int) = (e1 : Int) - (σ.st1 : Int) + 1 := by omega
    rw [← this]; simp
  have hd0 := csum_diff_remaining idxr0 (fun p => v.c0.getD p 0) σ.st1 e1 h1 he0
  have hd1 := csum_diff_remaining idxr0 (fun p => v.c1.getD p 0) σ.st1 e1 h1 he0
  have hd2 := csum_diff_remaining idxr0 (fun p => v.c2.getD p 0) σ.st1 e1 h1 he0
  rw [← C.hc0] at hd0
  rw [← C.hc1] at hd1
  rw [← C.hc2] at hd2
  unfold mergeStep
  simp only [C.read_idxr _ h1n, C.read_idxr _ h2, usub1_succ, vecAt_ok_getD ys _ 0 hl,
    vecAt_ok_getD ys _ 0 hr, bind, Except.bind, Nat.add_sub_cancel, setAt_ok _ _ _ hk, hc,
    if_false, pure, Except.pure, C.read_csum0 (e1 + 1) (by omega), C.read_csum0 σ.st1 (by omega),
    C.read_csum1 (e1 + 1) (by omega), C.read_csum1 σ.st1 (by omega),
    C.read_csum2 (e1 + 1) (by omega), C.read_csum2 σ.st1 (by omega),
    addAt_ok σ.iv1 _ _ (by rw [hv1]; exact hrn), addAt_ok σ.iv2 _ _ (by rw [hv2]; exact hrn),
    addAt_ok σ.iv3 _ _ (by rw [hv3]; exact hrn), addAt_ok σ.iv4 _ _ (by rw [hv4]; exact hrn),
    hcount, hd0, hd1, hd2]

theorem mergeOut_nil_left (key : Nat → K) (R : List Nat) : mergeOut key [] R = R := by
  rw [mergeOut]

theorem mergeOut_nil_right (key : Nat → K) (L : List Nat) : mergeOut key L [] = L := by
  cases L <;> rw [mergeOut]

theorem mergeOut_cons_left (key : Nat → K) (l r : Nat) (L R : List Nat) (h : key l ≥ key r) :
    mergeOut key (l :: L) (r :: R) = l :: mergeOut key L (r :: R) := by
  rw [mergeOut, if_pos h]

theorem mergeOut_cons_right (key : Nat → K) (l r : Nat) (L R : List Nat) (h : ¬ key l ≥ key r) :
    mergeOut key (l :: L) (r :: R) = r :: mergeOut key (l :: L) R := by
  rw [mergeOut, if_neg h]

theorem accDelta_nil_left (key w : Nat → K) (R : List Nat) (p : Nat) :
    accDelta key w [] R p = 0 := by
  rw [accDelta]

theorem accDelta_nil_right (key w : Nat → K) (L : List Nat) (p : Nat) :
    accDelta key w L [] p = 0 := by
  cases L <;> rw [accDelta]

theorem accDelta_cons_left (key w : Nat → K) (l r : Nat) (L R : List Nat) (p : Nat)
    (h : key l ≥ key r) :
    accDelta key w (l :: L) (r :: R) p = accDelta key w L (r :: R) p := by
  rw [accDelta, if_pos h]

theorem accDelta_cons_right (key w : Nat → K) (l r : Nat) (L R : List Nat) (p : Nat)
    (h : ¬ key l ≥ key r) :
    accDelta key w (l :: L) (r :: R) p
      = (if p = r then ((l :: L).map w).sum else 0) + accDelta key w (l :: L) R p := by
  rw [accDelta, if_neg h]

theorem mergeOut_length (key : Nat → K) (L R : List Nat) :
    (mergeOut key L R).length = L.length + R.length := by
  induction L generalizing R with
  | nil => simp [mergeOut_nil_left]
  | cons l L ihL =>
    induction R with
    | nil => simp [mergeOut_nil_right]
    | cons r R ihR =>
      by_cases h : key l ≥ key r
      · rw [mergeOut_cons_left _ _ _ _ _ h]; simp [ihL]; omega
      · rw [mergeOut_cons_right _ _ _ _ _ h]; simp [ihR]; omega

theorem subvec_remaining (idxr0 : List Nat) (st e : Nat) (hst : st ≤ e) (he : e < idxr0.length) :
    subvec (idxr0.map (· + 1)) st e = .ok ((remaining idxr0 st e).map (· + 1)) := by
  unfold subvec remaining
  rw [if_pos ⟨hst, by simpa using he⟩]
  congr 1
  rw [List.drop_take, List.map_take, List.map_drop]

theorem copyTail_spec {n : Nat} {ys : List K} {v : Mat3 K} {idxr idxr0 : List Nat}
    {csumv : Mat3 K} (C : LevelCtx n ys v idxr idxr0 csumv) (e1 e2 : Nat)
    (he1 : e1 < n) (he2 : e2 < n) (σ : MergeState K)
    (hdone : ¬ (σ.st1 ≤ e1 ∧ σ.st2 ≤ e2))
    (hroom : σ.k + (e1 + 1 - σ.st1) + (e2 + 1 - σ.st2) ≤ σ.idxs.length)
    (hv1 : σ.iv1.length = n) (hv2 : σ.iv2.length = n) (hv3 : σ.iv3.length = n)
    (hv4 : σ.iv4.length = n) :
    ∃ σ', copyTail idxr e1 e2 σ = .ok σ' ∧
      MergePost (fun p => ys.getD p 0) v n σ σ' (remaining idxr0 σ.st1 e1)
        (remaining idxr0 σ.st2 e2) := by
  have he1' : e1 < idxr0.length := by rw [C.hlen0]; exact he1
  have he2' : e2 < idxr0.length := by rw [C.hlen0]; exact he2
  by_cases h1 : σ.st1 ≤ e1
  · have h2 : e2 < σ.st2 := by
      by_contra hh; exact hdone ⟨h1, by omega⟩
    have hR : remaining idxr0 σ.st2 e2 = [] := remaining_nil _ _ _ h2
    have hLlen := remaining_length idxr0 σ.st1 e1 he1'
    have hsv := subvec_remaining idxr0 σ.st1 e1 h1 he1'
    rw [← C.hidx] at hsv
    have hspan : σ.k ≤ σ.k + e1 - σ.st1 + 1 - 1 ∧ σ.k + e1 - σ.st1 + 1 - 1 < σ.idxs.length := by
      omega
    have hwl : ((remaining idxr0 σ.st1 e1).map (· + 1)).length
        = σ.k + e1 - σ.st1 + 1 - 1 + 1 - σ.k := by
      rw [List.length_map, hLlen]; omega
    refine ⟨{ σ with idxs := σ.idxs.take σ.k ++ (remaining idxr0 σ.st1 e1).map (· + 1)
                ++ σ.idxs.drop (σ.k + e1 - σ.st1 + 1 - 1 + 1), k := σ.k + e1 - σ.st1 + 1 }, ?_, ?_⟩
    · unfold copyTail
      simp only [h1, if_true, hsv, bind, Except.bind, assignSpan, hspan, and_self, hwl, pure,
        Except.pure]
    · rw [hR]
      constructor <;> simp only [mergeOut_nil_right, accDelta_nil_right, add_zero, hv1, hv2, hv3,
        hv4, List.length_nil, implies_true, hLlen]
      · omega
      · congr 2; omega
  · by_cases h2 : σ.st2 ≤ e2
    · have hL : remaining idxr0 σ.st1 e1 = [] := remaining_nil _ _ _ (by omega)
      have hRlen := remaining_length idxr0 σ.st2 e2 he2'
      have hsv := subvec_remaining idxr0 σ.st2 e2 h2 he2'
      rw [← C.hidx] at hsv
      have hspan : σ.k ≤ σ.k + e2 - σ.st2 + 1 - 1 ∧ σ.k + e2 - σ.st2 + 1 - 1 < σ.idxs.length := by
        omega
      have hwl : ((remaining idxr0 σ.st2 e2).map (· + 1)).length
          = σ.k + e2 - σ.st2 + 1 - 1 + 1 - σ.k := by
        rw [List.length_map, hRlen]; omega
      refine ⟨{ σ with idxs := σ.idxs.take σ.k ++ (remaining idxr0 σ.st2 e2).map (· + 1)
                ++ σ.idxs.drop (σ.k + e2 - σ.st2 + 1 - 1 + 1), k := σ.k + e2 - σ.st2 + 1 }, ?_, ?_⟩
      · unfold copyTail
        simp only [h1, h2, if_true, if_false, hsv, bind, Except.bind, assignSpan, hspan, and_self,
          hwl, pure, Except.pure]
      · rw [hL]
        constructor <;> simp only [mergeOut_nil_left, accDelta_nil_left, add_zero, hv1, hv2, hv3,
          hv4, List.length_nil, implies_true, hRlen]
        · omega
        · congr 2; omega
    · have hL : remaining idxr0 σ.st1 e1 = [] := remaining_nil _ _ _ (by omega)
      have hR : remaining idxr0 σ.st2 e2 = [] := remaining_nil _ _ _ (by omega)
      refine ⟨σ, ?_, ?_⟩
      · unfold copyTail
        simp only [h1, h2, if_false, pure, Except.pure]
      · rw [hL, hR]
        constructor <;> simp only [mergeOut_nil_left, accDelta_nil_left, add_zero, hv1, hv2, hv3,
          hv4, List.length_nil, implies_true, List.map_nil, List.append_nil,
          List.take_append_drop]

theorem take_succ_set {α : Type} (l : List α) (k : Nat) (a : α) (h : k < l.length) :
    (l.set k a).take (k + 1) = l.take k ++ [a] := by
  rw [List.set_eq_take_append_cons_drop, if_pos h]
  simp [List.take_append_eq_append_take, h.le]

theorem drop_set_lt {α : Type} (l : List α) (k m : Nat) (a : α) (h : k < m) :
    (l.set k a).drop m = l.drop m := by
  simp [List.drop_set, h]

/-- The inner loop followed by the tail copy succeeds and merges the two blocks. -/
theorem mergeWhile_copyTail {n : Nat} {ys : List K} {v : Mat3 K} {idxr idxr0 : List Nat}
    {csumv : Mat3 K} (C : LevelCtx n ys v idxr idxr0 csumv) (e1 e2 : Nat)
    (he1 : e1 < n) (he2 : e2 < n) (fuel : Nat) (σ : MergeState K)
    (hfuel : (e1 + 1 - σ.st1) + (e2 + 1 - σ.st2) ≤ fuel)
    (hroom : σ.k + (e1 + 1 - σ.st1) + (e2 + 1 - σ.st2) ≤ σ.idxs.length)
    (hv1 : σ.iv1.length = n) (hv2 : σ.iv2.length = n) (hv3 : σ.iv3.length = n)
    (hv4 : σ.iv4.length = n) :
    ∃ σ', (mergeWhile ys idxr csumv e1 e2 fuel σ >>= copyTail idxr e1 e2) = .ok σ' ∧
      MergePost (fun p => ys.getD p 0) v n σ σ' (remaining idxr0 σ.st1 e1)
        (remaining idxr0 σ.st2 e2) := by
  induction fuel generalizing σ with
  | zero =>
    have hdone : ¬ (σ.st1 ≤ e1 ∧ σ.st2 ≤ e2) := by omega
    have := copyTail_spec C e1 e2 he1 he2 σ hdone hroom hv1 hv2 hv3 hv4
    simpa only [mergeWhile, hdone, if_false, bind, Except.bind] using this
  | succ fuel ih =>
    by_cases hcond : σ.st1 ≤ e1 ∧ σ.st2 ≤ e2
    · obtain ⟨hs1, hs2⟩ := hcond
      have he1' : e1 < idxr0.length := by rw [C.hlen0]; exact he1
      have he2' : e2 < idxr0.length := by rw [C.hlen0]; exact he2
      have hL := remaining_cons idxr0 σ.st1 e1 he1' hs1
      have hR := remaining_cons idxr0 σ.st2 e2 he2' hs2
      have hLlen := remaining_length idxr0 σ.st1 e1 he1'
      have hRlen := remaining_length idxr0 σ.st2 e2 he2'
      have hLlen' := remaining_length idxr0 (σ.st1 + 1) e1 he1'
      have hRlen' := remaining_length idxr0 (σ.st2 + 1) e2 he2'
      have hk : σ.k < σ.idxs.length := by omega
      by_cases hc : ys.getD (idxr0.getD σ.st1 0) 0 ≥ ys.getD (idxr0.getD σ.st2 0) 0
      · have hstep := mergeStep_left C e1 σ (by omega) (by omega) hk hc
        obtain ⟨σ', hrun, hp⟩ := ih
          { σ with k := σ.k + 1, idxs := σ.idxs.set σ.k (idxr0.getD σ.st1 0 + 1),
                   st1 := σ.st1 + 1 }
          (by simp only; omega) (by simp only [List.length_set]; omega) hv1 hv2 hv3 hv4
        refine ⟨σ', ?_, ?_⟩
        · simp only [mergeWhile, hs1, hs2, and_self, if_true, hstep, bind, Except.bind] at hrun ⊢
          exact hrun
        · have hmo := mergeOut_cons_left (fun p => ys.getD p 0) _ _
            (remaining idxr0 (σ.st1 + 1) e1) (remaining idxr0 (σ.st2 + 1) e2) hc
          have hidxs := hp.hidxs
          simp only [← hR] at hmo hidxs
          constructor
          · rw [hp.hk]; simp only; omega
          · rw [hidxs, hL, hmo]
            simp only [take_succ_set _ _ _ hk, List.map_cons, List.append_assoc,
              List.singleton_append, List.cons_append, List.length_cons,
              drop_set_lt _ _ _ _ (show σ.k < σ.k + 1 + (remaining idxr0 (σ.st1 + 1) e1).length
                + (remaining idxr0 σ.st2 e2).length by omega)]
            rw [hLlen', hRlen]
            have e : σ.k + 1 + (e1 + 1 - (σ.st1 + 1)) + (e2 + 1 - σ.st2)
                = σ.k + (e1 + 1 - (σ.st1 + 1) + 1) + (e2 + 1 - σ.st2) := by omega
            rw [e]
            simp only [List.nil_append]
          · exact hp.hl1
          · exact hp.hl2
          · exact hp.hl3
          · exact hp.hl4
          · intro p
            rw [hp.h1 p, hL, hR, accDelta_cons_left _ _ _ _ _ _ _ hc]
          · intro p
            rw [hp.h2 p, hL, hR, accDelta_cons_left _ _ _ _ _ _ _ hc]
          · intro p
            rw [hp.h3 p, hL, hR, accDelta_cons_left _ _ _ _ _ _ _ hc]
          · intro p
            rw [hp.h4 p, hL, hR, accDelta_cons_left _ _ _ _ _ _ _ hc]
      · have hstep := mergeStep_right C e1 σ hs1 he1 (by omega) hk hv1 hv2 hv3 hv4 hc
        have hrn : idxr0.getD σ.st2 0 < n :=
          getD_mem_lt idxr0 C.hlt _ (by rw [C.hlen0]; omega)
        obtain ⟨σ', hrun, hp⟩ := ih
          { σ with
            k := σ.k + 1, idxs := σ.idxs.set σ.k (idxr0.getD σ.st2 0 + 1), st2 := σ.st2 + 1,
            iv1 := σ.iv1.set (idxr0.getD σ.st2 0) (σ.iv1.getD (idxr0.getD σ.st2 0) 0
              + ((remaining idxr0 σ.st1 e1).map (fun _ => (1 : K))).sum),
            iv2 := σ.iv2.set (idxr0.getD σ.st2 0) (σ.iv2.getD (idxr0.getD σ.st2 0) 0
              + ((remaining idxr0 σ.st1 e1).map (fun p => v.c0.getD p 0)).sum),
            iv3 := σ.iv3.set (idxr0.getD σ.st2 0) (σ.iv3.getD (idxr0.getD σ.st2 0) 0
              + ((remaining idxr0 σ.st1 e1).map (fun p => v.c1.getD p 0)).sum),
            iv4 := σ.iv4.set (idxr0.getD σ.st2 0) (σ.iv4.getD (idxr0.getD σ.st2 0) 0
              + ((remaining idxr0 σ.st1 e1).map (fun p => v.c2.getD p 0)).sum) }
          (by simp only; omega) (by simp only [List.length_set]; omega)
          (by simp only [List.length_set]; exact hv1) (by simp only [List.length_set]; exact hv2)
          (by simp only [List.length_set]; exact hv3) (by simp only [List.length_set]; exact hv4)
        refine ⟨σ', ?_, ?_⟩
        · simp only [mergeWhile, hs1, hs2, and_self, if_true, hstep, bind, Except.bind] at hrun ⊢
          exact hrun
        · have hmo := mergeOut_cons_right (fun p => ys.getD p 0) _ _
            (remaining idxr0 (σ.st1 + 1) e1) (remaining idxr0 (σ.st2 + 1) e2) hc
          have had := fun w p => accDelta_cons_right (fun p => ys.getD p 0) w _ _
            (remaining idxr0 (σ.st1 + 1) e1) (remaining idxr0 (σ.st2 + 1) e2) p hc
          have hidxs := hp.hidxs
          simp only [← hL] at hmo had hidxs
          constructor
          · rw [hp.hk]; simp only; omega
          · rw [hidxs, hR, hmo]
            simp only [take_succ_set _ _ _ hk, List.map_cons, List.append_assoc,
              List.singleton_append, List.cons_append, List.length_cons,
              drop_set_lt _ _ _ _ (show σ.k < σ.k + 1 + (remaining idxr0 σ.st1 e1).length
                + (remaining idxr0 (σ.st2 + 1) e2).length by omega)]
            rw [hLlen, hRlen']
            have e : σ.k + 1 + (e1 + 1 - σ.st1) + (e2 + 1 - (σ.st2 + 1))
                = σ.k + (e1 + 1 - σ.st1) + (e2 + 1 - (σ.st2 + 1) + 1) := by omega
            rw [e]
            simp only [List.nil_append]
          · exact hp.hl1
          · exact hp.hl2
          · exact hp.hl3
          · exact hp.hl4
          · intro p
            rw [hp.h1 p, hR, had]
            simp only [getD_set_add _ _ _ _ (show idxr0.getD σ.st2 0 < σ.iv1.length by omega)]
            ring
          · intro p
            rw [hp.h2 p, hR, had]
            simp only [getD_set_add _ _ _ _ (show idxr0.getD σ.st2 0 < σ.iv2.length by omega)]
            ring
          · intro p
            rw [hp.h3 p, hR, had]
            simp only [getD_set_add _ _ _ _ (show idxr0.getD σ.st2 0 < σ.iv3.length by omega)]
            ring
          · intro p
            rw [hp.h4 p, hR, had]
            simp only [getD_set_add _ _ _ _ (show idxr0.getD σ.st2 0 < σ.iv4.length by omega)]
            ring
    · have := copyTail_spec C e1 e2 he1 he2 σ hcond hroom hv1 hv2 hv3 hv4
      simpa only [mergeWhile, hcond, if_false, bind, Except.bind] using this

theorem mergeOut_perm (key : Nat → K) (L R : List Nat) : (mergeOut key L R).Perm (L ++ R) := by
  induction L generalizing R with
  | nil => simp [mergeOut_nil_left]
  | cons l L ihL =>
    induction R with
    | nil => simp [mergeOut_nil_right]
    | cons r R ihR =>
      by_cases h : key l ≥ key r
      · rw [mergeOut_cons_left _ _ _ _ _ h]
        exact (ihL (r :: R)).cons l
      · rw [mergeOut_cons_right _ _ _ _ _ h]
        exact (ihR.cons r).trans (List.perm_middle.symm)

theorem mergeOut_desc (key : Nat → K) (L R : List Nat) (hL : DescBy key L) (hR : DescBy key R) :
    DescBy key (mergeOut key L R) := by
  induction L generalizing R with
  | nil => simpa [mergeOut_nil_left] using hR
  | cons l L ihL =>
    induction R with
    | nil => simpa [mergeOut_nil_right] using hL
    | cons r R ihR =>
      have hL' := List.pairwise_cons.mp hL
      have hR' := List.pairwise_cons.mp hR
      by_cases h : key l ≥ key r
      · rw [mergeOut_cons_left _ _ _ _ _ h]
        refine List.pairwise_cons.mpr ⟨?_, ihL (r :: R) hL'.2 hR⟩
        intro a ha
        have := (mergeOut_perm key L (r :: R)).mem_iff.mp ha
        rcases List.mem_append.mp this with h1 | h1
        · exact hL'.1 a h1
        · rcases List.mem_cons.mp h1 with h2 | h2
          · rw [h2]; exact h
          · exact le_trans (hR'.1 a h2) h
      · rw [mergeOut_cons_right _ _ _ _ _ h]
        refine List.pairwise_cons.mpr ⟨?_, ihR hR'.2⟩
        intro a ha
        have := (mergeOut_perm key (l :: L) R).mem_iff.mp ha
        have hlr : key l ≤ key r := le_of_lt (not_le.mp h)
        rcases List.mem_append.mp this with h1 | h1
        · rcases List.mem_cons.mp h1 with h2 | h2
          · rw [h2]; exact hlr
          · exact le_trans (hL'.1 a h2) hlr
        · exact hR'.1 a h1

/-- What one merge adds to entry `p`: nothing unless `p` is in the right block,
and then the weights of the left elements whose key is strictly smaller. -/
theorem accDelta_eq (key w : Nat → K) (L R : List Nat) (hL : DescBy key L) (hR : DescBy key R)
    (hnd : R.Nodup) (p : Nat) :
    accDelta key w L R p
      = if p ∈ R then ((L.filter (fun l => decide (key l < key p))).map w).sum else 0 := by
  induction L generalizing R with
  | nil => simp [accDelta_nil_left]
  | cons l L ihL =>
    induction R with
    | nil => simp [accDelta_nil_right]
    | cons r R ihR =>
      have hL' := List.pairwise_cons.mp hL
      have hR' := List.pairwise_cons.mp hR
      have hnd' := List.nodup_cons.mp hnd
      by_cases h : key l ≥ key r
      · rw [accDelta_cons_left _ _ _ _ _ _ _ h, ihL (r :: R) hL'.2 hR hnd]
        by_cases hp : p ∈ r :: R
        · have hpr : key p ≤ key r := by
            rcases List.mem_cons.mp hp with h2 | h2
            · rw [h2]
            · exact hR'.1 p h2
          have : ¬ key l < key p := not_lt.mpr (le_trans hpr h)
          simp [hp, List.filter_cons, this]
        · simp [hp]
      · rw [accDelta_cons_right _ _ _ _ _ _ _ h, ihR hR'.2 hnd'.2]
        have hlr : key l < key r := not_le.mp h
        by_cases hp : p = r
        · subst hp
          have hall : (l :: L).filter (fun a => decide (key a < key p)) = l :: L := by
            apply List.filter_eq_self.mpr
            intro a ha
            rcases List.mem_cons.mp ha with h2 | h2
            · rw [h2]; simpa using hlr
            · simpa using lt_of_le_of_lt (hL'.1 a h2) hlr
          simp only [if_true, hnd'.1, if_false, add_zero, List.mem_cons, true_or, hall]
        · simp [hp]

theorem blockOf_length (l : List Nat) (a len : Nat) :
    (blockOf l a len).length = min len (l.length - a) := by
  simp [blockOf]

theorem remaining_eq_blockOf (l : List Nat) (n a i : Nat) (hn : l.length = n) (hn1 : 1 ≤ n)
    (hi : 1 ≤ i) : remaining l a (min (a + i - 1) (n - 1)) = blockOf l a i := by
  unfold remaining blockOf
  rw [List.drop_take]
  by_cases h : a + i - 1 ≤ n - 1
  · rw [min_eq_left h]
    congr 1; omega
  · rw [min_eq_right (by omega)]
    have h1 : (l.drop a).length ≤ n - 1 + 1 - a := by simp; omega
    have h2 : (l.drop a).length ≤ i := by simp; omega
    rw [List.take_of_length_le h1, List.take_of_length_le h2]

/-- One pass of the loop over `j` succeeds and merges the two blocks that start
at `j` and at `j + i`. -/
theorem mergeBlock_spec {n : Nat} {ys : List K} {v : Mat3 K} {idxr idxr0 : List Nat}
    {csumv : Mat3 K} (C : LevelCtx n ys v idxr idxr0 csumv) (i j : Nat) (hi : 1 ≤ i)
    (hj : j < n) (σ : MergeState K) (hk : σ.k = j) (hlen : σ.idxs.length = n)
    (hv1 : σ.iv1.length = n) (hv2 : σ.iv2.length = n) (hv3 : σ.iv3.length = n)
    (hv4 : σ.iv4.length = n) :
    ∃ σ', mergeBlock n i ys idxr csumv σ j = .ok σ' ∧
      MergePost (fun p => ys.getD p 0) v n σ σ' (blockOf idxr0 j i) (blockOf idxr0 (j + i) i) := by
  have hn1 : 1 ≤ n := by omega
  have hL := remaining_eq_blockOf idxr0 n j i C.hlen0 hn1 hi
  have hR := remaining_eq_blockOf idxr0 n (j + i) i C.hlen0 hn1 hi
  have hLl := blockOf_length idxr0 j i
  have hRl := blockOf_length idxr0 (j + i) i
  rw [C.hlen0] at hLl hRl
  have hLr : (remaining idxr0 j (min (j + i - 1) (n - 1))).length
      = min (j + i - 1) (n - 1) + 1 - j :=
    remaining_length _ _ _ (by rw [C.hlen0]; omega)
  have hRr : (remaining idxr0 (j + i) (min (j + i + i - 1) (n - 1))).length
      = min (j + i + i - 1) (n - 1) + 1 - (j + i) :=
    remaining_length _ _ _ (by rw [C.hlen0]; omega)
  obtain ⟨σ', hrun, hp⟩ := mergeWhile_copyTail C (min (j + i - 1) (n - 1))
    (min (j + i + i - 1) (n - 1)) (by omega) (by omega) (2 * i)
    { σ with st1 := j, st2 := j + i }
    (by simp only [← hLr, ← hRr, hL, hR, hLl, hRl]; omega)
    (by simp only [← hLr, ← hRr, hL, hR, hLl, hRl]; omega) hv1 hv2 hv3 hv4
  refine ⟨σ', ?_, ?_⟩
  · unfold mergeBlock
    exact hrun
  · simp only [hL, hR] at hp
    exact ⟨hp.hk, hp.hidxs, hp.hl1, hp.hl2, hp.hl3, hp.hl4, hp.h1, hp.h2, hp.h3, hp.h4⟩

theorem regspace_blocks (n gap : Nat) (hn : 1 ≤ n) (hg : 1 ≤ gap) :
    (regspace 0 (gap : Int) ((n : Int) - 1)).map Int.toNat
      = (List.range ((n - 1) / gap + 1)).map (fun b => b * gap) := by
  unfold regspace
  have h1 : ¬ ((0 < (n : Int) - 1 ∧ (gap : Int) < 0) ∨ ((n : Int) - 1 < 0 ∧ 0 < (gap : Int))
      ∨ (gap : Int) = 0) := by omega
  rw [if_neg h1]
  have h2 : (0 : Int) ≤ (n : Int) - 1 := by omega
  have h3 : |(n : Int) - 1 - 0| = ((n - 1 : Nat) : Int) := by
    rw [sub_zero, abs_of_nonneg h2]; omega
  have h4 : |(gap : Int)| = (gap : Int) := abs_of_nonneg (by omega)
  rw [h3, h4, List.map_map]
  have h5 : (((n - 1 : Nat) : Int) / (gap : Int)).toNat = (n - 1) / gap := by
    rw [← Int.natCast_div, Int.toNat_natCast]
  rw [h5]
  apply List.map_congr_left
  intro b _
  simp only [Function.comp, h2, if_true, zero_add]
  rw [← Int.natCast_mul, Int.toNat_natCast]

theorem foldlM_ok_append {α β : Type} (f : β → α → Arma β) (l : List α) (a : α) (s s1 : β)
    (h : l.foldlM f s = .ok s1) : (l ++ [a]).foldlM f s = f s1 a := by
  rw [List.foldlM_append, h]
  simp [bind, Except.bind, List.foldlM, pure, Except.pure]
  cases f s1 a <;> rfl

/-- The loop over `j` of one level, run over the first `b` block pairs. -/
theorem level_fold {n : Nat} {ys : List K} {v : Mat3 K} {idxr idxr0 : List Nat}
    {csumv : Mat3 K} (C : LevelCtx n ys v idxr idxr0 csumv) (i : Nat) (hi : 1 ≤ i)
    (σ0 : MergeState K) (hk0 : σ0.k = 0) (hlen0 : σ0.idxs.length = n)
    (hv1 : σ0.iv1.length = n) (hv2 : σ0.iv2.length = n) (hv3 : σ0.iv3.length = n)
    (hv4 : σ0.iv4.length = n) (b : Nat) (hb : b ≤ (n - 1) / (2 * i) + 1) (hn : 1 ≤ n) :
    ∃ σ, ((List.range b).map (fun b => b * (2 * i))).foldlM (mergeBlock n i ys idxr csumv) σ0
        = .ok σ ∧ FoldPost (fun p => ys.getD p 0) v n i idxr0 σ0 σ b := by
  induction b with
  | zero =>
    refine ⟨σ0, rfl, ?_⟩
    constructor <;> simp [hk0, hlen0, hv1, hv2, hv3, hv4, levelOut, levelDelta]
  | succ b ih =>
    obtain ⟨σ, hrun, hp⟩ := ih (by omega)
    have hbj : b * (2 * i) ≤ n - 1 := by
      have : b ≤ (n - 1) / (2 * i) := by omega
      exact (Nat.le_div_iff_mul_le (by omega)).mp this
    have hj : b * (2 * i) < n := by omega
    have hkj : σ.k = b * (2 * i) := by rw [hp.hk]; omega
    obtain ⟨σ', hrun', hp'⟩ := mergeBlock_spec C i (b * (2 * i)) hi hj σ hkj hp.hlen
      hp.hl1 hp.hl2 hp.hl3 hp.hl4
    have hLl := blockOf_length idxr0 (b * (2 * i)) i
    have hRl := blockOf_length idxr0 (b * (2 * i) + i) i
    rw [C.hlen0] at hLl hRl
    have hml := mergeOut_length (fun p => ys.getD p 0) (blockOf idxr0 (b * (2 * i)) i)
      (blockOf idxr0 (b * (2 * i) + i) i)
    have hsucc : (b + 1) * (2 * i) = b * (2 * i) + 2 * i := by ring
    refine ⟨σ', ?_, ?_⟩
    · rw [List.range_succ, List.map_append, List.map_singleton,
        foldlM_ok_append _ _ _ _ _ hrun, hrun']
    · constructor
      · rw [hp'.hk, hkj, hLl, hRl, hsucc]; omega
      · rw [hp'.hidxs, hkj]
        simp only [List.length_append, List.length_take, List.length_map, List.length_drop, hml,
          hLl, hRl, hp.hlen]
        omega
      · have hidxs := hp.hidxs
        rw [hkj] at hidxs
        rw [hp'.hk, hp'.hidxs, hkj, hidxs, levelOut, List.map_append, List.append_assoc]
        have hl1 : ((levelOut (fun p => ys.getD p 0) idxr0 i b).map (· + 1)).length
            = b * (2 * i) := by
          rw [← hidxs, List.length_take, hp.hlen]; omega
        rw [← List.append_assoc, List.take_append_eq_append_take]
        have hl2 : ((levelOut (fun p => ys.getD p 0) idxr0 i b).map (· + 1)
            ++ (mergeOut (fun p => ys.getD p 0) (blockOf idxr0 (b * (2 * i)) i)
              (blockOf idxr0 (b * (2 * i) + i) i)).map (· + 1)).length
            = b * (2 * i) + (blockOf idxr0 (b * (2 * i)) i).length
                + (blockOf idxr0 (b * (2 * i) + i) i).length := by
          rw [List.length_append, hl1, List.length_map, hml]; omega
        rw [hl2, List.take_of_length_le (by rw [hl2]), Nat.sub_self, List.take_zero,
          List.append_nil]
      · exact hp'.hl1
      · exact hp'.hl2
      · exact hp'.hl3
      · exact hp'.hl4
      · intro p; rw [hp'.h1, hp.h1, levelDelta, add_assoc]
      · intro p; rw [hp'.h2, hp.h2, levelDelta, add_assoc]
      · intro p; rw [hp'.h3, hp.h3, levelDelta, add_assoc]
      · intro p; rw [hp'.h4, hp.h4, levelDelta, add_assoc]

theorem blockOf_append_blockOf (l : List Nat) (a i : Nat) :
    blockOf l a i ++ blockOf l (a + i) i = blockOf l a (2 * i) := by
  unfold blockOf
  rw [two_mul, List.take_add, List.drop_drop]

theorem take_append_blockOf (l : List Nat) (a len : Nat) :
    l.take a ++ blockOf l a len = l.take (a + len) := by
  unfold blockOf
  rw [List.take_add]

theorem blockOf_sublist (l : List Nat) (a len : Nat) : (blockOf l a len).Sublist l :=
  (List.take_sublist _ _).trans (List.drop_sublist _ _)

theorem blockOf_nil_of_le (l : List Nat) (a len : Nat) (h : l.length ≤ a) : blockOf l a len = [] := by
  unfold blockOf
  rw [List.drop_eq_nil_of_le h, List.take_nil]

/-- Every entry of a list lies in one of its blocks of size `i`. -/
theorem mem_blockOf_of_mem (l : List Nat) (i : Nat) (hi : 1 ≤ i) (q : Nat) (hq : q ∈ l) :
    ∃ b, q ∈ blockOf l (b * i) i := by
  obtain ⟨t, ht, rfl⟩ := List.mem_iff_getElem.mp hq
  refine ⟨t / i, ?_⟩
  unfold blockOf
  have hdm := Nat.div_add_mod t i
  have hmod : t % i < i := Nat.mod_lt _ (by omega)
  have hmul : t / i * i = i * (t / i) := Nat.mul_comm _ _
  apply List.mem_iff_getElem.mpr
  refine ⟨t % i, ?_, ?_⟩
  · simp only [List.length_take, List.length_drop]; omega
  · simp only [List.getElem_take, List.getElem_drop]
    congr 1; omega

theorem levelOut_perm (key : Nat → K) (cur0 : List Nat) (i b : Nat) :
    (levelOut key cur0 i b).Perm (cur0.take (b * (2 * i))) := by
  induction b with
  | zero => simp [levelOut]
  | succ b ih =>
    rw [levelOut]
    have h1 := mergeOut_perm key (blockOf cur0 (b * (2 * i)) i) (blockOf cur0 (b * (2 * i) + i) i)
    rw [blockOf_append_blockOf] at h1
    have h2 := List.Perm.append ih h1
    rw [take_append_blockOf] at h2
    have e : b * (2 * i) + 2 * i = (b + 1) * (2 * i) := by ring
    rw [e] at h2
    exact h2

theorem levelOut_length (key : Nat → K) (cur0 : List Nat) (i b : Nat) :
    (levelOut key cur0 i b).length = min (b * (2 * i)) cur0.length := by
  rw [(levelOut_perm key cur0 i b).length_eq, List.length_take]

theorem mul_succ_div_gt (n g : Nat) (hg : 1 ≤ g) : n - 1 < ((n - 1) / g + 1) * g := by
  have := Nat.div_add_mod (n - 1) g
  have h2 : (n - 1) % g < g := Nat.mod_lt _ (by omega)
  have h3 : ((n - 1) / g + 1) * g = g * ((n - 1) / g) + g := by ring
  omega

/-- After all block pairs of a level the target column is a rearrangement of the
source column. -/
theorem levelOut_perm_full (key : Nat → K) (cur0 : List Nat) (i : Nat) (hi : 1 ≤ i) (n : Nat)
    (hn : cur0.length = n) :
    (levelOut key cur0 i ((n - 1) / (2 * i) + 1)).Perm cur0 := by
  have h := levelOut_perm key cur0 i ((n - 1) / (2 * i) + 1)
  have h2 := mul_succ_div_gt n (2 * i) (by omega)
  rw [List.take_of_length_le (by omega)] at h
  exact h

/-- Block `b` of the target column of a level is the merge of blocks `2b` and
`2b + 1` of the source column. -/
theorem blockOf_levelOut (key : Nat → K) (cur0 : List Nat) (i : Nat) (b m : Nat) (hbm : b < m) :
    blockOf (levelOut key cur0 i m) (b * (2 * i)) (2 * i)
      = mergeOut key (blockOf cur0 (b * (2 * i)) i) (blockOf cur0 (b * (2 * i) + i) i) := by
  induction m with
  | zero => omega
  | succ m ih =>
    have hlm := levelOut_length key cur0 i m
    have hml := mergeOut_length key (blockOf cur0 (m * (2 * i)) i) (blockOf cur0 (m * (2 * i) + i) i)
    have hLl := blockOf_length cur0 (m * (2 * i)) i
    have hRl := blockOf_length cur0 (m * (2 * i) + i) i
    rw [levelOut]
    by_cases hb : b = m
    · subst hb
      unfold blockOf at hml hLl hRl ⊢
      by_cases hc : b * (2 * i) ≤ cur0.length
      · rw [List.drop_append_of_le_length (by omega), List.drop_of_length_le (by omega),
          List.nil_append, List.take_of_length_le (by omega)]
      · have e1 : cur0.drop (b * (2 * i)) = [] := List.drop_eq_nil_of_le (by omega)
        have e2 : cur0.drop (b * (2 * i) + i) = [] := List.drop_eq_nil_of_le (by omega)
        simp only [e1, e2, List.take_nil, mergeOut_nil_left, List.append_nil]
        rw [List.drop_of_length_le (by omega), List.take_nil]
    · have hbm' : b < m := by omega
      rw [← ih hbm']
      have hle : (b + 1) * (2 * i) ≤ m * (2 * i) := Nat.mul_le_mul_right _ (by omega)
      have hsucc : (b + 1) * (2 * i) = b * (2 * i) + 2 * i := by ring
      by_cases hc : m * (2 * i) ≤ cur0.length
      · unfold blockOf
        rw [List.drop_append_of_le_length (by omega), List.take_append_of_le_length]
        simp only [List.length_drop]; omega
      · have e1 : blockOf cur0 (m * (2 * i)) i = [] := blockOf_nil_of_le _ _ _ (by omega)
        have e2 : blockOf cur0 (m * (2 * i) + i) i = [] := blockOf_nil_of_le _ _ _ (by omega)
        simp only [e1, e2, mergeOut_nil_left, List.append_nil]

theorem BlockInv.length {key : Nat → K} {n i : Nat} {cur0 : List Nat}
    (B : BlockInv key n i cur0) : cur0.length = n := by
  rw [B.hperm.length_eq, List.length_range]

theorem BlockInv.nodup {key : Nat → K} {n i : Nat} {cur0 : List Nat}
    (B : BlockInv key n i cur0) : cur0.Nodup :=
  B.hperm.nodup_iff.mpr (List.nodup_range n)

theorem BlockInv.lt {key : Nat → K} {n i : Nat} {cur0 : List Nat}
    (B : BlockInv key n i cur0) : ∀ p ∈ cur0, p < n := fun _ hp =>
  List.mem_range.mp (B.hperm.mem_iff.mp hp)

theorem BlockInv.mem_block_iff {key : Nat → K} {n i : Nat} {cur0 : List Nat}
    (B : BlockInv key n i cur0) (b q : Nat) :
    q ∈ blockOf cur0 (b * i) i ↔ q < n ∧ q / i = b := by
  constructor
  · intro h
    exact ⟨B.lt q ((blockOf_sublist _ _ _).subset h), B.hblk b q h⟩
  · rintro ⟨h1, h2⟩
    have hq : q ∈ cur0 := B.hperm.mem_iff.mpr (List.mem_range.mpr h1)
    obtain ⟨b', hb'⟩ := mem_blockOf_of_mem cur0 i B.hi q hq
    have := B.hblk b' q hb'
    rw [← h2, this]; exact hb'

theorem BlockInv.init (key : Nat → K) (n : Nat) : BlockInv key n 1 (List.range n) := by
  refine ⟨le_refl 1, List.Perm.refl _, ?_, ?_⟩
  · intro b
    unfold DescBy blockOf
    have : ((List.range n).drop (b * 1)).take 1 = [] ∨ ∃ a, ((List.range n).drop (b * 1)).take 1 = [a] := by
      cases (List.range n).drop (b * 1) with
      | nil => left; rfl
      | cons a l => right; exact ⟨a, by simp⟩
    rcases this with h | ⟨a, h⟩ <;> rw [h] <;> simp
  · intro b p hp
    unfold blockOf at hp
    obtain ⟨t, ht, rfl⟩ := List.mem_iff_getElem.mp hp
    simp only [List.length_take, List.length_drop, List.length_range] at ht
    simp only [List.getElem_take, List.getElem_drop, List.getElem_range, Nat.div_one]
    omega

theorem BlockInv.next {key : Nat → K} {n i : Nat} {cur0 : List Nat}
    (B : BlockInv key n i cur0) :
    BlockInv key n (2 * i) (levelOut key cur0 i ((n - 1) / (2 * i) + 1)) := by
  have hi := B.hi
  have hfull := levelOut_perm_full key cur0 i hi n B.length
  have hlen : (levelOut key cur0 i ((n - 1) / (2 * i) + 1)).length = n := by
    rw [hfull.length_eq, B.length]
  have hgt := mul_succ_div_gt n (2 * i) (by omega)
  refine ⟨by omega, hfull.trans B.hperm, ?_, ?_⟩
  · intro b
    by_cases hb : b < (n - 1) / (2 * i) + 1
    · rw [blockOf_levelOut key cur0 i b _ hb]
      have e1 : b * (2 * i) = (2 * b) * i := by ring
      have e2 : b * (2 * i) + i = (2 * b + 1) * i := by ring
      rw [e2, e1]
      exact mergeOut_desc key _ _ (B.hdesc _) (B.hdesc _)
    · have hle : ((n - 1) / (2 * i) + 1) * (2 * i) ≤ b * (2 * i) :=
        Nat.mul_le_mul_right _ (by omega)
      rw [blockOf_nil_of_le _ _ _ (by omega)]
      exact List.Pairwise.nil
  · intro b p hp
    by_cases hb : b < (n - 1) / (2 * i) + 1
    · rw [blockOf_levelOut key cur0 i b _ hb] at hp
      have hp' := (mergeOut_perm key _ _).mem_iff.mp hp
      have e1 : b * (2 * i) = (2 * b) * i := by ring
      have e2 : b * (2 * i) + i = (2 * b + 1) * i := by ring
      rw [e2, e1] at hp'
      have hdd : p / (2 * i) = p / i / 2 := by
        rw [Nat.div_div_eq_div_mul, Nat.mul_comm]
      rcases List.mem_append.mp hp' with h | h
      · have := B.hblk _ p h
        omega
      · have := B.hblk _ p h
        omega
    · have hle : ((n - 1) / (2 * i) + 1) * (2 * i) ≤ b * (2 * i) :=
        Nat.mul_le_mul_right _ (by omega)
      rw [blockOf_nil_of_le _ _ _ (by omega)] at hp
      simp at hp

theorem BlockInv.final {key : Nat → K} {n i : Nat} {cur0 : List Nat}
    (B : BlockInv key n i cur0) (h : n ≤ i) : DescBy key cur0 := by
  have := B.hdesc 0
  unfold blockOf at this
  rw [Nat.zero_mul, List.drop_zero, List.take_of_length_le (by rw [B.length]; exact h)] at this
  exact this

theorem accDelta_block {key : Nat → K} {n i : Nat} {cur0 : List Nat}
    (B : BlockInv key n i cur0) (w : Nat → K) (b p : Nat) (hp : p < n) :
    accDelta key w (blockOf cur0 (b * (2 * i)) i) (blockOf cur0 (b * (2 * i) + i) i) p
      = if p / i = 2 * b + 1 then
          ∑ q in (range n).filter (fun q => q / i = 2 * b ∧ key q < key p), w q
        else 0 := by
  have e1 : b * (2 * i) = (2 * b) * i := by ring
  have e2 : b * (2 * i) + i = (2 * b + 1) * i := by ring
  rw [e2, e1]
  have hnd : (blockOf cur0 ((2 * b + 1) * i) i).Nodup := (blockOf_sublist _ _ _).nodup B.nodup
  have hndL : (blockOf cur0 ((2 * b) * i) i).Nodup := (blockOf_sublist _ _ _).nodup B.nodup
  rw [accDelta_eq key w _ _ (B.hdesc _) (B.hdesc _) hnd p]
  have hmem : p ∈ blockOf cur0 ((2 * b + 1) * i) i ↔ p / i = 2 * b + 1 := by
    rw [B.mem_block_iff]; simp [hp]
  by_cases h : p / i = 2 * b + 1
  · rw [if_pos (hmem.mpr h), if_pos h]
    rw [← List.sum_toFinset w (hndL.filter _)]
    apply Finset.sum_congr _ (fun _ _ => rfl)
    ext q
    simp only [List.mem_toFinset, List.mem_filter, B.mem_block_iff, decide_eq_true_eq,
      Finset.mem_filter, Finset.mem_range, and_assoc]
  · rw [if_neg (fun hh => h (hmem.mp hh)), if_neg h]

theorem levelDelta_eq {key : Nat → K} {n i : Nat} {cur0 : List Nat}
    (B : BlockInv key n i cur0) (w : Nat → K) (m p : Nat) (hp : p < n) :
    levelDelta key w cur0 i m p
      = if (p / i) % 2 = 1 ∧ p / i / 2 < m then
          ∑ q in (range n).filter (fun q => q / i + 1 = p / i ∧ key q < key p), w q
        else 0 := by
  induction m with
  | zero => simp [levelDelta]
  | succ m ih =>
    rw [levelDelta, ih, accDelta_block B w m p hp]
    by_cases h : p / i = 2 * m + 1
    · have h1 : ¬ ((p / i) % 2 = 1 ∧ p / i / 2 < m) := by omega
      have h2 : (p / i) % 2 = 1 ∧ p / i / 2 < m + 1 := by omega
      rw [if_neg h1, if_pos h, if_pos h2, zero_add]
      apply Finset.sum_congr _ (fun _ _ => rfl)
      ext q
      simp only [Finset.mem_filter, Finset.mem_range]
      constructor
      · rintro ⟨a, b, c⟩; exact ⟨a, by omega, c⟩
      · rintro ⟨a, b, c⟩; exact ⟨a, by omega, c⟩
    · rw [if_neg h, add_zero]
      by_cases h3 : (p / i) % 2 = 1 ∧ p / i / 2 < m
      · rw [if_pos h3, if_pos (by omega)]
      · rw [if_neg h3, if_neg (by omega)]

/-- One level turns the accumulator content of block size `i` into the content
of block size `2i`. -/
theorem accSpec_step {key : Nat → K} {n i : Nat} {cur0 : List Nat}
    (B : BlockInv key n i cur0) (w : Nat → K) (p : Nat) (hp : p < n) :
    accSpec key w i p + levelDelta key w cur0 i ((n - 1) / (2 * i) + 1) p
      = accSpec key w (2 * i) p := by
  have hi := B.hi
  rw [levelDelta_eq B w _ p hp]
  unfold accSpec
  have hdd : ∀ q, q / (2 * i) = q / i / 2 := fun q => by
    rw [Nat.div_div_eq_div_mul, Nat.mul_comm]
  have hmono : ∀ q, q < p → q / i ≤ p / i := fun q hq => Nat.div_le_div_right (le_of_lt hq)
  have hlt : ∀ q, q / i < p / i → q < p := fun q hq => by
    by_contra hh
    have := Nat.div_le_div_right (c := i) (not_lt.mp hh)
    omega
  have hpm : p / i / 2 < (n - 1) / (2 * i) + 1 := by
    rw [← hdd]
    have : p / (2 * i) ≤ (n - 1) / (2 * i) := Nat.div_le_div_right (by omega)
    omega
  have hrestrict : (range n).filter (fun q => q / i + 1 = p / i ∧ key q < key p)
      = (range p).filter (fun q => q / i + 1 = p / i ∧ key q < key p) := by
    ext q
    simp only [Finset.mem_filter, Finset.mem_range]
    constructor
    · rintro ⟨_, b, c⟩; exact ⟨hlt q (by omega), b, c⟩
    · rintro ⟨a, b, c⟩; exact ⟨by omega, b, c⟩
  rw [hrestrict]
  simp only [Finset.sum_filter]
  by_cases hodd : (p / i) % 2 = 1
  · rw [if_pos ⟨hodd, hpm⟩, ← Finset.sum_add_distrib]
    apply Finset.sum_congr rfl
    intro q hq
    have hq' := hmono q (Finset.mem_range.mp hq)
    rw [hdd q, hdd p]
    by_cases hk : key q < key p
    · by_cases h1 : q / i = p / i
      · have h2 : ¬ (q / i + 1 = p / i) := by omega
        have h3 : q / i / 2 = p / i / 2 := by omega
        simp [h1, h2, h3, hk]
      · by_cases h2 : q / i + 1 = p / i
        · have h3 : q / i / 2 = p / i / 2 := by omega
          simp [h1, h2, h3, hk]
        · have h3 : ¬ (q / i / 2 = p / i / 2) := by omega
          simp [h1, h2, h3, hk]
    · simp [hk]
  · rw [if_neg (fun h => hodd h.1), add_zero]
    apply Finset.sum_congr rfl
    intro q hq
    have hq' := hmono q (Finset.mem_range.mp hq)
    rw [hdd q, hdd p]
    by_cases h1 : q / i = p / i
    · have h3 : q / i / 2 = p / i / 2 := by omega
      simp [h1, h3]
    · have h3 : ¬ (q / i / 2 = p / i / 2) := by omega
      simp [h1, h3]

theorem accSpec_one (key w : Nat → K) (p : Nat) : accSpec key w 1 p = 0 := by
  unfold accSpec
  apply Finset.sum_eq_zero
  intro q hq
  simp only [Finset.mem_filter, Finset.mem_range, Nat.div_one] at hq
  omega

/-- When the block size has reached the sample size, the accumulator content is
the sum over all earlier positions with a strictly smaller key. -/
theorem accSpec_final (key w : Nat → K) (n i p : Nat) (hp : p < n) (hi : n ≤ i) :
    accSpec key w i p = ∑ q in (range p).filter (fun q => key q < key p), w q := by
  unfold accSpec
  apply Finset.sum_congr _ (fun _ _ => rfl)
  ext q
  simp only [Finset.mem_filter, Finset.mem_range]
  constructor
  · rintro ⟨a, _, c⟩; exact ⟨a, c⟩
  · rintro ⟨a, c⟩
    refine ⟨a, ?_, c⟩
    rw [Nat.div_eq_of_lt (by omega), Nat.div_eq_of_lt (by omega)]

theorem map_usub1_map_succ (l : List Nat) : (l.map (· + 1)).map usub1 = l := by
  rw [List.map_map]
  conv_rhs => rw [← List.map_id l]
  apply List.map_congr_left
  intro a _
  simp [usub1]

/-- One merge level succeeds, doubles the block size and keeps the invariant. -/
theorem mergeLevel_spec {n : Nat} {v : Mat3 K} {ys : List K} (hn : 1 ≤ n)
    (hys : ys.length = n) (hv0 : v.c0.length = n) (hv1 : v.c1.length = n)
    (hv2 : v.c2.length = n) (L : LoopState K) (cur0 : List Nat)
    (I : LoopInv n v ys L cur0) :
    ∃ L', mergeLevel n v ys L = .ok L' ∧ L'.i = 2 * L.i ∧
      LoopInv n v ys L' (levelOut (fun p => ys.getD p 0) cur0 L.i ((n - 1) / (2 * L.i) + 1)) := by
  have hi := I.hB.hi
  have hlen0 := I.hB.length
  have hlt := I.hB.lt
  have hN := I.hB.next
  have hgt := mul_succ_div_gt n (2 * L.i) (by omega)
  have hlo := levelOut_length (fun p => ys.getD p 0) cur0 L.i ((n - 1) / (2 * L.i) + 1)
  have he0 := elem_ok v.c0 0 cur0 (fun p hp => by rw [hv0]; exact hlt p hp)
  have he1 := elem_ok v.c1 0 cur0 (fun p hp => by rw [hv1]; exact hlt p hp)
  have he2 := elem_ok v.c2 0 cur0 (fun p hp => by rw [hv2]; exact hlt p hp)
  have hjs := regspace_blocks n (2 * L.i) hn (by omega)
  have C : LevelCtx n ys v (cur0.map (· + 1)) cur0
      { c0 := 0 :: cumsum (cur0.map (fun p => v.c0.getD p 0))
        c1 := 0 :: cumsum (cur0.map (fun p => v.c1.getD p 0))
        c2 := 0 :: cumsum (cur0.map (fun p => v.c2.getD p 0)) } :=
    ⟨hys, rfl, hlen0, hlt, rfl, rfl, rfl⟩
  have hfin : ∀ σ0 σ : MergeState K,
      FoldPost (fun p => ys.getD p 0) v n L.i cur0 σ0 σ ((n - 1) / (2 * L.i) + 1) →
      σ.idxs = (levelOut (fun p => ys.getD p 0) cur0 L.i ((n - 1) / (2 * L.i) + 1)).map (· + 1) := by
    intro σ0 σ hp
    have h1 := hp.hidxs
    rw [hp.hk, List.take_of_length_le (by rw [hp.hlen]; omega)] at h1
    exact h1
  have hcast : (((2 * L.i : Nat) : Int)) = 2 * (L.i : Int) := by push_cast; ring
  rcases I.hrs with ⟨hr, hs⟩ | ⟨hr, hs⟩
  · have hcur := I.hcur
    have hother := I.hother
    simp only [hr, if_true] at hcur hother
    obtain ⟨σ, hrun, hp⟩ := level_fold C L.i hi
      { k := 0, st1 := 0, st2 := 0, idxs := L.col1,
        iv1 := L.iv1, iv2 := L.iv2, iv3 := L.iv3, iv4 := L.iv4 }
      rfl hother I.hl1 I.hl2 I.hl3 I.hl4 ((n - 1) / (2 * L.i) + 1) (le_refl _) hn
    have hidxs := hfin _ _ hp
    refine ⟨{ L with col1 := σ.idxs, i := 2 * L.i, r := 2, s := 1,
                     iv1 := σ.iv1, iv2 := σ.iv2, iv3 := σ.iv3, iv4 := σ.iv4 }, ?_, rfl, ?_⟩
    · unfold mergeLevel
      simp only [hr, hs, LoopState.col, LoopState.setCol, Nat.sub_self, if_true, bind,
        Except.bind, hcur, map_usub1_map_succ, he0, he1, he2, Nat.add_one_sub_one,
        Nat.succ_ne_zero, if_false, Nat.cast_mul, Nat.cast_ofNat]
      rw [← hcast, hjs, hrun]
      rfl
    · constructor
      · right; exact ⟨rfl, rfl⟩
      · simp only [if_false, (by decide : ¬ (2 = 1)), hidxs]
      · simp only [if_false, (by decide : ¬ (2 = 1))]
        rw [hcur, List.length_map, hlen0]
      · exact hN
      · exact hp.hl1
      · exact hp.hl2
      · exact hp.hl3
      · exact hp.hl4
      · intro p hpn
        simp only [hp.h1 p, I.g1 p hpn]
        exact accSpec_step I.hB _ p hpn
      · intro p hpn
        simp only [hp.h2 p, I.g2 p hpn]
        exact accSpec_step I.hB _ p hpn
      · intro p hpn
        simp only [hp.h3 p, I.g3 p hpn]
        exact accSpec_step I.hB _ p hpn
      · intro p hpn
        simp only [hp.h4 p, I.g4 p hpn]
        exact accSpec_step I.hB _ p hpn
  · have hcur := I.hcur
    have hother := I.hother
    simp only [hr, if_false, (by decide : ¬ (2 = 1))] at hcur hother
    obtain ⟨σ, hrun, hp⟩ := level_fold C L.i hi
      { k := 0, st1 := 0, st2 := 0, idxs := L.col0,
        iv1 := L.iv1, iv2 := L.iv2, iv3 := L.iv3, iv4 := L.iv4 }
      rfl hother I.hl1 I.hl2 I.hl3 I.hl4 ((n - 1) / (2 * L.i) + 1) (le_refl _) hn
    have hidxs := hfin _ _ hp
    refine ⟨{ L with col0 := σ.idxs, i := 2 * L.i, r := 1, s := 2,
                     iv1 := σ.iv1, iv2 := σ.iv2, iv3 := σ.iv3, iv4 := σ.iv4 }, ?_, rfl, ?_⟩
    · unfold mergeLevel
      simp only [hr, hs, LoopState.col, LoopState.setCol, Nat.sub_self, if_true, bind,
        Except.bind, hcur, map_usub1_map_succ, he0, he1, he2, Nat.add_one_sub_one,
        Nat.succ_ne_zero, if_false, Nat.cast_mul, Nat.cast_ofNat]
      rw [← hcast, hjs, hrun]
      rfl
    · constructor
      · left; exact ⟨rfl, rfl⟩
      · simp only [if_true, hidxs]
      · simp only [if_true]
        rw [hcur, List.length_map, hlen0]
      · exact hN
      · exact hp.hl1
      · exact hp.hl2
      · exact hp.hl3
      · exact hp.hl4
      · intro p hpn
        simp only [hp.h1 p, I.g1 p hpn]
        exact accSpec_step I.hB _ p hpn
      · intro p hpn
        simp only [hp.h2 p, I.g2 p hpn]
        exact accSpec_step I.hB _ p hpn
      · intro p hpn
        simp only [hp.h3 p, I.g3 p hpn]
        exact accSpec_step I.hB _ p hpn
      · intro p hpn
        simp only [hp.h4 p, I.g4 p hpn]
        exact accSpec_step I.hB _ p hpn

/-- The merge loop ends, with the invariant at a block size of at least `n`. -/
theorem mergeLoop_spec {n : Nat} {v : Mat3 K} {ys : List K} (hn : 1 ≤ n)
    (hys : ys.length = n) (hv0 : v.c0.length = n) (hv1 : v.c1.length = n)
    (hv2 : v.c2.length = n) (fuel : Nat) (L : LoopState K) (cur0 : List Nat)
    (I : LoopInv n v ys L cur0) (hfuel : n - L.i ≤ fuel) :
    ∃ L' cur0', mergeLoop n v ys fuel L = .ok L' ∧ LoopInv n v ys L' cur0' ∧ n ≤ L'.i := by
  induction fuel generalizing L cur0 with
  | zero =>
    have h : ¬ L.i < n := by omega
    exact ⟨L, cur0, by simp only [mergeLoop, h, if_false], I, by omega⟩
  | succ fuel ih =>
    by_cases h : L.i < n
    · obtain ⟨L1, hrun, hi1, I1⟩ := mergeLevel_spec hn hys hv0 hv1 hv2 L cur0 I
      have hi := I.hB.hi
      obtain ⟨L', cur0', hrun', I', hfin⟩ := ih L1 _ I1 (by omega)
      refine ⟨L', cur0', ?_, I', hfin⟩
      simp only [mergeLoop, h, if_true, hrun, bind, Except.bind]
      exact hrun'
    · exact ⟨L, cur0, by simp only [mergeLoop, h, if_false], I, by omega⟩

theorem list_eq_map_range {α : Type} (l : List α) (d : α) :
    l = (List.range l.length).map (fun i => l.getD i d) := by
  apply List.ext_getElem
  · simp
  · intro i h1 h2
    simp [List.getD_eq_getElem?_getD, List.getElem?_eq_getElem h1]

theorem zipWith_map_range {α β γ : Type} (f : α → β → γ) (g : Nat → α) (h : Nat → β) (l : List Nat) :
    List.zipWith f (l.map g) (l.map h) = l.map (fun i => f (g i) (h i)) := by
  induction l with
  | nil => rfl
  | cons a l ih => simp [ih]

theorem cumsum_eq_map_range (s : List K) :
    cumsum s = (List.range s.length).map (fun i => (s.take (i + 1)).sum) := by
  apply List.ext_getElem
  · simp [cumsum_length]
  · intro i h1 h2
    have hi : i < s.length := by rwa [cumsum_length] at h1
    have := cumsumFrom_getD 0 s i hi
    rw [List.getD_eq_getElem?_getD, List.getElem?_eq_getElem (by rwa [cumsumFrom_length])] at this
    simp only [Option.getD_some, zero_add] at this
    simp only [cumsum, this, List.getElem_map, List.getElem_range]

theorem regspace_coef (n : Nat) (hn : 1 ≤ n) :
    regspace (-((n : Int) - 2)) 2 n
      = (List.range n).map (fun (m : Nat) => -((n : Int) - 2) + (m : Int) * 2) := by
  unfold regspace
  have h1 : ¬ ((-((n : Int) - 2) < (n : Int) ∧ (2 : Int) < 0) ∨ ((n : Int) < -((n : Int) - 2) ∧ (0 : Int) < 2)
      ∨ (2 : Int) = 0) := by omega
  rw [if_neg h1]
  have h3 : |(n : Int) - -((n : Int) - 2)| = 2 * (n : Int) - 2 := by
    rw [abs_of_nonneg (by omega)]; ring
  have h4 : |(2 : Int)| = 2 := rfl
  rw [h3, h4]
  have h5 : ((2 * (n : Int) - 2) / 2).toNat + 1 = n := by omega
  rw [h5]
  apply List.map_congr_left
  intro m _
  have h2 : -((n : Int) - 2) ≤ (n : Int) := by omega
  simp only [h2, if_true]

/-- The closed form terminates without a failure on every non-empty vector and
gives, at index `i`, the value `(2i - n + 2) * s[i] + (total - 2 * prefix[i])`. -/
theorem absDevSums_spec (n : Nat) (s : List K) (hs : s.length = n) (hn : 1 ≤ n) :
    absDevSums n s = .ok ((List.range n).map (fun (i : Nat) =>
      ((-((n : Int) - 2) + (i : Int) * 2 : Int) : K) * s.getD i 0
        + (s.sum - 2 * (s.take (i + 1)).sum))) := by
  unfold absDevSums
  have hlast : vecAt (cumsum s) (usub1 (cumsum s).length) = .ok s.sum := by
    have hl : (cumsum s).length = (n - 1) + 1 := by rw [cumsum_length, hs]; omega
    rw [hl, usub1_succ, vecAt_ok_getD _ _ 0 (by rw [hl]; omega)]
    have := cumsumFrom_getD 0 s (n - 1) (by omega)
    rw [cumsum, this, zero_add, List.take_of_length_le (by omega)]
  have hcoef : ((regspace (-((n : Int) - 2)) 2 n).map (fun (z : Int) => (z : K))).length = s.length := by
    rw [regspace_coef n hn]; simp [hs]
  have hvl : (List.zipWith (· * ·) ((regspace (-((n : Int) - 2)) 2 n).map (fun (z : Int) => (z : K))) s).length
      = ((cumsum s).map (fun c => s.sum - 2 * c)).length := by
    rw [List.length_zipWith, hcoef, List.length_map, cumsum_length]; simp
  simp only [schur, hcoef, if_true, bind, Except.bind, hlast, vadd, hvl]
  congr 1
  rw [regspace_coef n hn, cumsum_eq_map_range, hs, List.map_map, List.map_map]
  conv_lhs => rw [list_eq_map_range s 0, hs]
  rw [zipWith_map_range, zipWith_map_range]
  apply List.map_congr_left
  intro i hi
  have hin : i < n := List.mem_range.mp hi
  simp only [Function.comp]
  congr 3
  · rw [← hs, ← list_eq_map_range s 0]
  · rw [← hs, ← list_eq_map_range s 0]

theorem sort_index_perm (x : List K) : (sort_index x).Perm (List.range x.length) :=
  List.perm_insertionSort _ _

theorem sort_index_sorted (x : List K) :
    (sort_index x).Pairwise (fun a b => x.getD a 0 ≤ x.getD b 0) := by
  haveI : IsTotal Nat (fun a b => x.getD a 0 ≤ x.getD b 0) := ⟨fun a b => le_total _ _⟩
  haveI : IsTrans Nat (fun a b => x.getD a 0 ≤ x.getD b 0) := ⟨fun a b c => le_trans⟩
  exact List.sorted_insertionSort (fun a b => x.getD a 0 ≤ x.getD b 0) (List.range x.length)

theorem sort_sorted (x : List K) : (sort x).Pairwise (· ≤ ·) :=
  List.sorted_insertionSort (· ≤ ·) x

theorem sort_perm (x : List K) : (sort x).Perm x := List.perm_insertionSort _ _

/-- The vector `arma::sort(x)` is `x` gathered along `sort_index(x)`. -/
theorem sort_eq_map_sort_index (x : List K) :
    sort x = (sort_index x).map (fun i => x.getD i 0) := by
  apply List.eq_of_perm_of_sorted (r := (· ≤ ·))
  · refine (sort_perm x).trans ?_
    have h := (sort_index_perm x).map (fun i => x.getD i 0)
    rw [← list_eq_map_range x 0] at h
    exact h.symm
  · exact sort_sorted x
  · exact List.pairwise_map.mpr (sort_index_sorted x)

theorem regspace2_col0 (n : Nat) (hn : 1 ≤ n) :
    (regspace2 1 n).map Int.toNat = (List.range n).map (· + 1) := by
  unfold regspace2 regspace
  have h0 : (1 : Int) ≤ (n : Int) := by omega
  simp only [h0, if_true]
  have h1 : ¬ (((1 : Int) < (n : Int) ∧ (1 : Int) < 0) ∨ ((n : Int) < 1 ∧ (0 : Int) < 1)
      ∨ (1 : Int) = 0) := by omega
  rw [if_neg h1]
  have h3 : |(n : Int) - 1| = (n : Int) - 1 := abs_of_nonneg (by omega)
  have h4 : |(1 : Int)| = 1 := rfl
  rw [h3, h4, List.map_map]
  have h5 : (((n : Int) - 1) / 1).toNat + 1 = n := by omega
  rw [h5]
  apply List.map_congr_left
  intro m _
  simp only [Function.comp]
  omega

theorem getD_replicate_zero (n p : Nat) : (List.replicate n (0 : K)).getD p 0 = 0 := by
  rw [List.getD_eq_getElem?_getD]
  by_cases h : p < n
  · rw [List.getElem?_eq_getElem (by simpa using h)]; simp
  · rw [List.getElem?_eq_none (by simpa using h)]; rfl

/-- Lines 32 to 117 of `dcov` succeed as soon as `x` is not empty and `y` is at
least as long as `x`; the loop invariant holds at the end. -/
theorem dcovMerge_spec (x y : List K) (hn : 1 ≤ x.length) (hxy : x.length ≤ y.length) :
    ∃ m cur0, dcovMerge x y = .ok m ∧ m.n = x.length
      ∧ m.xs = (sort_index x).map (fun i => x.getD i 0)
      ∧ m.ys = (sort_index x).map (fun i => y.getD i 0)
      ∧ absDevSums x.length m.xs = .ok m.ax
      ∧ m.v = { c0 := m.xs, c1 := m.ys, c2 := List.zipWith (· * ·) m.xs m.ys }
      ∧ LoopInv x.length m.v m.ys m.L cur0 ∧ x.length ≤ m.L.i := by
  have hp := sort_index_perm x
  have hplen : (sort_index x).length = x.length := by rw [hp.length_eq, List.length_range]
  have hplt : ∀ i ∈ sort_index x, i < y.length := fun i hi =>
    lt_of_lt_of_le (List.mem_range.mp (hp.mem_iff.mp hi)) hxy
  have hys := elem_ok y 0 (sort_index x) hplt
  have hxs := sort_eq_map_sort_index x
  have hxl : ((sort_index x).map (fun i => x.getD i 0)).length = x.length := by
    rw [List.length_map, hplen]
  have hyl : ((sort_index x).map (fun i => y.getD i 0)).length = x.length := by
    rw [List.length_map, hplen]
  have hax := absDevSums_spec x.length _ hxl hn
  have hcol := regspace2_col0 x.length hn
  have I0 : LoopInv x.length
      { c0 := (sort_index x).map (fun i => x.getD i 0),
        c1 := (sort_index x).map (fun i => y.getD i 0),
        c2 := List.zipWith (· * ·) ((sort_index x).map (fun i => x.getD i 0))
          ((sort_index x).map (fun i => y.getD i 0)) }
      ((sort_index x).map (fun i => y.getD i 0))
      { i := 1, r := 1, s := 2, col0 := (List.range x.length).map (· + 1),
        col1 := List.replicate x.length 0,
        iv1 := List.replicate x.length 0, iv2 := List.replicate x.length 0,
        iv3 := List.replicate x.length 0, iv4 := List.replicate x.length 0 }
      (List.range x.length) := by
    constructor
    · left; exact ⟨rfl, rfl⟩
    · simp only [if_true]
    · simp only [if_true, List.length_replicate]
    · exact BlockInv.init _ _
    · simp
    · simp
    · simp
    · simp
    · intro p _; rw [accSpec_one, getD_replicate_zero]
    · intro p _; rw [accSpec_one, getD_replicate_zero]
    · intro p _; rw [accSpec_one, getD_replicate_zero]
    · intro p _; rw [accSpec_one, getD_replicate_zero]
  obtain ⟨L', cur0', hrun, I', hfin⟩ := mergeLoop_spec hn hyl hxl hyl
    (by simp only [List.length_zipWith, hxl, hyl, min_self]) x.length _ _ I0
    (by simp only; omega)
  refine ⟨{ n := x.length, xs := (sort_index x).map (fun i => x.getD i 0),
            ys := (sort_index x).map (fun i => y.getD i 0),
            ax := _, v := _, L := L' }, cur0', ?_, rfl, rfl, rfl, hax, rfl, I', hfin⟩
  unfold dcovMerge
  simp only [hys, bind, Except.bind, hxs, hax, schur, hxl, hyl, if_true, hcol, List.length_map,
    List.length_range, hrun, pure, Except.pure]

theorem sum_sym_offdiag (f : Nat → Nat → K) (hs : ∀ p q, f p q = f q p) (hd : ∀ p, f p p = 0)
    (n : Nat) :
    ∑ p in range n, ∑ q in range n, f p q = 2 * ∑ p in range n, ∑ q in range p, f p q := by
  induction n with
  | zero => simp
  | succ n ih =>
    rw [Finset.sum_range_succ, Finset.sum_range_succ (fun p => ∑ q in range p, f p q)]
    have h1 : ∑ p in range n, ∑ q in range (n + 1), f p q
        = ∑ p in range n, ∑ q in range n, f p q + ∑ p in range n, f p n := by
      rw [← Finset.sum_add_distrib]
      apply Finset.sum_congr rfl
      intro p _
      rw [Finset.sum_range_succ]
    have h2 : ∑ p in range n, f p n = ∑ q in range n, f n q :=
      Finset.sum_congr rfl (fun p _ => hs p n)
    rw [h1, ih, Finset.sum_range_succ, hd, h2]
    ring

/-- Sum of absolute deviations from entry `i` of a non-decreasing sequence. -/
theorem absdev_closed (s : Nat → K) (n i : Nat) (hi : i < n)
    (hmono : ∀ a b, a ≤ b → b < n → s a ≤ s b) :
    ∑ j in range n, |s i - s j|
      = ((-((n : Int) - 2) + (i : Int) * 2 : Int) : K) * s i
        + (∑ j in range n, s j - 2 * ∑ j in range (i + 1), s j) := by
  have hsplit : ∀ g : Nat → K, ∑ j in range n, g j
      = ∑ j in range (i + 1), g j + ∑ j in Ico (i + 1) n, g j := fun g =>
    (Finset.sum_range_add_sum_Ico g (by omega)).symm
  rw [hsplit (fun j => |s i - s j|), hsplit s]
  have h1 : ∑ j in range (i + 1), |s i - s j| = ∑ j in range (i + 1), (s i - s j) := by
    apply Finset.sum_congr rfl
    intro j hj
    have : j ≤ i := by simpa [Nat.lt_succ_iff] using hj
    rw [abs_of_nonneg (sub_nonneg.mpr (hmono j i this hi))]
  have h2 : ∑ j in Ico (i + 1) n, |s i - s j| = ∑ j in Ico (i + 1) n, (s j - s i) := by
    apply Finset.sum_congr rfl
    intro j hj
    have hj' := Finset.mem_Ico.mp hj
    rw [abs_of_nonpos (sub_nonpos.mpr (hmono i j (by omega) hj'.2))]
    ring
  rw [h1, h2, Finset.sum_sub_distrib, Finset.sum_sub_distrib, Finset.sum_const, Finset.sum_const,
    Finset.card_range, Nat.card_Ico, nsmul_eq_mul, nsmul_eq_mul]
  have hc : ((n - (i + 1) : Nat) : K) = (n : K) - (i : K) - 1 := by
    rw [Nat.cast_sub (by omega)]; push_cast; ring
  rw [hc]
  push_cast
  ring

/-- With a non-decreasing `X`, the sum of the products of the pairwise distances
is four times the sum over the pairs `q < p` with `Y q < Y p`, minus twice the
centered inner product. -/
theorem frob_sorted (X Y : Nat → K) (n : Nat)
    (hmono : ∀ a b, a ≤ b → b < n → X a ≤ X b) :
    ∑ p in range n, ∑ q in range n, |X p - X q| * |Y p - Y q|
      = 4 * ∑ p in range n, ∑ q in (range p).filter (fun q => Y q < Y p),
            (X p - X q) * (Y p - Y q)
        - 2 * ((n : K) * ∑ p in range n, X p * Y p
                - (∑ p in range n, X p) * ∑ p in range n, Y p) := by
  rw [sum_sym_offdiag (fun p q => |X p - X q| * |Y p - Y q|)
    (fun p q => by simp only [abs_sub_comm]) (fun p => by simp)]
  have hg : ∑ p in range n, ∑ q in range n, (X p - X q) * (Y p - Y q)
      = 2 * ((n : K) * ∑ p in range n, X p * Y p
                - (∑ p in range n, X p) * ∑ p in range n, Y p) := by
    have : ∀ p, ∑ q in range n, (X p - X q) * (Y p - Y q)
        = (n : K) * (X p * Y p) - X p * (∑ q in range n, Y q) - (∑ q in range n, X q) * Y p
          + ∑ q in range n, X q * Y q := by
      intro p
      have e : ∀ q, (X p - X q) * (Y p - Y q) = X p * Y p - X p * Y q - X q * Y p + X q * Y q :=
        fun q => by ring
      simp only [e, Finset.sum_add_distrib, Finset.sum_sub_distrib, Finset.sum_const,
        Finset.card_range, nsmul_eq_mul, ← Finset.mul_sum, ← Finset.sum_mul]
    simp only [this, Finset.sum_add_distrib, Finset.sum_sub_distrib, Finset.sum_const,
      Finset.card_range, nsmul_eq_mul, ← Finset.mul_sum, ← Finset.sum_mul]
    ring
  have hg2 := sum_sym_offdiag (fun p q => (X p - X q) * (Y p - Y q))
    (fun p q => by ring) (fun p => by simp) n
  rw [hg] at hg2
  have hpt : ∀ p, p ∈ range n → ∑ q in range p, |X p - X q| * |Y p - Y q|
      = 2 * ∑ q in (range p).filter (fun q => Y q < Y p), (X p - X q) * (Y p - Y q)
        - ∑ q in range p, (X p - X q) * (Y p - Y q) := by
    intro p hp
    rw [Finset.sum_filter, Finset.mul_sum, ← Finset.sum_sub_distrib]
    apply Finset.sum_congr rfl
    intro q hq
    have hqp : q < p := Finset.mem_range.mp hq
    have hx : |X p - X q| = X p - X q :=
      abs_of_nonneg (sub_nonneg.mpr (hmono q p (le_of_lt hqp) (Finset.mem_range.mp hp)))
    rw [hx]
    by_cases hy : Y q < Y p
    · rw [if_pos hy, abs_of_pos (sub_pos.mpr hy)]; ring
    · rw [if_neg hy, abs_of_nonpos (sub_nonpos.mpr (not_lt.mp hy))]; ring
  rw [Finset.sum_congr rfl hpt, Finset.sum_sub_distrib, ← Finset.mul_sum]
  linear_combination hg2

theorem dcenter_row_sum (a : Nat → Nat → K) (n : Nat) (hn : 1 ≤ n) (i : Nat) :
    ∑ j in range n, dcenter a n i j = 0 := by
  have hN : (n : K) ≠ 0 := by exact_mod_cast (by omega : n ≠ 0)
  unfold dcenter
  simp only [Finset.sum_add_distrib, Finset.sum_sub_distrib, Finset.sum_const, Finset.card_range,
    nsmul_eq_mul, ← Finset.sum_div]
  rw [Finset.sum_comm]
  field_simp
  ring

theorem dcenter_col_sum (a : Nat → Nat → K) (n : Nat) (hn : 1 ≤ n) (j : Nat) :
    ∑ i in range n, dcenter a n i j = 0 := by
  have hN : (n : K) ≠ 0 := by exact_mod_cast (by omega : n ≠ 0)
  unfold dcenter
  simp only [Finset.sum_add_distrib, Finset.sum_sub_distrib, Finset.sum_const, Finset.card_range,
    nsmul_eq_mul, ← Finset.sum_div]
  field_simp
  ring

/-- The inner product of two double-centered symmetric matrices, from the plain
inner product, the row sums and the grand sums. -/
theorem dcenter_inner (a b : Nat → Nat → K) (n : Nat) (hn : 1 ≤ n)
    (ha : ∀ i j, a i j = a j i) (hb : ∀ i j, b i j = b j i) :
    ∑ i in range n, ∑ j in range n, dcenter a n i j * dcenter b n i j
      = ∑ i in range n, ∑ j in range n, a i j * b i j
        - 2 * (∑ i in range n, (∑ j in range n, a i j) * (∑ j in range n, b i j)) / (n : K)
        + (∑ i in range n, ∑ j in range n, a i j) * (∑ i in range n, ∑ j in range n, b i j)
            / ((n : K) * (n : K)) := by
  have hN : (n : K) ≠ 0 := by exact_mod_cast (by omega : n ≠ 0)
  -- step 1: the centering of `b` can be dropped
  have h1 : ∑ i in range n, ∑ j in range n, dcenter a n i j * dcenter b n i j
      = ∑ i in range n, ∑ j in range n, dcenter a n i j * b i j := by
    have e : ∀ i j, dcenter a n i j * dcenter b n i j
        = dcenter a n i j * b i j
          - dcenter a n i j * ((∑ l in range n, b i l) / (n : K))
          - dcenter a n i j * ((∑ l in range n, b l j) / (n : K))
          + dcenter a n i j * ((∑ k in range n, ∑ l in range n, b k l) / ((n : K) * (n : K))) := by
      intro i j
      conv_lhs => rw [dcenter.eq_def b]
      ring
    simp only [e, Finset.sum_add_distrib, Finset.sum_sub_distrib, ← Finset.sum_mul]
    have z1 : ∑ i in range n, (∑ j in range n, dcenter a n i j)
        * ((∑ l in range n, b i l) / (n : K)) = 0 := by
      apply Finset.sum_eq_zero
      intro i _
      rw [dcenter_row_sum a n hn i, zero_mul]
    have z2 : ∑ i in range n, ∑ j in range n, dcenter a n i j * ((∑ l in range n, b l j) / (n : K))
        = 0 := by
      rw [Finset.sum_comm]
      apply Finset.sum_eq_zero
      intro j _
      rw [← Finset.sum_mul, dcenter_col_sum a n hn j, zero_mul]
    have z3 : ∑ i in range n, ∑ j in range n, dcenter a n i j = 0 := by
      apply Finset.sum_eq_zero
      intro i _
      exact dcenter_row_sum a n hn i
    rw [z1, z2, z3]
    ring
  rw [h1]
  -- step 2: expand the centering of `a`
  have e2 : ∀ i j, dcenter a n i j * b i j
      = a i j * b i j - (∑ l in range n, a i l) / (n : K) * b i j
        - (∑ l in range n, a l j) / (n : K) * b i j
        + (∑ k in range n, ∑ l in range n, a k l) / ((n : K) * (n : K)) * b i j := by
    intro i j
    unfold dcenter
    ring
  simp only [e2, Finset.sum_add_distrib, Finset.sum_sub_distrib, ← Finset.mul_sum]
  have c1 : ∑ i in range n, ∑ j in range n, (∑ l in range n, a l j) / (n : K) * b i j
      = ∑ j in range n, (∑ l in range n, a j l) / (n : K) * ∑ i in range n, b j i := by
    rw [Finset.sum_comm]
    apply Finset.sum_congr rfl
    intro j _
    rw [← Finset.mul_sum]
    congr 1
    · congr 1
      exact Finset.sum_congr rfl (fun l _ => ha l j)
    · exact Finset.sum_congr rfl (fun i _ => hb i j)
  rw [c1]
  have c2 : ∑ i in range n, (∑ l in range n, a i l) / (n : K) * ∑ j in range n, b i j
      = (∑ i in range n, (∑ j in range n, a i j) * (∑ j in range n, b i j)) / (n : K) := by
    rw [Finset.sum_div]
    apply Finset.sum_congr rfl
    intro i _
    ring
  rw [c2]
  ring

theorem below_mul_self (s t : K) : below s t * below s t = below s t := by
  unfold below; split_ifs <;> simp

theorem below_mul_min (s a b : K) : below s a * below s b = below s (min a b) := by
  unfold below
  by_cases h1 : s < a <;> by_cases h2 : s < b <;> simp [h1, h2, lt_min_iff]

/-- Telescoping along a non-decreasing sequence, ties included: the gaps below
the value `s m` add up to `s m - s 0`. -/
theorem gaps_below (s : Nat → K) (n m : Nat) (hm : m < n)
    (hmono : ∀ a b, a ≤ b → b < n → s a ≤ s b) :
    ∑ k in range (n - 1), (s (k + 1) - s k) * below (s k) (s m) = s m - s 0 := by
  have hsub : range m ⊆ range (n - 1) := by
    intro k hk
    have := Finset.mem_range.mp hk
    exact Finset.mem_range.mpr (by omega)
  rw [← Finset.sum_subset hsub]
  · rw [← Finset.sum_range_sub s m]
    apply Finset.sum_congr rfl
    intro k hk
    have hk' := Finset.mem_range.mp hk
    unfold below
    by_cases h : s k < s m
    · rw [if_pos h, mul_one]
    · rw [if_neg h, mul_zero]
      have h1 : s k ≤ s (k + 1) := hmono k (k + 1) (by omega) (by omega)
      have h2 : s (k + 1) ≤ s m := hmono (k + 1) m (by omega) hm
      have h3 : s m ≤ s k := not_lt.mp h
      have : s (k + 1) = s k := le_antisymm (le_trans h2 h3) h1
      rw [this, sub_self]
  · intro k hk hkm
    have hk1 := Finset.mem_range.mp hk
    have hk2 : m ≤ k := by
      by_contra hh
      exact hkm (Finset.mem_range.mpr (by omega))
    have : ¬ s k < s m := not_lt.mpr (hmono m k hk2 (by omega))
    unfold below
    rw [if_neg this, mul_zero]

/-- Threshold decomposition of the distance matrix: with the gaps `w k` of the
sorted values and the indicators `below (s k) (u i)`, the distance `|u i - u j|`
is the weighted sum of the squared differences of the indicators. -/
theorem dist_thresholds (u s : Nat → K) (n : Nat)
    (hmono : ∀ a b, a ≤ b → b < n → s a ≤ s b)
    (hus : ∀ i, i < n → ∃ m, m < n ∧ s m = u i) (i j : Nat) (hi : i < n) (hj : j < n) :
    |u i - u j| = ∑ k in range (n - 1), (s (k + 1) - s k)
        * ((below (s k) (u i) - below (s k) (u j)) * (below (s k) (u i) - below (s k) (u j))) := by
  have hval : ∀ t, (∃ m, m < n ∧ s m = t) →
      ∑ k in range (n - 1), (s (k + 1) - s k) * below (s k) t = t - s 0 := by
    rintro t ⟨m, hm, rfl⟩
    exact gaps_below s n m hm hmono
  have hmin : ∃ m, m < n ∧ s m = min (u i) (u j) := by
    rcases le_total (u i) (u j) with h | h
    · rw [min_eq_left h]; exact hus i hi
    · rw [min_eq_right h]; exact hus j hj
  have e : ∀ k, (s (k + 1) - s k)
        * ((below (s k) (u i) - below (s k) (u j)) * (below (s k) (u i) - below (s k) (u j)))
      = (s (k + 1) - s k) * below (s k) (u i) + (s (k + 1) - s k) * below (s k) (u j)
        - 2 * ((s (k + 1) - s k) * below (s k) (min (u i) (u j))) := by
    intro k
    rw [← below_mul_min]
    have h1 := below_mul_self (s k) (u i)
    have h2 := below_mul_self (s k) (u j)
    linear_combination (s (k + 1) - s k) * h1 + (s (k + 1) - s k) * h2
  simp only [e, Finset.sum_add_distrib, Finset.sum_sub_distrib, ← Finset.mul_sum]
  rw [hval _ (hus i hi), hval _ (hus j hj), hval _ hmin]
  rcases le_total (u i) (u j) with h | h
  · rw [min_eq_left h, abs_of_nonpos (sub_nonpos.mpr h)]; ring
  · rw [min_eq_right h, abs_of_nonneg (sub_nonneg.mpr h)]; ring

theorem dcenter_congr (a a' : Nat → Nat → K) (n : Nat)
    (h : ∀ i, i < n → ∀ j, j < n → a i j = a' i j) (i j : Nat) (hi : i < n) (hj : j < n) :
    dcenter a n i j = dcenter a' n i j := by
  unfold dcenter
  have h1 : ∑ l in range n, a i l = ∑ l in range n, a' i l :=
    Finset.sum_congr rfl (fun l hl => h i hi l (Finset.mem_range.mp hl))
  have h2 : ∑ l in range n, a l j = ∑ l in range n, a' l j :=
    Finset.sum_congr rfl (fun l hl => h l (Finset.mem_range.mp hl) j hj)
  have h3 : ∑ k in range n, ∑ l in range n, a k l = ∑ k in range n, ∑ l in range n, a' k l :=
    Finset.sum_congr rfl (fun k hk => Finset.sum_congr rfl (fun l hl =>
      h k (Finset.mem_range.mp hk) l (Finset.mem_range.mp hl)))
  rw [h i hi j hj, h1, h2, h3]

/-- Double centering is linear in the matrix. -/
theorem dcenter_sum (m : Nat) (w : Nat → K) (M : Nat → Nat → Nat → K) (n i j : Nat) :
    dcenter (fun i j => ∑ k in range m, w k * M k i j) n i j
      = ∑ k in range m, w k * dcenter (M k) n i j := by
  have e1 : ∑ l in range n, ∑ k in range m, w k * M k i l
      = ∑ k in range m, w k * ∑ l in range n, M k i l := by
    rw [Finset.sum_comm]
    exact Finset.sum_congr rfl (fun k _ => (Finset.mul_sum _ _ _).symm)
  have e2 : ∑ l in range n, ∑ k in range m, w k * M k l j
      = ∑ k in range m, w k * ∑ l in range n, M k l j := by
    rw [Finset.sum_comm]
    exact Finset.sum_congr rfl (fun k _ => (Finset.mul_sum _ _ _).symm)
  have e3 : ∑ a in range n, ∑ l in range n, ∑ k in range m, w k * M k a l
      = ∑ k in range m, w k * ∑ a in range n, ∑ l in range n, M k a l := by
    have : ∀ a, ∑ l in range n, ∑ k in range m, w k * M k a l
        = ∑ k in range m, w k * ∑ l in range n, M k a l := by
      intro a
      rw [Finset.sum_comm]
      exact Finset.sum_congr rfl (fun k _ => (Finset.mul_sum _ _ _).symm)
    simp only [this]
    rw [Finset.sum_comm]
    exact Finset.sum_congr rfl (fun k _ => (Finset.mul_sum _ _ _).symm)
  have r : ∀ k, w k * dcenter (M k) n i j
      = w k * M k i j - (w k * ∑ l in range n, M k i l) / (n : K)
        - (w k * ∑ l in range n, M k l j) / (n : K)
        + (w k * ∑ a in range n, ∑ l in range n, M k a l) / ((n : K) * (n : K)) := by
    intro k
    unfold dcenter
    ring
  simp only [r, Finset.sum_add_distrib, Finset.sum_sub_distrib, ← Finset.sum_div]
  unfold dcenter
  rw [e1, e2, e3]

/-- Double centering of the squared differences of a vector `α`: minus twice the
outer product of the centered vector. -/
theorem dcenter_sq_diff (α : Nat → K) (n : Nat) (hn : 1 ≤ n) (i j : Nat) :
    dcenter (fun i j => (α i - α j) * (α i - α j)) n i j
      = -2 * ((α i - (∑ l in range n, α l) / (n : K)) * (α j - (∑ l in range n, α l) / (n : K))) := by
  have hN : (n : K) ≠ 0 := by exact_mod_cast (by omega : n ≠ 0)
  unfold dcenter
  have e : ∀ a b : Nat, (α a - α b) * (α a - α b) = α a * α a - 2 * (α a * α b) + α b * α b :=
    fun a b => by ring
  simp only [e, Finset.sum_add_distrib, Finset.sum_sub_distrib, Finset.sum_const,
    Finset.card_range, nsmul_eq_mul, ← Finset.mul_sum, ← Finset.sum_mul]
  field_simp
  ring

theorem sum4_swap (n m m' : Nat) (F : Nat → Nat → Nat → Nat → K) :
    ∑ i in range n, ∑ j in range n, ∑ k in range m, ∑ l in range m', F i j k l
      = ∑ k in range m, ∑ l in range m', ∑ i in range n, ∑ j in range n, F i j k l := by
  have s1 : ∑ i in range n, ∑ j in range n, ∑ k in range m, ∑ l in range m', F i j k l
      = ∑ i in range n, ∑ k in range m, ∑ j in range n, ∑ l in range m', F i j k l :=
    Finset.sum_congr rfl (fun i _ => Finset.sum_comm)
  have s2 : ∑ i in range n, ∑ k in range m, ∑ j in range n, ∑ l in range m', F i j k l
      = ∑ k in range m, ∑ i in range n, ∑ j in range n, ∑ l in range m', F i j k l :=
    Finset.sum_comm
  have s3 : ∑ k in range m, ∑ i in range n, ∑ j in range n, ∑ l in range m', F i j k l
      = ∑ k in range m, ∑ i in range n, ∑ l in range m', ∑ j in range n, F i j k l :=
    Finset.sum_congr rfl (fun k _ => Finset.sum_congr rfl (fun i _ => Finset.sum_comm))
  have s4 : ∑ k in range m, ∑ i in range n, ∑ l in range m', ∑ j in range n, F i j k l
      = ∑ k in range m, ∑ l in range m', ∑ i in range n, ∑ j in range n, F i j k l :=
    Finset.sum_congr rfl (fun k _ => Finset.sum_comm)
  rw [s1, s2, s3, s4]

/-- The inner product of two double-centered distance matrices is not negative. -/
theorem dcenter_dist_inner_nonneg (u v s t : Nat → K) (n : Nat) (hn : 1 ≤ n)
    (hs : ∀ a b, a ≤ b → b < n → s a ≤ s b) (ht : ∀ a b, a ≤ b → b < n → t a ≤ t b)
    (hus : ∀ i, i < n → ∃ m, m < n ∧ s m = u i)
    (hvt : ∀ i, i < n → ∃ m, m < n ∧ t m = v i) :
    0 ≤ ∑ i in range n, ∑ j in range n,
      dcenter (fun i j => |u i - u j|) n i j * dcenter (fun i j => |v i - v j|) n i j := by
  have hA : ∀ i, i < n → ∀ j, j < n → dcenter (fun i j => |u i - u j|) n i j
      = ∑ k in range (n - 1), (s (k + 1) - s k)
          * (-2 * ((below (s k) (u i) - (∑ l in range n, below (s k) (u l)) / (n : K))
              * (below (s k) (u j) - (∑ l in range n, below (s k) (u l)) / (n : K)))) := by
    intro i hi j hj
    rw [dcenter_congr _ _ n (fun i hi j hj => dist_thresholds u s n hs hus i j hi hj) i j hi hj,
      dcenter_sum]
    exact Finset.sum_congr rfl (fun k _ => by rw [dcenter_sq_diff _ n hn])
  have hB : ∀ i, i < n → ∀ j, j < n → dcenter (fun i j => |v i - v j|) n i j
      = ∑ k in range (n - 1), (t (k + 1) - t k)
          * (-2 * ((below (t k) (v i) - (∑ l in range n, below (t k) (v l)) / (n : K))
              * (below (t k) (v j) - (∑ l in range n, below (t k) (v l)) / (n : K)))) := by
    intro i hi j hj
    rw [dcenter_congr _ _ n (fun i hi j hj => dist_thresholds v t n ht hvt i j hi hj) i j hi hj,
      dcenter_sum]
    exact Finset.sum_congr rfl (fun k _ => by rw [dcenter_sq_diff _ n hn])
  have hrw : ∑ i in range n, ∑ j in range n,
      dcenter (fun i j => |u i - u j|) n i j * dcenter (fun i j => |v i - v j|) n i j
      = ∑ i in range n, ∑ j in range n, ∑ k in range (n - 1), ∑ l in range (n - 1),
          (4 * ((s (k + 1) - s k) * (t (l + 1) - t l)))
            * (((below (s k) (u i) - (∑ a in range n, below (s k) (u a)) / (n : K))
                * (below (t l) (v i) - (∑ a in range n, below (t l) (v a)) / (n : K)))
              * ((below (s k) (u j) - (∑ a in range n, below (s k) (u a)) / (n : K))
                * (below (t l) (v j) - (∑ a in range n, below (t l) (v a)) / (n : K)))) := by
    apply Finset.sum_congr rfl
    intro i hi
    apply Finset.sum_congr rfl
    intro j hj
    rw [hA i (Finset.mem_range.mp hi) j (Finset.mem_range.mp hj),
      hB i (Finset.mem_range.mp hi) j (Finset.mem_range.mp hj), Finset.sum_mul_sum]
    apply Finset.sum_congr rfl
    intro k _
    apply Finset.sum_congr rfl
    intro l _
    ring
  rw [hrw, sum4_swap]
  apply Finset.sum_nonneg
  intro k hk
  apply Finset.sum_nonneg
  intro l hl
  have hk' := Finset.mem_range.mp hk
  have hl' := Finset.mem_range.mp hl
  have hwk : 0 ≤ s (k + 1) - s k := sub_nonneg.mpr (hs k (k + 1) (by omega) (by omega))
  have hwl : 0 ≤ t (l + 1) - t l := sub_nonneg.mpr (ht l (l + 1) (by omega) (by omega))
  simp only [← Finset.mul_sum, ← Finset.sum_mul]
  exact mul_nonneg (mul_nonneg (by norm_num) (mul_nonneg hwk hwl)) (mul_self_nonneg _)

theorem list_sum_map_range (g : Nat → K) (n : Nat) :
    ((List.range n).map g).sum = ∑ i in range n, g i := by
  induction n with
  | zero => simp
  | succ n ih => rw [List.range_succ, List.map_append, List.sum_append, ih, Finset.sum_range_succ]; simp

theorem accu_eq_sum (l : List K) (n : Nat) (hl : l.length = n) :
    accu l = ∑ i in range n, l.getD i 0 := by
  unfold accu
  conv_lhs => rw [list_eq_map_range l 0, hl]
  exact list_sum_map_range _ n

theorem dot_eq_sum (a b : List K) (n : Nat) (ha : a.length = n) (hb : b.length = n) :
    dot a b = .ok (∑ i in range n, a.getD i 0 * b.getD i 0) := by
  unfold dot
  rw [if_pos (by rw [ha, hb])]
  congr 1
  conv_lhs => rw [list_eq_map_range a 0, list_eq_map_range b 0, ha, hb, zipWith_map_range]
  exact list_sum_map_range _ n

/-- Reindexing a sum along a rearrangement of `0 .. n-1`. -/
theorem sum_perm_range (p : List Nat) (n : Nat) (hp : p.Perm (List.range n)) (F : Nat → K) :
    ∑ i in range n, F (p.getD i 0) = ∑ a in range n, F a := by
  have hlen : p.length = n := by rw [hp.length_eq, List.length_range]
  rw [← list_sum_map_range, ← list_sum_map_range]
  have h1 : (List.range n).map (fun i => F (p.getD i 0)) = p.map F := by
    conv_rhs => rw [list_eq_map_range p 0, hlen, List.map_map]
    rfl
  rw [h1]
  exact (hp.map F).sum_eq

theorem getD_map_of_lt {α : Type} (l : List Nat) (f : Nat → α) (d : α) (i : Nat)
    (hi : i < l.length) : (l.map f).getD i d = f (l.getD i 0) := by
  simp [List.getD_eq_getElem?_getD, List.getElem?_eq_getElem hi]

theorem getD_zipWith_mul (a b : List K) (i : Nat) (ha : i < a.length) (hb : i < b.length) :
    (List.zipWith (· * ·) a b).getD i 0 = a.getD i 0 * b.getD i 0 := by
  simp [List.getD_eq_getElem?_getD, List.getElem?_eq_getElem ha, List.getElem?_eq_getElem hb,
    List.getElem?_zipWith]

theorem regspace2_rowsel (n : Nat) (hn : 1 ≤ n) :
    (regspace2 ((n : Int) - 1) 0).map Int.toNat = (List.range n).map (fun m => n - 1 - m) := by
  unfold regspace2 regspace
  by_cases h1 : n = 1
  · subst h1
    decide
  · have h0 : ¬ ((n : Int) - 1 ≤ 0) := by omega
    simp only [h0, if_false]
    have h2 : ¬ ((((n : Int) - 1 < 0) ∧ ((-1 : Int) < 0)) ∨ ((0 : Int) < (n : Int) - 1 ∧ (0 : Int) < -1)
        ∨ (-1 : Int) = 0) := by omega
    rw [if_neg h2]
    have h3 : |0 - ((n : Int) - 1)| = (n : Int) - 1 := by
      rw [abs_of_nonpos (by omega)]; ring
    have h4 : |(-1 : Int)| = 1 := rfl
    rw [h3, h4, List.map_map]
    have h5 : (((n : Int) - 1) / 1).toNat + 1 = n := by omega
    rw [h5]
    apply List.map_congr_left
    intro m hm
    have := List.mem_range.mp hm
    simp only [Function.comp]
    omega

theorem map_range_rev {α : Type} (l : List α) (d : α) (n : Nat) (hl : l.length = n) :
    (List.range n).map (fun m => l.getD (n - 1 - m) d) = l.reverse := by
  apply List.ext_getElem
  · simp [hl]
  · intro i h1 h2
    have hi : i < n := by simpa using h1
    simp only [List.getElem_map, List.getElem_range, List.getElem_reverse, hl]
    rw [List.getD_eq_getElem?_getD, List.getElem?_eq_getElem (by omega)]
    rfl

/-- The scatter `v.elem(ix) = w` along distinct in-range indices. -/
theorem scatter_spec (ix : List Nat) (w v : List K) (hlen : ix.length = w.length)
    (hlt : ∀ i ∈ ix, i < v.length) (hnd : ix.Nodup) :
    ∃ r, scatter v ix w = .ok r ∧ r.length = v.length
      ∧ (∀ t, t < ix.length → r.getD (ix.getD t 0) 0 = w.getD t 0)
      ∧ (∀ p, p ∉ ix → r.getD p 0 = v.getD p 0) := by
  unfold scatter
  rw [if_pos hlen]
  induction ix generalizing w v with
  | nil =>
    refine ⟨v, ?_, rfl, ?_, ?_⟩
    · simp [List.foldlM, pure, Except.pure]
    · intro t ht; simp at ht
    · intro p _; rfl
  | cons a ix ih =>
    cases w with
    | nil => simp at hlen
    | cons b w =>
      have ha : a < v.length := hlt a (List.mem_cons_self _ _)
      have hnd' := List.nodup_cons.mp hnd
      obtain ⟨r, hrun, hrl, hget, hout⟩ := ih w (v.set a b) (by simpa using hlen)
        (fun i hi => by rw [List.length_set]; exact hlt i (List.mem_cons_of_mem _ hi)) hnd'.2
      refine ⟨r, ?_, ?_, ?_, ?_⟩
      · simp only [List.zip_cons_cons, List.foldlM_cons, setAt_ok _ _ _ ha, bind, Except.bind]
        exact hrun
      · rw [hrl, List.length_set]
      · intro t ht
        cases t with
        | zero =>
          simp only [List.getD_cons_zero]
          rw [hout a hnd'.1]
          simp [List.getD_eq_getElem?_getD, List.getElem?_set, ha]
        | succ t =>
          simp only [List.getD_cons_succ]
          exact hget t (by simpa using ht)
      · intro p hp
        have hpa : p ≠ a := fun e => hp (e ▸ List.mem_cons_self _ _)
        have hpi : p ∉ ix := fun e => hp (List.mem_cons_of_mem _ e)
        rw [hout p hpi]
        have : ¬ a = p := fun e => hpa e.symm
        simp [List.getD_eq_getElem?_getD, List.getElem?_set, this]

theorem getD_map_map (x : List K) (f g : K → K) (i : Nat) (hi : i < x.length) :
    ((x.map f).map g).getD i 0 = g (f (x.getD i 0)) := by
  simp [List.getD_eq_getElem?_getD, List.getElem?_eq_getElem hi]

theorem getD_map_one (x : List K) (f : K → K) (i : Nat) (hi : i < x.length) :
    (x.map f).getD i 0 = f (x.getD i 0) := by
  simp [List.getD_eq_getElem?_getD, List.getElem?_eq_getElem hi]

/-- The value `covterm` of line 119: centering both vectors by `mean(x)` gives
`n * sum(x*y) - sum(x) * sum(y)`. -/
theorem covterm_spec (x y : List K) (n : Nat) (hx : x.length = n) (hy : y.length = n)
    (hn : 1 ≤ n) :
    dot ((x.map (· - mean x)).map ((n : K) * ·)) (y.map (· - mean x))
      = .ok ((n : K) * ∑ i in range n, x.getD i 0 * y.getD i 0
          - (∑ i in range n, x.getD i 0) * ∑ i in range n, y.getD i 0) := by
  have hN : (n : K) ≠ 0 := by exact_mod_cast (by omega : n ≠ 0)
  rw [dot_eq_sum _ _ n (by simp [hx]) (by simp [hy])]
  congr 1
  have hmean : mean x = (∑ i in range n, x.getD i 0) / (n : K) := by
    unfold mean
    rw [accu_eq_sum x n hx, hx]
  have hpt : ∀ i ∈ range n, ((x.map (· - mean x)).map ((n : K) * ·)).getD i 0
      * (y.map (· - mean x)).getD i 0
      = (n : K) * (x.getD i 0 * y.getD i 0) - (n : K) * mean x * y.getD i 0
        - (n : K) * mean x * x.getD i 0 + (n : K) * mean x * mean x := by
    intro i hi
    have hi' := Finset.mem_range.mp hi
    rw [getD_map_map x _ _ i (by omega), getD_map_one y _ i (by omega)]
    ring
  rw [Finset.sum_congr rfl hpt]
  simp only [Finset.sum_add_distrib, Finset.sum_sub_distrib, ← Finset.mul_sum, Finset.sum_const,
    Finset.card_range, nsmul_eq_mul]
  rw [hmean]
  field_simp

theorem sorted_getD_mono (xs : List K) (hsorted : xs.Pairwise (· ≤ ·)) (a b : Nat)
    (hab : a ≤ b) (hb : b < xs.length) : xs.getD a 0 ≤ xs.getD b 0 := by
  rcases Nat.lt_or_eq_of_le hab with h | h
  · have := List.pairwise_iff_getElem.mp hsorted a b (by omega) (by omega) h
    rw [List.getD_eq_getElem?_getD, List.getD_eq_getElem?_getD,
      List.getElem?_eq_getElem (show a < xs.length by omega),
      List.getElem?_eq_getElem (show b < xs.length by omega)]
    exact this
  · rw [h]

/-- The vector `ax` holds the row sums of the distance matrix of the sorted `x`. -/
theorem ax_spec (n : Nat) (xs ax : List K) (hxs : xs.length = n) (hn : 1 ≤ n)
    (hsorted : xs.Pairwise (· ≤ ·)) (hax : absDevSums n xs = .ok ax) :
    ax.length = n ∧ ∀ i, i < n → ax.getD i 0 = rowSum xs i := by
  rw [absDevSums_spec n xs hxs hn] at hax
  have hax' := (Except.ok.inj hax).symm
  subst hax'
  refine ⟨by simp, ?_⟩
  intro i hi
  rw [getD_map_of_lt _ _ _ _ (by simpa using hi)]
  have hri : (List.range n).getD i 0 = i := by
    simp [List.getD_eq_getElem?_getD, List.getElem?_eq_getElem (show i < (List.range n).length by simpa using hi)]
  rw [hri]
  have hmono : ∀ a b, a ≤ b → b < n → xs.getD a 0 ≤ xs.getD b 0 :=
    fun a b hab hb => sorted_getD_mono xs hsorted a b hab (by rw [hxs]; exact hb)
  unfold rowSum dist
  rw [hxs, absdev_closed (fun j => xs.getD j 0) n i hi hmono]
  congr 2
  · conv_lhs => rw [list_eq_map_range xs 0, hxs]
    exact list_sum_map_range _ n
  · have : (xs.take (i + 1)) = (List.range (i + 1)).map (fun j => xs.getD j 0) := by
      apply List.ext_getElem
      · simp; omega
      · intro j h1 h2
        have hj : j < i + 1 := by simpa using h2
        simp [List.getD_eq_getElem?_getD, List.getElem?_eq_getElem (show j < xs.length by omega)]
    rw [this, list_sum_map_range]

/-- Rows `n-1, ..., 0` of the surviving index column: the column reversed. -/
theorem rowsel_elem (n : Nat) (cur : List Nat) (hcur : cur.length = n) (hn : 1 ≤ n) :
    elem cur ((regspace2 ((n : Int) - 1) 0).map Int.toNat) = .ok cur.reverse := by
  rw [regspace2_rowsel n hn, elem_ok cur 0]
  · rw [List.map_map]
    congr 1
    exact map_range_rev cur 0 n hcur
  · intro i hi
    obtain ⟨m, hm, rfl⟩ := List.mem_map.mp hi
    have := List.mem_range.mp hm
    omega

/-- The vector `by` holds the row sums of the distance matrix of `ys`. -/
theorem by_spec (n : Nat) (ys : List K) (cur0 : List Nat) (hys : ys.length = n) (hn : 1 ≤ n)
    (hperm : cur0.Perm (List.range n)) (hdesc : DescBy (fun p => ys.getD p 0) cur0) :
    ∃ W by', absDevSums n (cur0.reverse.map (fun p => ys.getD p 0)) = .ok W
      ∧ scatter (List.replicate n (0 : K)) cur0.reverse W = .ok by'
      ∧ by'.length = n ∧ ∀ p, p < n → by'.getD p 0 = rowSum ys p := by
  have hlen : cur0.length = n := by rw [hperm.length_eq, List.length_range]
  have hsl : (cur0.reverse.map (fun p => ys.getD p 0)).length = n := by simp [hlen]
  have hW := absDevSums_spec n _ hsl hn
  have hsorted : (cur0.reverse.map (fun p => ys.getD p 0)).Pairwise (· ≤ ·) := by
    apply List.pairwise_map.mpr
    apply List.pairwise_reverse.mpr
    exact hdesc
  obtain ⟨hWl, hWg⟩ := ax_spec n _ _ hsl hn hsorted hW
  have hrperm : cur0.reverse.Perm (List.range n) := (List.reverse_perm cur0).trans hperm
  obtain ⟨r, hrun, hrl, hget, _⟩ := scatter_spec cur0.reverse _ (List.replicate n (0 : K))
    (by rw [hWl, List.length_reverse, hlen])
    (fun i hi => by
      rw [List.length_replicate]
      exact List.mem_range.mp (hrperm.mem_iff.mp hi))
    (List.nodup_reverse.mpr (hperm.nodup_iff.mpr (List.nodup_range n)))
  refine ⟨_, r, hW, hrun, by rw [hrl, List.length_replicate], ?_⟩
  intro p hp
  have hmem : p ∈ cur0.reverse := hrperm.mem_iff.mpr (List.mem_range.mpr hp)
  obtain ⟨t, ht, hpt⟩ := List.mem_iff_getElem.mp hmem
  have hgd : cur0.reverse.getD t 0 = p := by
    rw [List.getD_eq_getElem?_getD, List.getElem?_eq_getElem ht]; exact hpt
  have htn : t < n := by rw [List.length_reverse, hlen] at ht; exact ht
  rw [← hgd, hget t ht, hWg t htn]
  unfold rowSum dist
  rw [hsl, hys]
  have hS : ∀ j, j < n → (cur0.reverse.map (fun p => ys.getD p 0)).getD j 0
      = ys.getD (cur0.reverse.getD j 0) 0 := fun j hj =>
    getD_map_of_lt _ _ _ _ (by rw [List.length_reverse, hlen]; exact hj)
  rw [hS t htn]
  rw [← sum_perm_range cur0.reverse n hrperm
    (fun q => |ys.getD (cur0.reverse.getD t 0) 0 - ys.getD q 0|)]
  apply Finset.sum_congr rfl
  intro j hj
  rw [hS j (Finset.mem_range.mp hj)]

/-- The cross term `d` assembled from the four accumulators is the inner product
of the two distance matrices of the sorted data. -/
theorem d_spec (n : Nat) (X Y : Nat → K) (iv1 iv2 iv3 iv4 : Nat → K)
    (hmono : ∀ a b, a ≤ b → b < n → X a ≤ X b)
    (g1 : ∀ p, p < n → iv1 p = ∑ _q in (range p).filter (fun q => Y q < Y p), 1)
    (g2 : ∀ p, p < n → iv2 p = ∑ q in (range p).filter (fun q => Y q < Y p), X q)
    (g3 : ∀ p, p < n → iv3 p = ∑ q in (range p).filter (fun q => Y q < Y p), Y q)
    (g4 : ∀ p, p < n → iv4 p = ∑ q in (range p).filter (fun q => Y q < Y p), X q * Y q) :
    4 * ((∑ p in range n, iv1 p * (X p * Y p) + ∑ p in range n, iv4 p)
          - (∑ p in range n, iv2 p * Y p + ∑ p in range n, iv3 p * X p))
        - 2 * ((n : K) * ∑ p in range n, X p * Y p
                - (∑ p in range n, X p) * ∑ p in range n, Y p)
      = ∑ p in range n, ∑ q in range n, |X p - X q| * |Y p - Y q| := by
  rw [frob_sorted X Y n hmono]
  congr 2
  rw [← Finset.sum_add_distrib, ← Finset.sum_add_distrib, ← Finset.sum_sub_distrib]
  apply Finset.sum_congr rfl
  intro p hp
  have hp' := Finset.mem_range.mp hp
  rw [g1 p hp', g2 p hp', g3 p hp', g4 p hp']
  have e : ∀ q, (X p - X q) * (Y p - Y q) = 1 * (X p * Y p) + X q * Y q - (X q * Y p + Y q * X p) :=
    fun q => by ring
  simp only [e, Finset.sum_add_distrib, Finset.sum_sub_distrib, ← Finset.sum_mul]

theorem dist_gather (p : List Nat) (x : List K) (i j : Nat) (hi : i < p.length)
    (hj : j < p.length) :
    dist (p.map (fun a => x.getD a 0)) i j = dist x (p.getD i 0) (p.getD j 0) := by
  unfold dist
  rw [getD_map_of_lt p _ 0 i hi, getD_map_of_lt p _ 0 j hj]

theorem rowSum_gather (p : List Nat) (x : List K) (n : Nat) (hp : p.Perm (List.range n))
    (hx : x.length = n) (i : Nat) (hi : i < n) :
    rowSum (p.map (fun a => x.getD a 0)) i = rowSum x (p.getD i 0) := by
  have hlen : p.length = n := by rw [hp.length_eq, List.length_range]
  unfold rowSum
  rw [List.length_map, hlen, hx, ← sum_perm_range p n hp (fun b => dist x (p.getD i 0) b)]
  apply Finset.sum_congr rfl
  intro j hj
  exact dist_gather p x i j (by omega) (by rw [hlen]; exact Finset.mem_range.mp hj)

/-- Reordering both samples by one rearrangement leaves the inner product of the
distance matrices unchanged. -/
theorem frob_gather (p : List Nat) (x y : List K) (n : Nat) (hp : p.Perm (List.range n))
    (hx : x.length = n) :
    frob (p.map (fun a => x.getD a 0)) (p.map (fun a => y.getD a 0)) = frob x y := by
  have hlen : p.length = n := by rw [hp.length_eq, List.length_range]
  unfold frob
  rw [List.length_map, hlen, hx,
    ← sum_perm_range p n hp (fun a => ∑ b in range n, dist x a b * dist y a b)]
  apply Finset.sum_congr rfl
  intro i hi
  have hi' := Finset.mem_range.mp hi
  rw [← sum_perm_range p n hp (fun b => dist x (p.getD i 0) b * dist y (p.getD i 0) b)]
  apply Finset.sum_congr rfl
  intro j hj
  have hj' := Finset.mem_range.mp hj
  rw [dist_gather p x i j (by omega) (by omega), dist_gather p y i j (by omega) (by omega)]

theorem rowSum_prod_gather (p : List Nat) (x y : List K) (n : Nat) (hp : p.Perm (List.range n))
    (hx : x.length = n) (hy : y.length = n) :
    ∑ i in range n, rowSum (p.map (fun a => x.getD a 0)) i * rowSum (p.map (fun a => y.getD a 0)) i
      = ∑ a in range n, rowSum x a * rowSum y a := by
  rw [← sum_perm_range p n hp (fun a => rowSum x a * rowSum y a)]
  apply Finset.sum_congr rfl
  intro i hi
  have hi' := Finset.mem_range.mp hi
  rw [rowSum_gather p x n hp hx i hi', rowSum_gather p y n hp hy i hi']

theorem rowSum_sum_gather (p : List Nat) (x : List K) (n : Nat) (hp : p.Perm (List.range n))
    (hx : x.length = n) :
    ∑ i in range n, rowSum (p.map (fun a => x.getD a 0)) i = ∑ a in range n, rowSum x a := by
  rw [← sum_perm_range p n hp (fun a => rowSum x a)]
  apply Finset.sum_congr rfl
  intro i hi
  exact rowSum_gather p x n hp hx i (Finset.mem_range.mp hi)

/-- The three terms that `dcov` combines: the inner product of the two distance
matrices, the inner product of their row sums, and the product of their grand
sums. -/
theorem dcovTerms_spec (x y : List K) (hlen : x.length = y.length) (hn : 1 ≤ x.length) :
    ∃ t, dcovTerms x y = .ok t
      ∧ t.term1 = frob x y
      ∧ t.term2 = ∑ a in range x.length, rowSum x a * rowSum y a
      ∧ t.term3 = (∑ a in range x.length, rowSum x a) * ∑ a in range x.length, rowSum y a
      ∧ t.d = frob x y
      ∧ t.covterm = (x.length : K) * ∑ i in range x.length, x.getD i 0 * y.getD i 0
          - (∑ i in range x.length, x.getD i 0) * ∑ i in range x.length, y.getD i 0 := by
  obtain ⟨m, cur0, hm, hmn, hxs, hys, hax, hv, I, hfin⟩ := dcovMerge_spec x y hn (le_of_eq hlen)
  have hp := sort_index_perm x
  have hplen : (sort_index x).length = x.length := by rw [hp.length_eq, List.length_range]
  have hxl : m.xs.length = x.length := by rw [hxs, List.length_map, hplen]
  have hyl : m.ys.length = x.length := by rw [hys, List.length_map, hplen]
  have hsorted : m.xs.Pairwise (· ≤ ·) := by
    rw [hxs, ← sort_eq_map_sort_index]; exact sort_sorted x
  obtain ⟨haxl, haxg⟩ := ax_spec x.length m.xs m.ax hxl hn hsorted hax
  have hcov := covterm_spec x y x.length rfl hlen.symm hn
  have hc2l : m.v.c2.length = x.length := by
    rw [hv]; simp only [List.length_zipWith, hxl, hyl, min_self]
  have hc1 := dot_eq_sum m.L.iv1 m.v.c2 x.length I.hl1 hc2l
  have hc2 := accu_eq_sum m.L.iv4 x.length I.hl4
  have hc3 := dot_eq_sum m.L.iv2 m.ys x.length I.hl2 hyl
  have hc4 := dot_eq_sum m.L.iv3 m.xs x.length I.hl3 hxl
  have hcurlen : (cur0.map (· + 1)).length = x.length := by
    rw [List.length_map, I.hB.length]
  have hcol : m.L.col (m.L.r - 1) = .ok (cur0.map (· + 1)) := by
    have hcur := I.hcur
    rcases I.hrs with ⟨hr, _⟩ | ⟨hr, _⟩
    · simp only [hr, if_true] at hcur
      simp only [LoopState.col, hr, Nat.sub_self, if_true, hcur]
    · simp only [hr, if_false, (by decide : ¬ (2 = 1))] at hcur
      simp only [LoopState.col, hr, Nat.add_one_sub_one, Nat.succ_ne_zero, if_false, if_true, hcur]
  have hsel := rowsel_elem x.length (cur0.map (· + 1)) hcurlen hn
  have hsub : ((cur0.map (· + 1)).reverse).map usub1 = cur0.reverse := by
    rw [← List.map_reverse, map_usub1_map_succ]
  have hdesc := I.hB.final hfin
  have hysorted := elem_ok m.ys 0 cur0.reverse (fun i hi => by
    rw [hyl]; exact I.hB.lt i (List.mem_reverse.mp hi))
  obtain ⟨W, by', hW, hsc, hbyl, hbyg⟩ := by_spec x.length m.ys cur0 hyl hn I.hB.hperm hdesc
  have ht2 := dot_eq_sum m.ax by' x.length haxl hbyl
  have hmono : ∀ a b, a ≤ b → b < x.length → m.xs.getD a 0 ≤ m.xs.getD b 0 :=
    fun a b hab hb => sorted_getD_mono m.xs hsorted a b hab (by rw [hxl]; exact hb)
  have hvc0 : m.v.c0 = m.xs := by rw [hv]
  have hvc1 : m.v.c1 = m.ys := by rw [hv]
  have hvc2 : ∀ q, q < x.length → m.v.c2.getD q 0 = m.xs.getD q 0 * m.ys.getD q 0 := by
    intro q hq
    rw [hv]
    exact getD_zipWith_mul _ _ q (by rw [hxl]; exact hq) (by rw [hyl]; exact hq)
  have hd := d_spec x.length (fun p => m.xs.getD p 0) (fun p => m.ys.getD p 0)
    (fun p => m.L.iv1.getD p 0) (fun p => m.L.iv2.getD p 0) (fun p => m.L.iv3.getD p 0)
    (fun p => m.L.iv4.getD p 0) hmono
    (fun p hp => by
      simp only; rw [I.g1 p hp, accSpec_final _ _ x.length _ p hp hfin])
    (fun p hp => by
      simp only; rw [I.g2 p hp, accSpec_final _ _ x.length _ p hp hfin, hvc0])
    (fun p hp => by
      simp only; rw [I.g3 p hp, accSpec_final _ _ x.length _ p hp hfin, hvc1])
    (fun p hp => by
      simp only; rw [I.g4 p hp, accSpec_final _ _ x.length _ p hp hfin]
      apply Finset.sum_congr rfl
      intro q hq
      have := Finset.mem_range.mp (Finset.mem_filter.mp hq).1
      exact hvc2 q (lt_trans this hp))
  -- sums over the sorted data are sums over the input
  have hsumxy : ∑ i in range x.length, m.xs.getD i 0 * m.ys.getD i 0
      = ∑ i in range x.length, x.getD i 0 * y.getD i 0 := by
    rw [← sum_perm_range (sort_index x) x.length hp (fun a => x.getD a 0 * y.getD a 0)]
    apply Finset.sum_congr rfl
    intro i hi
    have hi' := Finset.mem_range.mp hi
    rw [hxs, hys, getD_map_of_lt _ _ _ _ (by rw [hplen]; exact hi'),
      getD_map_of_lt _ _ _ _ (by rw [hplen]; exact hi')]
  have hsumx : ∑ i in range x.length, m.xs.getD i 0 = ∑ i in range x.length, x.getD i 0 := by
    rw [← sum_perm_range (sort_index x) x.length hp (fun a => x.getD a 0)]
    apply Finset.sum_congr rfl
    intro i hi
    have hi' := Finset.mem_range.mp hi
    rw [hxs, getD_map_of_lt _ _ _ _ (by rw [hplen]; exact hi')]
  have hsumy : ∑ i in range x.length, m.ys.getD i 0 = ∑ i in range x.length, y.getD i 0 := by
    rw [← sum_perm_range (sort_index x) x.length hp (fun a => y.getD a 0)]
    apply Finset.sum_congr rfl
    intro i hi
    have hi' := Finset.mem_range.mp hi
    rw [hys, getD_map_of_lt _ _ _ _ (by rw [hplen]; exact hi')]
  have hfrob : frob m.xs m.ys = frob x y := by
    rw [hxs, hys]; exact frob_gather _ x y x.length hp rfl
  have hfrob' : ∑ p in range x.length, ∑ q in range x.length,
      |m.xs.getD p 0 - m.xs.getD q 0| * |m.ys.getD p 0 - m.ys.getD q 0| = frob m.xs m.ys := by
    unfold frob dist; rw [hxl]
  have e : ∀ p ∈ range x.length, m.L.iv1.getD p 0 * m.v.c2.getD p 0
      = m.L.iv1.getD p 0 * (m.xs.getD p 0 * m.ys.getD p 0) := fun p hp => by
    rw [hvc2 p (Finset.mem_range.mp hp)]
  have hdval : 4 * ((∑ p in range x.length, m.L.iv1.getD p 0 * m.v.c2.getD p 0
        + ∑ p in range x.length, m.L.iv4.getD p 0)
        - (∑ p in range x.length, m.L.iv2.getD p 0 * m.ys.getD p 0
          + ∑ p in range x.length, m.L.iv3.getD p 0 * m.xs.getD p 0))
      - 2 * ((x.length : K) * ∑ i in range x.length, x.getD i 0 * y.getD i 0
          - (∑ i in range x.length, x.getD i 0) * ∑ i in range x.length, y.getD i 0)
      = frob x y := by
    rw [← hfrob, ← hfrob', ← hd, Finset.sum_congr rfl e, hsumxy, hsumx, hsumy]
  have hrun : dcovTerms x y = .ok
      { covterm := (x.length : K) * ∑ i in range x.length, x.getD i 0 * y.getD i 0
          - (∑ i in range x.length, x.getD i 0) * ∑ i in range x.length, y.getD i 0,
        c1 := ∑ p in range x.length, m.L.iv1.getD p 0 * m.v.c2.getD p 0,
        c2 := ∑ p in range x.length, m.L.iv4.getD p 0,
        c3 := ∑ p in range x.length, m.L.iv2.getD p 0 * m.ys.getD p 0,
        c4 := ∑ p in range x.length, m.L.iv3.getD p 0 * m.xs.getD p 0,
        d := 4 * ((∑ p in range x.length, m.L.iv1.getD p 0 * m.v.c2.getD p 0
            + ∑ p in range x.length, m.L.iv4.getD p 0)
            - (∑ p in range x.length, m.L.iv2.getD p 0 * m.ys.getD p 0
              + ∑ p in range x.length, m.L.iv3.getD p 0 * m.xs.getD p 0))
          - 2 * ((x.length : K) * ∑ i in range x.length, x.getD i 0 * y.getD i 0
              - (∑ i in range x.length, x.getD i 0) * ∑ i in range x.length, y.getD i 0),
        sub_y := cur0.reverse,
        ysorted := cur0.reverse.map (fun i => m.ys.getD i 0),
        by' := by',
        term1 := 4 * ((∑ p in range x.length, m.L.iv1.getD p 0 * m.v.c2.getD p 0
            + ∑ p in range x.length, m.L.iv4.getD p 0)
            - (∑ p in range x.length, m.L.iv2.getD p 0 * m.ys.getD p 0
              + ∑ p in range x.length, m.L.iv3.getD p 0 * m.xs.getD p 0))
          - 2 * ((x.length : K) * ∑ i in range x.length, x.getD i 0 * y.getD i 0
              - (∑ i in range x.length, x.getD i 0) * ∑ i in range x.length, y.getD i 0),
        term2 := ∑ i in range x.length, m.ax.getD i 0 * by'.getD i 0,
        term3 := accu m.ax * accu by' } := by
    unfold dcovTerms
    rw [hm]
    simp only [bind, Except.bind]
    rw [hmn, hcov]
    simp only [hc1]
    rw [hc2]
    simp only [hc3, hc4, hcol, hsel, hsub, hysorted, hW, hsc, ht2]
    rfl
  refine ⟨_, hrun, hdval, ?_, ?_, hdval, rfl⟩
  · simp only
    rw [← rowSum_prod_gather (sort_index x) x y x.length hp rfl hlen.symm, ← hxs, ← hys]
    apply Finset.sum_congr rfl
    intro i hi
    have hi' := Finset.mem_range.mp hi
    rw [haxg i hi', hbyg i hi']
  · simp only
    rw [accu_eq_sum m.ax x.length haxl, accu_eq_sum by' x.length hbyl,
      ← rowSum_sum_gather (sort_index x) x x.length hp rfl,
      ← rowSum_sum_gather (sort_index x) y x.length hp hlen.symm, ← hxs, ← hys]
    congr 1
    · exact Finset.sum_congr rfl (fun i hi => haxg i (Finset.mem_range.mp hi))
    · exact Finset.sum_congr rfl (fun i hi => hbyg i (Finset.mem_range.mp hi))

theorem dist_comm (x : List K) (i j : Nat) : dist x i j = dist x j i := by
  unfold dist; exact abs_sub_comm _ _

theorem centered_eq_dcenter (x : List K) (i j : Nat) :
    centered x i j = dcenter (dist x) x.length i j := rfl

/-- The reference value in terms of the three sums that `dcov` combines. -/
theorem refCovsq_eq_terms (x y : List K) (hlen : x.length = y.length) (hn : 1 ≤ x.length) :
    refCovsq x y
      = (frob x y - 2 * (∑ a in range x.length, rowSum x a * rowSum y a) / (x.length : K)
          + (∑ a in range x.length, rowSum x a) * (∑ a in range x.length, rowSum y a)
              / ((x.length : K) * (x.length : K)))
        / ((x.length : K) * (x.length : K)) := by
  unfold refCovsq
  congr 1
  have h := dcenter_inner (dist x) (dist y) x.length hn (dist_comm x) (dist_comm y)
  have e : ∀ i j, centered x i j * centered y i j
      = dcenter (dist x) x.length i j * dcenter (dist y) x.length i j := by
    intro i j
    rw [centered_eq_dcenter, centered_eq_dcenter, hlen]
  simp only [e, h]
  unfold frob rowSum
  rw [← hlen]

theorem wrap32_small (n : Nat) (h : n < 46341) :
    wrap32 ((n : Int) * (n : Int)) = (n : Int) * (n : Int) := by
  unfold wrap32
  have h1 : (n : Int) * (n : Int) ≤ 46340 * 46340 := by
    have : (n : Int) ≤ 46340 := by omega
    have h0 : (0 : Int) ≤ (n : Int) := by omega
    nlinarith
  have h2 : (0 : Int) ≤ (n : Int) * (n : Int) := by positivity
  omega

/-- Up to `n = 46340` the 32-bit product `n * n` is the exact product. -/
theorem IntMode.mul_int32_small (n : Nat) (h : n < 46341) :
    IntMode.int32.mul (n : Int) (n : Int) = (n : Int) * (n : Int) :=
  wrap32_small n h

/-- The value `covsq` whenever the `int` product `n * n` is not zero: the
reference value times `n^2` over that product. -/
theorem covsq_general (im : IntMode) (x y : List K) (hlen : x.length = y.length)
    (hn : 1 ≤ x.length) (hw : im.mul (x.length : Int) (x.length : Int) ≠ 0) :
    covsq im x y = .ok (.fin
      ((x.length : K) * (x.length : K)
        / ((im.mul (x.length : Int) (x.length : Int) : Int) : K) * refCovsq x y)) := by
  have hN : (x.length : K) ≠ 0 := by exact_mod_cast (by omega : x.length ≠ 0)
  have hW : ((im.mul (x.length : Int) (x.length : Int) : Int) : K) ≠ 0 := by
    exact_mod_cast hw
  obtain ⟨t, ht, h1, h2, h3, _, _⟩ := dcovTerms_spec x y hlen hn
  have hv : covsq im x y = .ok (.fin
      (t.term1 / ((im.mul (x.length : Int) (x.length : Int) : Int) : K)
        - 2 * t.term2 / (((im.mul (x.length : Int) (x.length : Int) : Int) : K)
            * (x.length : K))
        + t.term3 / (((im.mul (x.length : Int) (x.length : Int) : Int) : K)
            * (x.length : K) * (x.length : K)))) := by
    unfold covsq
    simp only [ht, bind, Except.bind, scaleDivisors, Dbl.mul, Dbl.div,
      Dbl.add, Dbl.sub, Dbl.neg, hW, hN, mul_eq_zero, or_self, if_false, pure, Except.pure,
      sub_eq_add_neg]
  rw [hv, h1, h2, h3, refCovsq_eq_terms x y hlen hn]
  congr 2
  field_simp
  ring

/-- Oracle equivalence whenever the `int` product `n * n` is the exact product:
the value `covsq` is the quadratic-time reference value. -/
theorem covsq_eq_refCovsq (im : IntMode) (x y : List K) (hlen : x.length = y.length)
    (hn : 1 ≤ x.length)
    (hmul : im.mul (x.length : Int) (x.length : Int) = (x.length : Int) * (x.length : Int)) :
    covsq im x y = .ok (.fin (refCovsq x y)) := by
  have hN : (x.length : K) ≠ 0 := by exact_mod_cast (by omega : x.length ≠ 0)
  have hne : im.mul (x.length : Int) (x.length : Int) ≠ 0 := by
    rw [hmul]
    have : (1 : Int) ≤ (x.length : Int) := by omega
    nlinarith
  rw [covsq_general im x y hlen hn hne, hmul]
  have e : (x.length : K) * (x.length : K) / (((x.length : Int) * (x.length : Int) : Int) : K)
      * refCovsq x y = refCovsq x y := by
    push_cast
    field_simp
  rw [e]

theorem IsSqrt.zero {rt : K → K} (h : IsSqrt rt) : rt 0 = 0 := by
  have := (h 0 (le_refl 0)).2
  exact mul_self_eq_zero.mp this

theorem frob_comm (x y : List K) (hlen : x.length = y.length) : frob y x = frob x y := by
  unfold frob
  rw [← hlen]
  exact Finset.sum_congr rfl (fun i _ => Finset.sum_congr rfl (fun j _ => mul_comm _ _))

/-- The value `covsq` does not change when the two arguments are swapped. -/
theorem covsq_comm (im : IntMode) (x y : List K) (hlen : x.length = y.length) :
    covsq im y x = covsq im x y := by
  by_cases hn : 1 ≤ x.length
  · by_cases hw : im.mul (x.length : Int) (x.length : Int) = 0
    · obtain ⟨t, ht, h1, h2, h3, _, _⟩ := dcovTerms_spec x y hlen hn
      obtain ⟨t', ht', h1', h2', h3', _, _⟩ := dcovTerms_spec y x hlen.symm (by omega)
      unfold covsq
      simp only [ht, ht', bind, Except.bind, pure, Except.pure, ← hlen]
      rw [h1, h2, h3, h1', h2', h3', ← hlen, frob_comm x y hlen]
      have e2 : ∑ a in range x.length, rowSum y a * rowSum x a
          = ∑ a in range x.length, rowSum x a * rowSum y a :=
        Finset.sum_congr rfl (fun a _ => mul_comm _ _)
      rw [e2, mul_comm (∑ a in range x.length, rowSum y a)]
    · have hw' : im.mul (y.length : Int) (y.length : Int) ≠ 0 := by rw [← hlen]; exact hw
      rw [covsq_general im x y hlen hn hw, covsq_general im y x hlen.symm (by omega) hw', ← hlen]
      congr 3
      unfold refCovsq
      rw [← hlen]
      congr 1
      exact Finset.sum_congr rfl (fun i _ => Finset.sum_congr rfl (fun j _ => mul_comm _ _))
  · have hx : x = [] := List.length_eq_zero.mp (by omega)
    have hy : y = [] := List.length_eq_zero.mp (by omega)
    rw [hx, hy]

theorem refCovsq_self_nonneg (x : List K) : 0 ≤ refCovsq x x := by
  unfold refCovsq
  apply div_nonneg
  · exact Finset.sum_nonneg (fun i _ => Finset.sum_nonneg (fun j _ => mul_self_nonneg _))
  · exact mul_self_nonneg _

theorem colMean_eq_rowMean (x : List K) (j : Nat) : colMean x j = rowMean x j := by
  unfold colMean rowMean
  congr 1
  exact Finset.sum_congr rfl (fun i _ => dist_comm x i j)

/-- The self-covariance of a non-constant sample is strictly positive. -/
theorem refCovsq_self_pos (x : List K) (i j : Nat) (hi : i < x.length) (hj : j < x.length)
    (hne : x.getD i 0 ≠ x.getD j 0) : 0 < refCovsq x x := by
  have hnn := refCovsq_self_nonneg x
  rcases lt_or_eq_of_le hnn with h | h
  · exact h
  · exfalso
    have hN : (x.length : K) ≠ 0 := by exact_mod_cast (by omega : x.length ≠ 0)
    have hNN : (x.length : K) * (x.length : K) ≠ 0 := mul_ne_zero hN hN
    unfold refCovsq at h
    have hsum : ∑ a in range x.length, ∑ b in range x.length, centered x a b * centered x a b = 0 := by
      have := h.symm
      rcases div_eq_zero_iff.mp this with h1 | h1
      · exact h1
      · exact absurd h1 hNN
    have hall : ∀ a, a < x.length → ∀ b, b < x.length → centered x a b = 0 := by
      intro a ha b hb
      have h1 := (Finset.sum_eq_zero_iff_of_nonneg (fun a _ =>
        Finset.sum_nonneg (fun b _ => mul_self_nonneg (centered x a b)))).mp hsum a
        (Finset.mem_range.mpr ha)
      have h2 := (Finset.sum_eq_zero_iff_of_nonneg (fun b _ =>
        mul_self_nonneg (centered x a b))).mp h1 b (Finset.mem_range.mpr hb)
      exact mul_self_eq_zero.mp h2
    have hdiag : ∀ a, a < x.length → 2 * rowMean x a = grandMean x := by
      intro a ha
      have := hall a ha a ha
      unfold centered at this
      rw [colMean_eq_rowMean] at this
      have hd : dist x a a = 0 := by unfold dist; simp
      rw [hd] at this
      linarith
    have h0 := hall i hi j hj
    unfold centered at h0
    rw [colMean_eq_rowMean] at h0
    have h1 := hdiag i hi
    have h2 := hdiag j hj
    have hd : dist x i j = 0 := by linarith
    unfold dist at hd
    exact hne (sub_eq_zero.mp (abs_eq_zero.mp hd))

/-- The three evaluations of `dcov` inside `dcor` and their combination. -/
theorem dcor_unfold (im : IntMode) (rt : K → K) (x y : List K) (hlen : x.length = y.length) :
    dcor im rt x y = (do
      let a ← dcov im rt x x
      let b ← dcov im rt x y
      let c ← dcov im rt y y
      pure (Dbl.div b (Dbl.sqrt rt (Dbl.mul a c)))) := by
  unfold dcor
  simp only [join_horiz, hlen, if_true, bind, Except.bind, List.mapM_cons, List.mapM_nil, vecAt,
    List.getElem?_cons_zero, List.getElem?_cons_succ, pure, Except.pure, zero_add]
  cases dcov im rt x x with
  | error e => rfl
  | ok a =>
    cases dcov im rt x y with
    | error e => rfl
    | ok b =>
      cases dcov im rt y y with
      | error e => rfl
      | ok c => rfl

theorem absDevSums_singleton (a : K) : absDevSums 1 [a] = .ok [0] := by
  have hr : regspace (-(((1 : Nat) : Int) - 2)) 2 ((1 : Nat) : Int) = [1] := by decide
  unfold absDevSums
  simp only [hr, List.map_cons, List.map_nil, schur, cumsum, cumsumFrom, List.length_cons,
    List.length_nil, if_true, bind, Except.bind, usub1_succ, vecAt, List.getElem?_cons_zero, vadd,
    List.zipWith_cons_cons, List.zipWith_nil_right, zero_add, Nat.zero_add, List.zipWith]
  congr 2
  push_cast
  ring

/-- On one-element samples lines 32 to 117 end with the initial loop state: the
merge loop runs zero levels. -/
theorem dcovMerge_singleton (a b : K) :
    dcovMerge [a] [b] = .ok
      { n := 1, xs := [a], ys := [b], ax := [0], v := { c0 := [a], c1 := [b], c2 := [a * b] },
        L := { i := 1, r := 1, s := 2, col0 := [1], col1 := [0],
               iv1 := [0], iv2 := [0], iv3 := [0], iv4 := [0] } } := by
  have h1 : sort_index [a] = [0] := rfl
  have h2 : sort [a] = [a] := rfl
  have h3 : (regspace2 1 ((1 : Nat) : Int)).map Int.toNat = [1] := by decide
  unfold dcovMerge
  simp only [h1, h2, h3, List.length_cons, List.length_nil, Nat.zero_add, elem, List.mapM_cons,
    List.mapM_nil, vecAt, List.getElem?_cons_zero, bind, Except.bind, pure, Except.pure,
    absDevSums_singleton, schur, if_true, List.zipWith_cons_cons, List.zipWith_nil_right,
    List.replicate, mergeLoop, lt_irrefl, if_false, List.zipWith]

theorem dcovTerms_singleton (a b : K) :
    ∃ t, dcovTerms [a] [b] = .ok t ∧ t.by' = [0] ∧ t.d = 0
      ∧ t.term1 = 0 ∧ t.term2 = 0 ∧ t.term3 = 0 := by
  have h3 : (regspace2 (((1 : Nat) : Int) - 1) 0).map Int.toNat = [0] := by decide
  unfold dcovTerms
  simp only [dcovMerge_singleton, bind, Except.bind, dot, List.map_cons, List.map_nil,
    List.length_cons, List.length_nil, if_true, List.zipWith_cons_cons, List.zipWith_nil_right,
    List.zipWith, List.sum_cons, List.sum_nil, accu, h3, LoopState.col, Nat.sub_self, elem,
    List.mapM_cons, List.mapM_nil, vecAt, List.getElem?_cons_zero, pure, Except.pure, usub1_succ,
    absDevSums_singleton, scatter, List.replicate, List.zip_cons_cons, List.zip_nil_right,
    List.foldlM_cons, List.foldlM_nil, setAt, Nat.zero_lt_one, List.set_cons_zero, Nat.zero_add,
    zero_add, usub1, one_ne_zero, if_false, Nat.lt_add_one, List.zip]
  refine ⟨_, rfl, rfl, ?_, ?_, ?_, ?_⟩ <;> simp [mean, accu]

theorem covsq_singleton (im : IntMode) (a b : K) : covsq im [a] [b] = .ok (.fin 0) := by
  obtain ⟨t, ht, _, _, h1, h2, h3⟩ := dcovTerms_singleton a b
  have hw : im.mul 1 1 = 1 := by cases im; decide
  unfold covsq
  simp only [ht, bind, Except.bind, scaleDivisors, h1, h2, h3, Dbl.mul, Dbl.div, Dbl.add,
    Dbl.sub, Dbl.neg, pure, Except.pure, List.length_cons, List.length_nil, Nat.zero_add,
    Nat.cast_one, mul_one, hw, Int.cast_one, one_ne_zero, if_false, mul_zero, zero_div, neg_zero,
    add_zero]

/-- The value of `dcov` from the value of `covsq`. -/
theorem dcov_of_covsq (im : IntMode) (rt : K → K) (x y : List K) (c : Dbl K)
    (h : covsq im x y = .ok c) : dcov im rt x y = .ok (Dbl.sqrt rt c) := by
  unfold dcov
  simp only [h, bind, Except.bind, pure, Except.pure]

theorem Dbl.sqrt_fin_nonneg (rt : K → K) (c : K) (hc : 0 ≤ c) :
    Dbl.sqrt rt (.fin c) = .fin (rt c) := by
  show (if c < 0 then Dbl.nan else Dbl.fin (rt c)) = Dbl.fin (rt c)
  rw [if_neg (not_lt.mpr hc)]

theorem Dbl.sqrt_fin_neg (rt : K → K) (c : K) (hc : c < 0) : Dbl.sqrt rt (.fin c) = .nan := by
  show (if c < 0 then Dbl.nan else Dbl.fin (rt c)) = Dbl.nan
  rw [if_pos hc]

theorem Dbl.mul_nan_left (c : Dbl K) : Dbl.mul .nan c = .nan := by
  cases c <;> rfl

theorem Dbl.mul_nan_right (c : Dbl K) : Dbl.mul c .nan = .nan := by
  cases c <;> rfl

theorem Dbl.div_nan_right (c : Dbl K) : Dbl.div c .nan = .nan := by
  cases c <;> rfl

theorem Dbl.div_nan_left (c : Dbl K) : Dbl.div .nan c = .nan := by
  cases c <;> rfl

theorem Dbl.add_nan_left (c : Dbl K) : Dbl.add .nan c = .nan := by
  cases c <;> rfl

theorem Dbl.not_le_nan (a : Dbl K) : ¬ Dbl.le a .nan := by
  cases a <;> simp [Dbl.le]

theorem Dbl.not_nan_le (a : Dbl K) : ¬ Dbl.le .nan a := by
  cases a <;> simp [Dbl.le]

/-- Whenever the `int` product `n * n` is exact, `dcov` is the square root of the
reference value. -/
theorem dcov_eq_sqrt_ref (im : IntMode) (rt : K → K) (x y : List K)
    (hlen : x.length = y.length) (hn : 1 ≤ x.length)
    (hmul : im.mul (x.length : Int) (x.length : Int) = (x.length : Int) * (x.length : Int)) :
    dcov im rt x y = .ok (Dbl.sqrt rt (.fin (refCovsq x y))) :=
  dcov_of_covsq im rt x y _ (covsq_eq_refCovsq im x y hlen hn hmul)

theorem length_replicate_snoc {α : Type} (n : Nat) (a b : α) :
    (List.replicate n a ++ [b]).length = n + 1 := by simp

theorem getD_replicate_snoc_first {α : Type} (n : Nat) (hn : 0 < n) (a b d : α) :
    (List.replicate n a ++ [b]).getD 0 d = a := by
  cases n with
  | zero => omega
  | succ n => rfl

theorem getD_replicate_snoc_last {α : Type} (n : Nat) (a b d : α) :
    (List.replicate n a ++ [b]).getD n d = b := by
  simp [List.getD_eq_getElem?_getD, List.getElem?_append_right]

theorem getD_replicate_of_lt {α : Type} (n i : Nat) (hi : i < n) (a d : α) :
    (List.replicate n a).getD i d = a := by
  rw [List.getD_eq_getElem?_getD, List.getElem?_eq_getElem (by rw [List.length_replicate]; exact hi),
    List.getElem_replicate]
  rfl

theorem overflowSample_length : overflowSample.length = 46341 :=
  length_replicate_snoc 46340 0 1

theorem zeroWrapSample_length : zeroWrapSample.length = 65536 :=
  length_replicate_snoc 65535 0 1

theorem zeroWrapConstant_length : zeroWrapConstant.length = 65536 :=
  List.length_replicate 65536 5

theorem int32_mul_46341 : IntMode.int32.mul 46341 46341 = -2147479015 := by decide

theorem int32_mul_65536 : IntMode.int32.mul 65536 65536 = 0 := by decide

theorem overflowSample_first : overflowSample.getD 0 0 = 0 :=
  getD_replicate_snoc_first 46340 (by decide) 0 1 0

theorem overflowSample_last : overflowSample.getD 46340 0 = 1 :=
  getD_replicate_snoc_last 46340 0 1 0

/-- When the `int` product `n * n` comes out negative, the computed
self-covariance of a non-constant sample is negative and `dcov` is not-a-number. -/
theorem covsq_self_neg (im : IntMode) (x : List K) (i j : Nat) (hi : i < x.length)
    (hj : j < x.length) (hne : x.getD i 0 ≠ x.getD j 0)
    (hw : im.mul (x.length : Int) (x.length : Int) < 0) :
    covsq im x x = .ok (.fin ((x.length : K) * (x.length : K)
        / ((im.mul (x.length : Int) (x.length : Int) : Int) : K) * refCovsq x x))
      ∧ (x.length : K) * (x.length : K)
        / ((im.mul (x.length : Int) (x.length : Int) : Int) : K) * refCovsq x x < 0
      ∧ ∀ rt : K → K, dcov im rt x x = .ok .nan := by
  have hn : 1 ≤ x.length := by omega
  have hpos := refCovsq_self_pos x i j hi hj hne
  have hc := covsq_general im x x rfl hn (ne_of_lt hw)
  have hN : (0 : K) < (x.length : K) := by exact_mod_cast hn
  have hW : ((im.mul (x.length : Int) (x.length : Int) : Int) : K) < 0 := by
    exact_mod_cast hw
  have hneg : (x.length : K) * (x.length : K)
      / ((im.mul (x.length : Int) (x.length : Int) : Int) : K) * refCovsq x x < 0 :=
    mul_neg_of_neg_of_pos (div_neg_of_pos_of_neg (mul_pos hN hN) hW) hpos
  refine ⟨hc, hneg, fun rt => ?_⟩
  rw [dcov_of_covsq im rt x x _ hc, Dbl.sqrt_fin_neg rt _ hneg]

theorem overflowSample_mul :
    IntMode.int32.mul (overflowSample.length : Int) (overflowSample.length : Int)
      = -2147479015 := by
  rw [overflowSample_length]; exact int32_mul_46341

/-- What the 32-bit product does to `dcov` at length 46341: on the sample of
46340 zeros followed by a one, `covsq` is the reference value times
`46341^2 / -2147479015`, a negative number, and `dcov` is not-a-number. -/
theorem overflowSample_int32 :
    covsq .int32 overflowSample overflowSample
        = .ok (.fin (46341 * 46341 / (-2147479015) * refCovsq overflowSample overflowSample))
      ∧ 46341 * 46341 / (-2147479015) * refCovsq overflowSample overflowSample < 0
      ∧ 0 < refCovsq overflowSample overflowSample
      ∧ ∀ rt : ℚ → ℚ, dcov .int32 rt overflowSample overflowSample = .ok .nan := by
  have h := covsq_self_neg .int32 overflowSample 0 46340
    (by rw [overflowSample_length]; decide)
    (by rw [overflowSample_length]; decide)
    (by rw [overflowSample_first, overflowSample_last]; decide)
    (by rw [overflowSample_mul]; decide)
  rw [overflowSample_mul, overflowSample_length] at h
  have hpos := refCovsq_self_pos overflowSample 0 46340 (by rw [overflowSample_length]; decide)
    (by rw [overflowSample_length]; decide)
    (by rw [overflowSample_first, overflowSample_last]; decide)
  have e : ((46341 : Nat) : ℚ) * ((46341 : Nat) : ℚ) / (((-2147479015 : Int)) : ℚ)
      = 46341 * 46341 / (-2147479015) := by norm_num
  rw [e] at h
  exact ⟨h.1, h.2.1, hpos, h.2.2⟩

theorem dist_const (n : Nat) (c : K) (i j : Nat) (hi : i < n) (hj : j < n) :
    dist (List.replicate n c) i j = 0 := by
  unfold dist
  rw [getD_replicate_of_lt n i hi, getD_replicate_of_lt n j hj, sub_self, abs_zero]

theorem rowSum_const (n : Nat) (c : K) (i : Nat) (hi : i < n) :
    rowSum (List.replicate n c) i = 0 := by
  unfold rowSum
  rw [List.length_replicate]
  exact Finset.sum_eq_zero (fun j hj => dist_const n c i j hi (Finset.mem_range.mp hj))

theorem frob_const_right (x : List K) (c : K) : frob x (List.replicate x.length c) = 0 := by
  unfold frob
  apply Finset.sum_eq_zero
  intro i hi
  apply Finset.sum_eq_zero
  intro j hj
  rw [dist_const _ c i j (Finset.mem_range.mp hi) (Finset.mem_range.mp hj), mul_zero]

/-- Against a constant sample the three terms of `dcov` are zero. -/
theorem dcovTerms_const (x : List K) (c : K) (hn : 1 ≤ x.length) :
    ∃ t, dcovTerms x (List.replicate x.length c) = .ok t
      ∧ t.term1 = 0 ∧ t.term2 = 0 ∧ t.term3 = 0 := by
  obtain ⟨t, ht, h1, h2, h3, _, _⟩ := dcovTerms_spec x (List.replicate x.length c)
    (List.length_replicate _ _).symm hn
  have hr : ∀ a ∈ range x.length, rowSum (List.replicate x.length c) a = 0 :=
    fun a ha => rowSum_const _ c a (Finset.mem_range.mp ha)
  refine ⟨t, ht, ?_, ?_, ?_⟩
  · rw [h1, frob_const_right]
  · rw [h2]
    exact Finset.sum_eq_zero (fun a ha => by rw [hr a ha, mul_zero])
  · rw [h3, Finset.sum_eq_zero hr, mul_zero]

/-- The value `covsq` against a constant sample: zero, unless the `int` product
`n * n` is zero, in which case it is the quotient `0 / 0`. -/
theorem covsq_const (im : IntMode) (x : List K) (c : K) (hn : 1 ≤ x.length) :
    covsq im x (List.replicate x.length c)
      = .ok (if im.mul (x.length : Int) (x.length : Int) = 0 then .nan else .fin 0) := by
  obtain ⟨t, ht, h1, h2, h3⟩ := dcovTerms_const x c hn
  have hN : (x.length : K) ≠ 0 := by exact_mod_cast (by omega : x.length ≠ 0)
  unfold covsq
  by_cases hw : im.mul (x.length : Int) (x.length : Int) = 0
  · simp only [ht, bind, Except.bind, scaleDivisors, h1, h2, h3, hw, Int.cast_zero, Dbl.mul,
      Dbl.div, Dbl.add, Dbl.sub, Dbl.neg, pure, Except.pure, zero_mul, mul_zero, if_true,
      Dbl.signedInf, lt_irrefl, if_false]
  · have hW : ((im.mul (x.length : Int) (x.length : Int) : Int) : K) ≠ 0 := by
      exact_mod_cast hw
    simp only [ht, bind, Except.bind, scaleDivisors, h1, h2, h3, hw, Dbl.mul,
      Dbl.div, Dbl.add, Dbl.sub, Dbl.neg, pure, Except.pure, zero_mul, mul_zero, if_false,
      hW, hN, mul_eq_zero, or_self, zero_div, neg_zero, add_zero]

theorem replicate_self_length {α : Type} (n : Nat) (c : α) :
    List.replicate (List.replicate n c).length c = List.replicate n c := by
  rw [List.length_replicate]

theorem dcov_ok_of_mul_ne (im : IntMode) (rt : K → K) (x y : List K)
    (hlen : x.length = y.length) (hn : 1 ≤ x.length)
    (hw : im.mul (x.length : Int) (x.length : Int) ≠ 0) :
    ∃ b, dcov im rt x y = .ok b :=
  ⟨_, dcov_of_covsq im rt x y _ (covsq_general im x y hlen hn hw)⟩

/-- Degenerate input while the `int` product `n * n` is not zero: both
covariances that involve the constant sample are zero and `dcor` is the quotient
`0 / 0`. -/
theorem degenerate_of_mul_ne (im : IntMode) (rt : K → K) (hrt : rt 0 = 0) (x : List K) (c : K)
    (hn : 1 ≤ x.length) (hw : im.mul (x.length : Int) (x.length : Int) ≠ 0) :
    dcov im rt x (List.replicate x.length c) = .ok (.fin 0)
      ∧ dcov im rt (List.replicate x.length c) (List.replicate x.length c) = .ok (.fin 0)
      ∧ dcor im rt x (List.replicate x.length c) = .ok .nan := by
  have hxy : dcov im rt x (List.replicate x.length c) = .ok (.fin 0) := by
    rw [dcov_of_covsq im rt _ _ _ (covsq_const im x c hn), if_neg hw,
      Dbl.sqrt_fin_nonneg rt 0 (le_refl 0), hrt]
  have hyy : dcov im rt (List.replicate x.length c) (List.replicate x.length c)
      = .ok (.fin 0) := by
    have h := covsq_const im (List.replicate x.length c) c
      (by rw [List.length_replicate]; exact hn)
    rw [replicate_self_length, List.length_replicate, if_neg hw] at h
    rw [dcov_of_covsq im rt _ _ _ h, Dbl.sqrt_fin_nonneg rt 0 (le_refl 0), hrt]
  refine ⟨hxy, hyy, ?_⟩
  obtain ⟨a, ha⟩ := dcov_ok_of_mul_ne im rt x x rfl hn hw
  rw [dcor_unfold im rt x _ (List.length_replicate _ _).symm]
  simp only [ha, hxy, hyy, bind, Except.bind, pure, Except.pure]
  congr 1
  cases a with
  | fin v =>
    simp only [Dbl.mul, mul_zero, Dbl.sqrt, lt_irrefl, if_false, hrt, Dbl.div, if_true,
      Dbl.signedInf]
  | pinf => simp only [Dbl.mul, Dbl.signedInf, lt_irrefl, if_false, Dbl.sqrt, Dbl.div]
  | ninf => simp only [Dbl.mul, Dbl.signedInf, lt_irrefl, if_false, Dbl.sqrt, Dbl.div, neg_zero]
  | nan => simp only [Dbl.mul, Dbl.sqrt, Dbl.div]

/-- Up to `n = 46340` the 32-bit product `n * n` is not zero. -/
theorem int32_mul_ne_zero_small (n : Nat) (hn : 1 ≤ n) (h : n < 46341) :
    IntMode.int32.mul (n : Int) (n : Int) ≠ 0 := by
  rw [IntMode.mul_int32_small n h]
  have : (1 : Int) ≤ (n : Int) := by omega
  nlinarith

theorem IsSqrt.unique {rt : K → K} (h : IsSqrt rt) (s : K) (hs : 0 ≤ s) : rt (s * s) = s := by
  have h1 := h (s * s) (mul_self_nonneg s)
  exact (mul_self_inj_of_nonneg h1.1 hs).mp h1.2

theorem IsSqrt.pos {rt : K → K} (h : IsSqrt rt) (a : K) (ha : 0 < a) : 0 < rt a := by
  have h1 := h a (le_of_lt ha)
  rcases lt_or_eq_of_le h1.1 with h2 | h2
  · exact h2
  · exfalso
    rw [← h2, mul_zero] at h1
    exact absurd h1.2 (ne_of_lt ha)

theorem dist_affine (x : List K) (a b : K) (ha : 0 ≤ a) (i j : Nat) (hi : i < x.length)
    (hj : j < x.length) :
    dist (x.map (fun v => a * v + b)) i j = a * dist x i j := by
  unfold dist
  rw [getD_map_one x _ i hi, getD_map_one x _ j hj]
  have : a * x.getD i 0 + b - (a * x.getD j 0 + b) = a * (x.getD i 0 - x.getD j 0) := by ring
  rw [this, abs_mul, abs_of_nonneg ha]

theorem rowSum_affine (x : List K) (a b : K) (ha : 0 ≤ a) (i : Nat) (hi : i < x.length) :
    rowSum (x.map (fun v => a * v + b)) i = a * rowSum x i := by
  unfold rowSum
  rw [List.length_map, Finset.mul_sum]
  exact Finset.sum_congr rfl (fun j hj => dist_affine x a b ha i j hi (Finset.mem_range.mp hj))

/-- The reference value of `x` against a positive affine image of `x`. -/
theorem refCovsq_affine (x : List K) (a b : K) (ha : 0 ≤ a) (hn : 1 ≤ x.length) :
    refCovsq x (x.map (fun v => a * v + b)) = a * refCovsq x x
      ∧ refCovsq (x.map (fun v => a * v + b)) (x.map (fun v => a * v + b))
          = a * a * refCovsq x x := by
  have hl : (x.map (fun v => a * v + b)).length = x.length := List.length_map _ _
  have hd : ∀ i ∈ range x.length, ∀ j ∈ range x.length,
      dist (x.map (fun v => a * v + b)) i j = a * dist x i j := fun i hi j hj =>
    dist_affine x a b ha i j (Finset.mem_range.mp hi) (Finset.mem_range.mp hj)
  have hr : ∀ i ∈ range x.length, rowSum (x.map (fun v => a * v + b)) i = a * rowSum x i :=
    fun i hi => rowSum_affine x a b ha i (Finset.mem_range.mp hi)
  have hf1 : frob x (x.map (fun v => a * v + b)) = a * frob x x := by
    unfold frob
    rw [Finset.mul_sum]
    apply Finset.sum_congr rfl
    intro i hi
    rw [Finset.mul_sum]
    apply Finset.sum_congr rfl
    intro j hj
    rw [hd i hi j hj]; ring
  have hf2 : frob (x.map (fun v => a * v + b)) (x.map (fun v => a * v + b))
      = a * a * frob x x := by
    unfold frob
    rw [hl, Finset.mul_sum]
    apply Finset.sum_congr rfl
    intro i hi
    rw [Finset.mul_sum]
    apply Finset.sum_congr rfl
    intro j hj
    rw [hd i hi j hj]; ring
  have hs : ∑ i in range x.length, rowSum (x.map (fun v => a * v + b)) i
      = a * ∑ i in range x.length, rowSum x i := by
    rw [Finset.mul_sum]; exact Finset.sum_congr rfl hr
  have ht1 : ∑ i in range x.length, rowSum x i * rowSum (x.map (fun v => a * v + b)) i
      = a * ∑ i in range x.length, rowSum x i * rowSum x i := by
    rw [Finset.mul_sum]
    exact Finset.sum_congr rfl (fun i hi => by rw [hr i hi]; ring)
  have ht2 : ∑ i in range x.length, rowSum (x.map (fun v => a * v + b)) i
        * rowSum (x.map (fun v => a * v + b)) i
      = a * a * ∑ i in range x.length, rowSum x i * rowSum x i := by
    rw [Finset.mul_sum]
    exact Finset.sum_congr rfl (fun i hi => by rw [hr i hi]; ring)
  constructor
  · rw [refCovsq_eq_terms x _ hl.symm hn, refCovsq_eq_terms x x rfl hn, hf1, ht1, hs]
    ring
  · rw [refCovsq_eq_terms _ _ rfl (by rw [hl]; exact hn), refCovsq_eq_terms x x rfl hn, hl, hf2,
      ht2, hs]
    ring

/-- Perfect monotonic dependence whenever the `int` product `n * n` is exact: for
a non-constant `x` and `y = a*x + b` with `a > 0`, `dcor(x, y) = 1`. -/
theorem dcor_affine_of_mul (im : IntMode) (rt : K → K) (hrt : IsSqrt rt) (x : List K) (a b : K)
    (ha : 0 < a) (i j : Nat) (hi : i < x.length) (hj : j < x.length)
    (hne : x.getD i 0 ≠ x.getD j 0)
    (hmul : im.mul (x.length : Int) (x.length : Int) = (x.length : Int) * (x.length : Int)) :
    dcor im rt x (x.map (fun v => a * v + b)) = .ok (.fin 1) := by
  have hn : 1 ≤ x.length := by omega
  have hl : (x.map (fun v => a * v + b)).length = x.length := List.length_map _ _
  have hv := refCovsq_self_pos x i j hi hj hne
  obtain ⟨h1, h2⟩ := refCovsq_affine x a b (le_of_lt ha) hn
  have hxx := dcov_eq_sqrt_ref im rt x x rfl hn hmul
  have hxy := dcov_eq_sqrt_ref im rt x _ hl.symm hn hmul
  have hyy := dcov_eq_sqrt_ref im rt (x.map (fun v => a * v + b)) _ rfl (by rw [hl]; exact hn)
    (by rw [hl]; exact hmul)
  rw [Dbl.sqrt_fin_nonneg rt _ (le_of_lt hv)] at hxx
  rw [h1, Dbl.sqrt_fin_nonneg rt _ (le_of_lt (mul_pos ha hv))] at hxy
  rw [h2, Dbl.sqrt_fin_nonneg rt _ (le_of_lt (mul_pos (mul_pos ha ha) hv))] at hyy
  have hr := hrt _ (le_of_lt hv)
  have e1 : rt (a * a * refCovsq x x) = a * rt (refCovsq x x) := by
    have e : a * a * refCovsq x x = (a * rt (refCovsq x x)) * (a * rt (refCovsq x x)) := by
      conv_lhs => rw [← hr.2]
      ring
    rw [e]
    exact hrt.unique _ (mul_nonneg (le_of_lt ha) hr.1)
  have e2 : rt (refCovsq x x) * rt (a * a * refCovsq x x) = a * refCovsq x x := by
    rw [e1]
    conv_rhs => rw [← hr.2]
    ring
  have hpos := hrt.pos _ (mul_pos ha hv)
  rw [dcor_unfold im rt x _ hl.symm]
  simp only [hxx, hxy, hyy, bind, Except.bind, pure, Except.pure, Dbl.mul, e2]
  rw [Dbl.sqrt_fin_nonneg rt _ (le_of_lt (mul_pos ha hv))]
  simp only [Dbl.div, ne_of_gt hpos, if_false, div_self (ne_of_gt hpos)]

theorem sort_length (x : List K) : (sort x).length = x.length := (sort_perm x).length_eq

theorem sort_covers (x : List K) (i : Nat) (hi : i < x.length) :
    ∃ m, m < x.length ∧ (sort x).getD m 0 = x.getD i 0 := by
  have hmem : x.getD i 0 ∈ sort x := by
    apply (sort_perm x).mem_iff.mpr
    rw [List.getD_eq_getElem?_getD, List.getElem?_eq_getElem hi]
    exact List.getElem_mem hi
  obtain ⟨m, hm, he⟩ := List.mem_iff_getElem.mp hmem
  refine ⟨m, by rw [← sort_length x]; exact hm, ?_⟩
  rw [List.getD_eq_getElem?_getD, List.getElem?_eq_getElem hm]
  exact he

/-- The reference value of the squared distance covariance is never negative. -/
theorem refCovsq_nonneg (x y : List K) (hlen : x.length = y.length) : 0 ≤ refCovsq x y := by
  unfold refCovsq
  apply div_nonneg _ (mul_self_nonneg _)
  by_cases hn : 1 ≤ x.length
  · have h := dcenter_dist_inner_nonneg (fun i => x.getD i 0) (fun i => y.getD i 0)
      (fun m => (sort x).getD m 0) (fun m => (sort y).getD m 0) x.length hn
      (fun a b hab hb => sorted_getD_mono (sort x) (sort_sorted x) a b hab
        (by rw [sort_length]; exact hb))
      (fun a b hab hb => sorted_getD_mono (sort y) (sort_sorted y) a b hab
        (by rw [sort_length, ← hlen]; exact hb))
      (fun i hi => sort_covers x i hi)
      (fun i hi => by
        obtain ⟨m, hm, he⟩ := sort_covers y i (by rw [← hlen]; exact hi)
        exact ⟨m, by rw [hlen]; exact hm, he⟩)
    have e : ∀ i j, centered x i j * centered y i j
        = dcenter (fun i j => |x.getD i 0 - x.getD j 0|) x.length i j
          * dcenter (fun i j => |y.getD i 0 - y.getD j 0|) x.length i j := by
      intro i j
      rw [centered_eq_dcenter, centered_eq_dcenter, ← hlen]
      rfl
    simp only [e]
    exact h
  · have h0 : x.length = 0 := by omega
    rw [h0]
    simp

/-- The Cauchy-Schwarz inequality for the reference value. -/
theorem refCovsq_cauchy_schwarz (x y : List K) (hlen : x.length = y.length) :
    refCovsq x y * refCovsq x y ≤ refCovsq x x * refCovsq y y := by
  have hcs := Finset.sum_mul_sq_le_sq_mul_sq (range x.length ×ˢ range x.length)
    (fun p => centered x p.1 p.2) (fun p => centered y p.1 p.2)
  rw [Finset.sum_product' (range x.length) (range x.length)
      (fun i j => centered x i j * centered y i j),
    Finset.sum_product' (range x.length) (range x.length) (fun i j => centered x i j ^ 2),
    Finset.sum_product' (range x.length) (range x.length) (fun i j => centered y i j ^ 2)] at hcs
  unfold refCovsq
  rw [← hlen]
  have hN : (0 : K) ≤ (x.length : K) * (x.length : K) := mul_self_nonneg _
  have e1 : ∀ i j, centered x i j * centered x i j = centered x i j ^ 2 := fun i j => (sq _).symm
  have e2 : ∀ i j, centered y i j * centered y i j = centered y i j ^ 2 := fun i j => (sq _).symm
  simp only [e1, e2]
  rw [div_mul_div_comm, div_mul_div_comm]
  apply div_le_div_of_nonneg_right _ (mul_nonneg hN hN)
  rw [← sq]
  exact hcs

/-- Bounded correlation whenever the `int` product `n * n` is exact: for samples
of equal length `n >= 1` whose self-covariances are not zero, `dcor(x, y)` is a
number between zero and one. -/
theorem dcor_bounded_of_mul (im : IntMode) (rt : K → K) (hrt : IsSqrt rt) (x y : List K)
    (hlen : x.length = y.length) (hn : 1 ≤ x.length)
    (hmul : im.mul (x.length : Int) (x.length : Int) = (x.length : Int) * (x.length : Int))
    (hxx : dcov im rt x x ≠ .ok (.fin 0)) (hyy : dcov im rt y y ≠ .ok (.fin 0)) :
    ∃ r, dcor im rt x y = .ok (.fin r) ∧ 0 ≤ r ∧ r ≤ 1 := by
  have hn' : 1 ≤ y.length := by omega
  have cxx := refCovsq_self_nonneg x
  have cyy := refCovsq_self_nonneg y
  have cxy := refCovsq_nonneg x y hlen
  have dxx := dcov_eq_sqrt_ref im rt x x rfl hn hmul
  have dxy := dcov_eq_sqrt_ref im rt x y hlen hn hmul
  have dyy := dcov_eq_sqrt_ref im rt y y rfl hn' (by rw [← hlen]; exact hmul)
  rw [Dbl.sqrt_fin_nonneg rt _ cxx] at dxx
  rw [Dbl.sqrt_fin_nonneg rt _ cxy] at dxy
  rw [Dbl.sqrt_fin_nonneg rt _ cyy] at dyy
  have pxx : 0 < refCovsq x x := by
    rcases lt_or_eq_of_le cxx with h | h
    · exact h
    · exfalso
      apply hxx
      rw [dxx, ← h, hrt.zero]
  have pyy : 0 < refCovsq y y := by
    rcases lt_or_eq_of_le cyy with h | h
    · exact h
    · exfalso
      apply hyy
      rw [dyy, ← h, hrt.zero]
  have rxx := hrt.pos _ pxx
  have ryy := hrt.pos _ pyy
  have hP : 0 < rt (refCovsq x x) * rt (refCovsq y y) := mul_pos rxx ryy
  have rP := hrt.pos _ hP
  have rxy := (hrt _ cxy).1
  refine ⟨rt (refCovsq x y) / rt (rt (refCovsq x x) * rt (refCovsq y y)), ?_,
    div_nonneg rxy (le_of_lt rP), ?_⟩
  · rw [dcor_unfold im rt x y hlen]
    simp only [dxx, dxy, dyy, bind, Except.bind, pure, Except.pure, Dbl.mul]
    rw [Dbl.sqrt_fin_nonneg rt _ (le_of_lt hP)]
    simp only [Dbl.div, ne_of_gt rP, if_false]
  · rw [div_le_one rP]
    -- compare the squares
    have hcs := refCovsq_cauchy_schwarz x y hlen
    have hle : refCovsq x y ≤ rt (refCovsq x x) * rt (refCovsq y y) := by
      by_contra hcon
      have hlt := not_le.mp hcon
      have h1 := mul_self_lt_mul_self (le_of_lt hP) hlt
      have h2 : rt (refCovsq x x) * rt (refCovsq y y) * (rt (refCovsq x x) * rt (refCovsq y y))
          = refCovsq x x * refCovsq y y := by
        have a1 := (hrt _ cxx).2
        have a2 := (hrt _ cyy).2
        calc rt (refCovsq x x) * rt (refCovsq y y) * (rt (refCovsq x x) * rt (refCovsq y y))
            = (rt (refCovsq x x) * rt (refCovsq x x)) * (rt (refCovsq y y) * rt (refCovsq y y)) := by
              ring
          _ = refCovsq x x * refCovsq y y := by rw [a1, a2]
      rw [h2] at h1
      exact absurd hcs (not_le.mpr h1)
    by_contra hcon
    have hlt := not_le.mp hcon
    have h1 := mul_self_lt_mul_self (le_of_lt rP) hlt
    rw [(hrt _ cxy).2, (hrt _ (le_of_lt hP)).2] at h1
    exact absurd hle (not_le.mpr h1)

/-- Whenever the `int` product `n * n` is exact, the three divisors are `n^2`,
`n^3` and `n^4`. -/
theorem scaleDivisors_of_mul (im : IntMode) (n : Nat)
    (hmul : im.mul (n : Int) (n : Int) = (n : Int) * (n : Int)) :
    scaleDivisors (K := K) im n
      = (.fin ((n : K) * n), .fin ((n : K) * n * n), .fin ((n : K) * n * n * n)) := by
  unfold scaleDivisors
  simp only [hmul, Dbl.mul]
  push_cast
  rfl

/-- The real square root is an exact square root. -/
theorem isSqrt_real : IsSqrt Real.sqrt :=
  fun a ha => ⟨Real.sqrt_nonneg a, Real.mul_self_sqrt ha⟩

/-- Whenever the `int` product `n * n` is exact and `rt` is an exact square root,
`dcov` returns the non-negative number whose square is the reference value. -/
theorem dcov_eq_root (im : IntMode) (rt : K → K) (hrt : IsSqrt rt) (x y : List K)
    (hlen : x.length = y.length) (hn : 1 ≤ x.length)
    (hmul : im.mul (x.length : Int) (x.length : Int) = (x.length : Int) * (x.length : Int)) :
    ∃ s, dcov im rt x y = .ok (.fin s) ∧ 0 ≤ s ∧ s * s = refCovsq x y := by
  have h0 := refCovsq_nonneg x y hlen
  have hs := hrt _ h0
  refine ⟨rt (refCovsq x y), ?_, hs.1, hs.2⟩
  rw [dcov_eq_sqrt_ref im rt x y hlen hn hmul, Dbl.sqrt_fin_nonneg rt _ h0]

/-- The self-covariance of a non-constant sample is not zero. -/
theorem dcov_self_ne_zero (im : IntMode) (rt : K → K) (hrt : IsSqrt rt) (x : List K)
    (i j : Nat) (hi : i < x.length) (hj : j < x.length) (hne : x.getD i 0 ≠ x.getD j 0)
    (hmul : im.mul (x.length : Int) (x.length : Int) = (x.length : Int) * (x.length : Int)) :
    dcov im rt x x ≠ .ok (.fin 0) := by
  have hv := refCovsq_self_pos x i j hi hj hne
  rw [dcov_eq_sqrt_ref im rt x x rfl (by omega) hmul, Dbl.sqrt_fin_nonneg rt _ (le_of_lt hv)]
  intro h
  have h' := Dbl.fin.inj (Except.ok.inj h)
  exact absurd h' (ne_of_gt (hrt.pos _ hv))

/-- At length 65536 the 32-bit product `n * n` is zero: against the constant
sample of fives `covsq` is the quotient `0 / 0` and `dcov` returns not-a-number. -/
theorem zeroWrap_int32 :
    covsq .int32 zeroWrapSample zeroWrapConstant = .ok .nan
      ∧ ∀ rt : ℚ → ℚ, dcov .int32 rt zeroWrapSample zeroWrapConstant = .ok .nan := by
  have hc : zeroWrapConstant = List.replicate zeroWrapSample.length 5 := by
    rw [zeroWrapSample_length]; rfl
  have h := covsq_const .int32 zeroWrapSample 5 (by rw [zeroWrapSample_length]; decide)
  have hw : IntMode.int32.mul (zeroWrapSample.length : Int) (zeroWrapSample.length : Int)
      = 0 := by
    rw [zeroWrapSample_length]; exact int32_mul_65536
  rw [if_pos hw, ← hc] at h
  exact ⟨h, fun rt => dcov_of_covsq .int32 rt _ _ _ h⟩

/-- When `dcov(x, x)` is not-a-number, so is `dcor(x, y)`. -/
theorem dcor_nan_of_self_nan (im : IntMode) (rt : K → K) (x y : List K)
    (hlen : x.length = y.length) (hxx : dcov im rt x x = .ok .nan) (b c : Dbl K)
    (hb : dcov im rt x y = .ok b) (hc : dcov im rt y y = .ok c) :
    dcor im rt x y = .ok .nan := by
  rw [dcor_unfold im rt x y hlen]
  simp only [hxx, hb, hc, bind, Except.bind, pure, Except.pure, Dbl.mul_nan_left]
  congr 1
  exact Dbl.div_nan_right b

/-- Up to `n = 46340`: `covsq` is the quadratic-time reference value, that value
is not negative, and `dcov` returns its square root. -/
theorem oracle_equivalence_small (x y : List K) (hlen : x.length = y.length)
    (hn : 1 ≤ x.length) (hsmall : x.length < 46341) :
    covsq .int32 x y = .ok (.fin (refCovsq x y))
      ∧ 0 ≤ refCovsq x y
      ∧ (∀ rt : K → K, dcov .int32 rt x y = .ok (Dbl.sqrt rt (.fin (refCovsq x y))))
      ∧ (∀ rt : K → K, IsSqrt rt →
          ∃ s, dcov .int32 rt x y = .ok (.fin s) ∧ 0 ≤ s ∧ s * s = refCovsq x y) :=
  ⟨covsq_eq_refCovsq .int32 x y hlen hn (IntMode.mul_int32_small _ hsmall),
    refCovsq_nonneg x y hlen,
    fun rt => dcov_eq_sqrt_ref .int32 rt x y hlen hn (IntMode.mul_int32_small _ hsmall),
    fun rt hrt => dcov_eq_root .int32 rt hrt x y hlen hn (IntMode.mul_int32_small _ hsmall)⟩

/-- Up to `n = 46340`: with both self-covariances different from zero, `dcor` is
a number between zero and one. -/
theorem bounded_correlation_small (rt : K → K) (hrt : IsSqrt rt) (x y : List K)
    (hlen : x.length = y.length) (hn : 1 ≤ x.length) (hsmall : x.length < 46341)
    (hxx : dcov .int32 rt x x ≠ .ok (.fin 0)) (hyy : dcov .int32 rt y y ≠ .ok (.fin 0)) :
    ∃ r, dcor .int32 rt x y = .ok (.fin r) ∧ 0 ≤ r ∧ r ≤ 1 :=
  dcor_bounded_of_mul .int32 rt hrt x y hlen hn (IntMode.mul_int32_small _ hsmall) hxx hyy

/-- Up to `n = 46340`: against a constant sample both covariances are zero and
`dcor` is not-a-number. -/
theorem degenerate_input_small (rt : K → K) (hrt : rt 0 = 0) (x : List K) (c : K)
    (hn : 1 ≤ x.length) (hsmall : x.length < 46341) :
    dcov .int32 rt x (List.replicate x.length c) = .ok (.fin 0)
      ∧ dcov .int32 rt (List.replicate x.length c) (List.replicate x.length c) = .ok (.fin 0)
      ∧ dcor .int32 rt x (List.replicate x.length c) = .ok .nan :=
  degenerate_of_mul_ne .int32 rt hrt x c hn (int32_mul_ne_zero_small x.length hn hsmall)

/-- Up to `n = 46340`: for a non-constant `x` and `y = a*x + b` with `a > 0`,
`dcor(x, y)` is one. -/
theorem perfect_dependence_small (rt : K → K) (hrt : IsSqrt rt) (x : List K) (a b : K)
    (ha : 0 < a) (i j : Nat) (hi : i < x.length) (hj : j < x.length)
    (hne : x.getD i 0 ≠ x.getD j 0) (hsmall : x.length < 46341) :
    dcor .int32 rt x (x.map (fun v => a * v + b)) = .ok (.fin 1) :=
  dcor_affine_of_mul .int32 rt hrt x a b ha i j hi hj hne (IntMode.mul_int32_small _ hsmall)

/-- C1 (failing input): on the sample of 46340 zeros followed by a one, taken for
`x` and for `y` (equal length 46341), the `int` product `n * n` wraps to
-2147479015: the computed `covsq` is the reference value times
`46341^2 / -2147479015`, a negative number and not the positive reference value,
and `dcov` returns not-a-number instead of its square root. -/
theorem oracle_equivalence_fails_at_46341 :
    overflowSample.length = 46341
      ∧ covsq .int32 overflowSample overflowSample
        = .ok (.fin (46341 * 46341 / (-2147479015) * refCovsq overflowSample overflowSample))
      ∧ 0 < refCovsq overflowSample overflowSample
      ∧ covsq .int32 overflowSample overflowSample
        ≠ .ok (.fin (refCovsq overflowSample overflowSample))
      ∧ ∀ rt : ℚ → ℚ, dcov .int32 rt overflowSample overflowSample = .ok .nan := by
  obtain ⟨h1, h2, h3, h4⟩ := overflowSample_int32
  refine ⟨overflowSample_length, h1, h3, ?_, h4⟩
  rw [h1]
  intro h
  have h5 := Dbl.fin.inj (Except.ok.inj h)
  rw [h5] at h2
  exact absurd h3 (not_lt.mpr (le_of_lt h2))

/-- C2: for samples of equal length, `dcor(x, y)` evaluates `dcov` on the three
pairs `(x,x)`, `(x,y)`, `(y,y)`, in this order, and returns
`dcov(x,y) / sqrt(dcov(x,x) * dcov(y,y))`. -/
theorem dcor_three_evaluations (im : IntMode) (rt : K → K) (x y : List K)
    (hlen : x.length = y.length) :
    dcor im rt x y = (do
      let a ← dcov im rt x x
      let b ← dcov im rt x y
      let c ← dcov im rt y y
      pure (Dbl.div b (Dbl.sqrt rt (Dbl.mul a c)))) :=
  dcor_unfold im rt x y hlen

/-- C2 (witness): the samples `[1,2,3,4]` and `[2,4,6,8]` have equal length. -/
theorem dcor_three_evaluations_witness :
    ([1, 2, 3, 4] : List ℝ).length = ([2, 4, 6, 8] : List ℝ).length
      ∧ dcor .int32 Real.sqrt ([1, 2, 3, 4] : List ℝ) [2, 4, 6, 8] = (do
          let a ← dcov .int32 Real.sqrt ([1, 2, 3, 4] : List ℝ) [1, 2, 3, 4]
          let b ← dcov .int32 Real.sqrt ([1, 2, 3, 4] : List ℝ) [2, 4, 6, 8]
          let c ← dcov .int32 Real.sqrt ([2, 4, 6, 8] : List ℝ) [2, 4, 6, 8]
          pure (Dbl.div b (Dbl.sqrt Real.sqrt (Dbl.mul a c)))) :=
  ⟨rfl, dcor_three_evaluations .int32 Real.sqrt _ _ rfl⟩

/-- C3: symmetry. For samples of equal length the computed `covsq`, and with it
the result of `dcov`, is the same when the two arguments are swapped. -/
theorem dcov_symmetric (im : IntMode) (x y : List K) (hlen : x.length = y.length) :
    covsq im x y = covsq im y x ∧ ∀ rt : K → K, dcov im rt x y = dcov im rt y x := by
  have h := covsq_comm im x y hlen
  refine ⟨h.symm, fun rt => ?_⟩
  unfold dcov
  rw [h]

/-- C3 (witness): the samples `[3,1,2,1]` and `[2,2,7,1]` have equal length. -/
theorem dcov_symmetric_witness :
    ([3, 1, 2, 1] : List ℚ).length = ([2, 2, 7, 1] : List ℚ).length
      ∧ (covsq .int32 ([3, 1, 2, 1] : List ℚ) [2, 2, 7, 1]
          = covsq .int32 ([2, 2, 7, 1] : List ℚ) [3, 1, 2, 1]
        ∧ ∀ rt : ℚ → ℚ, dcov .int32 rt ([3, 1, 2, 1] : List ℚ) [2, 2, 7, 1]
            = dcov .int32 rt ([2, 2, 7, 1] : List ℚ) [3, 1, 2, 1]) :=
  ⟨rfl, dcov_symmetric .int32 _ _ rfl⟩

/-- C5 (failing input): on the sample of 46340 zeros followed by a one, taken
for both arguments, the self-covariance `dcov(x, x)` is not-a-number, hence
different from zero, and `dcor(x, x)` is not-a-number: it is no number between
zero and one, and `0 <= dcor(x, x)` fails. -/
theorem bounded_correlation_fails_at_46341 :
    overflowSample.length = 46341
      ∧ ∀ rt : ℚ → ℚ,
        dcov .int32 rt overflowSample overflowSample = .ok .nan
          ∧ dcov .int32 rt overflowSample overflowSample ≠ .ok (.fin 0)
          ∧ dcor .int32 rt overflowSample overflowSample = .ok .nan
          ∧ ¬ Dbl.le (.fin 0) (.nan : Dbl ℚ)
          ∧ ¬ ∃ r, dcor .int32 rt overflowSample overflowSample = .ok (.fin r)
              ∧ 0 ≤ r ∧ r ≤ 1 := by
  refine ⟨overflowSample_length, fun rt => ?_⟩
  have hxx := overflowSample_int32.2.2.2 rt
  have hcor := dcor_nan_of_self_nan .int32 rt _ _ rfl hxx _ _ hxx hxx
  refine ⟨hxx, ?_, hcor, Dbl.not_le_nan _, ?_⟩
  · rw [hxx]
    intro h
    exact Dbl.noConfusion (Except.ok.inj h)
  · rintro ⟨r, hr, _⟩
    rw [hcor] at hr
    exact Dbl.noConfusion (Except.ok.inj hr)

/-- C6 (failing input): on the sample of 46340 zeros followed by a one the value
`covsq` computed by `dcov(x, x)` is a negative number and `dcov(x, x)` is
not-a-number. -/
theorem self_covariance_negative_at_46341 :
    overflowSample.length = 46341
      ∧ ∃ c : ℚ, covsq .int32 overflowSample overflowSample = .ok (.fin c) ∧ c < 0
          ∧ ∀ rt : ℚ → ℚ, dcov .int32 rt overflowSample overflowSample = .ok .nan := by
  obtain ⟨h1, h2, _, h4⟩ := overflowSample_int32
  exact ⟨overflowSample_length, _, h1, h2, h4⟩

/-- C7 (failing input): at length 65536 the `int` product `n * n` wraps to zero.
For `x` = 65535 zeros followed by a one and the constant sample `y` of 65536
fives, `covsq` is the quotient `0 / 0`, and `dcov(x, y)` and `dcov(y, y)` return
not-a-number, not zero. -/
theorem degenerate_input_fails_at_65536 :
    zeroWrapSample.length = 65536
      ∧ zeroWrapConstant = List.replicate zeroWrapSample.length 5
      ∧ covsq .int32 zeroWrapSample zeroWrapConstant = .ok .nan
      ∧ ∀ rt : ℚ → ℚ,
        dcov .int32 rt zeroWrapSample zeroWrapConstant = .ok .nan
          ∧ dcov .int32 rt zeroWrapSample zeroWrapConstant ≠ .ok (.fin 0)
          ∧ dcov .int32 rt zeroWrapConstant zeroWrapConstant = .ok .nan
          ∧ dcov .int32 rt zeroWrapConstant zeroWrapConstant ≠ .ok (.fin 0) := by
  have hc : zeroWrapConstant = List.replicate zeroWrapSample.length 5 := by
    rw [zeroWrapSample_length]; rfl
  have hcc : zeroWrapConstant = List.replicate zeroWrapConstant.length 5 := by
    rw [zeroWrapConstant_length]; rfl
  have hw : IntMode.int32.mul (zeroWrapConstant.length : Int) (zeroWrapConstant.length : Int)
      = 0 := by
    rw [zeroWrapConstant_length]; exact int32_mul_65536
  have hyy := covsq_const .int32 zeroWrapConstant 5 (by rw [zeroWrapConstant_length]; decide)
  rw [if_pos hw, ← hcc] at hyy
  refine ⟨zeroWrapSample_length, hc, zeroWrap_int32.1, fun rt => ?_⟩
  have hd := zeroWrap_int32.2 rt
  have hd2 : dcov .int32 rt zeroWrapConstant zeroWrapConstant = .ok .nan :=
    dcov_of_covsq .int32 rt _ _ _ hyy
  refine ⟨hd, ?_, hd2, ?_⟩
  · rw [hd]
    intro h
    exact Dbl.noConfusion (Except.ok.inj h)
  · rw [hd2]
    intro h
    exact Dbl.noConfusion (Except.ok.inj h)

/-- C8: singleton input. For one-element samples the merge loop runs zero levels
(the loop state is the initial one), `ax = by = [0]`, `d = 0`, `covsq = 0`, and
`dcov` returns zero. -/
theorem singleton_zero (im : IntMode) (rt : K → K) (hrt : rt 0 = 0) (a b : K) :
    dcov im rt [a] [b] = .ok (.fin 0) ∧ covsq im [a] [b] = .ok (.fin 0)
      ∧ ∃ m t, dcovMerge [a] [b] = .ok m ∧ m.L.i = 1 ∧ m.L.iv1 = [0] ∧ m.ax = [0]
          ∧ dcovTerms [a] [b] = .ok t ∧ t.by' = [0] ∧ t.d = 0 := by
  have hc := covsq_singleton im a b
  obtain ⟨t, ht, hby, hd, _⟩ := dcovTerms_singleton a b
  refine ⟨?_, hc, _, t, dcovMerge_singleton a b, rfl, rfl, rfl, ht, hby, hd⟩
  rw [dcov_of_covsq im rt _ _ _ hc, Dbl.sqrt_fin_nonneg rt 0 (le_refl 0), hrt]

/-- C8 (witness): the real square root maps zero to zero. -/
theorem singleton_zero_witness :
    Real.sqrt 0 = 0
      ∧ (dcov .int32 Real.sqrt [(2 : ℝ)] [3] = .ok (.fin 0)
        ∧ covsq .int32 [(2 : ℝ)] [3] = .ok (.fin 0)
        ∧ ∃ m t, dcovMerge [(2 : ℝ)] [3] = .ok m ∧ m.L.i = 1 ∧ m.L.iv1 = [0] ∧ m.ax = [0]
            ∧ dcovTerms [(2 : ℝ)] [3] = .ok t ∧ t.by' = [0] ∧ t.d = 0) :=
  ⟨Real.sqrt_zero, singleton_zero .int32 Real.sqrt Real.sqrt_zero 2 3⟩

/-- C9 (failing input): for the non-constant `x` of 46340 zeros followed by a
one and `y = 2 * x + 0`, the self-covariance `dcov(x, x)` is not-a-number and so
is `dcor(x, y)`, which the claim puts at one. -/
theorem perfect_dependence_fails_at_46341 :
    overflowSample.length = 46341
      ∧ overflowSample.getD 0 0 ≠ overflowSample.getD 46340 0
      ∧ ∀ rt : ℚ → ℚ,
        dcor .int32 rt overflowSample (overflowSample.map (fun v => 2 * v + 0)) = .ok .nan
          ∧ dcor .int32 rt overflowSample (overflowSample.map (fun v => 2 * v + 0))
              ≠ .ok (.fin 1) := by
  have hl : (overflowSample.map (fun v => 2 * v + 0)).length = overflowSample.length :=
    List.length_map _ _
  have hmul : IntMode.int32.mul (overflowSample.length : Int) (overflowSample.length : Int)
      ≠ 0 := by
    rw [overflowSample_mul]; decide
  refine ⟨overflowSample_length, by rw [overflowSample_first, overflowSample_last]; decide,
    fun rt => ?_⟩
  have hxx := overflowSample_int32.2.2.2 rt
  obtain ⟨b, hb⟩ := dcov_ok_of_mul_ne .int32 rt overflowSample
    (overflowSample.map (fun v => 2 * v + 0)) hl.symm
    (by rw [overflowSample_length]; decide) hmul
  obtain ⟨c, hc⟩ := dcov_ok_of_mul_ne .int32 rt (overflowSample.map (fun v => 2 * v + 0))
    (overflowSample.map (fun v => 2 * v + 0)) rfl
    (by rw [hl, overflowSample_length]; decide) (by rw [hl]; exact hmul)
  have hcor := dcor_nan_of_self_nan .int32 rt _ _ hl.symm hxx b c hb hc
  refine ⟨hcor, ?_⟩
  rw [hcor]
  intro h
  exact Dbl.noConfusion (Except.ok.inj h)

/-- C10 (failing input): at `n = 46341` the divisor `n1` is the wrapped 32-bit
product -2147479015, not `n^2 = 2147488281`, and the error carries over to `n2`
and `n3`. -/
theorem scale_divisors_wrap_at_46341 :
    scaleDivisors (K := ℚ) .int32 46341
        = (.fin (-2147479015), .fin (-2147479015 * 46341), .fin (-2147479015 * 46341 * 46341))
      ∧ (-2147479015 : ℚ) ≠ 46341 * 46341
      ∧ (-2147479015 * 46341 : ℚ) ≠ 46341 * 46341 * 46341
      ∧ (-2147479015 * 46341 * 46341 : ℚ) ≠ 46341 * 46341 * 46341 * 46341 := by
  refine ⟨?_, by norm_num, by norm_num, by norm_num⟩
  unfold scaleDivisors
  have h : IntMode.int32.mul ((46341 : Nat) : Int) ((46341 : Nat) : Int) = -2147479015 := by
    decide
  simp only [h, Dbl.mul]
  norm_num

/-- One pass of `while (i < n)` is the loop over `j` followed by the write-back
of the target column and the update of `i`, `r`, `s`. -/
theorem mergeLevel_eq_levelFold (n : Nat) (v : Mat3 K) (ys : List K) (L : LoopState K) :
    mergeLevel n v ys L = (do
      let σ ← levelFold n v ys L
      let L' ← L.setCol (L.s - 1) σ.idxs
      pure { L' with i := 2 * L.i, r := 3 - L'.r, s := 3 - L'.s,
                     iv1 := σ.iv1, iv2 := σ.iv2, iv3 := σ.iv3, iv4 := σ.iv4 }) := by
  unfold mergeLevel levelFold
  simp only [bind_assoc]

/-- What a successful run of lines 32 to 117 has computed, read off the code. -/
theorem dcovMerge_inv (x y : List K) (m : Merged K) (h : dcovMerge x y = .ok m) :
    m.n = x.length ∧ elem y (sort_index x) = .ok m.ys ∧ m.xs = sort x
      ∧ absDevSums x.length m.xs = .ok m.ax
      ∧ m.v.c0 = m.xs ∧ m.v.c1 = m.ys ∧ schur m.xs m.ys = .ok m.v.c2
      ∧ mergeLoop x.length m.v m.ys x.length (initLoop x.length) = .ok m.L := by
  unfold dcovMerge at h
  dsimp only at h
  cases h1 : elem y (sort_index x) with
  | error e => simp [h1, bind, Except.bind] at h
  | ok ys =>
    cases h2 : absDevSums x.length (sort x) with
    | error e => simp [h1, h2, bind, Except.bind] at h
    | ok ax =>
      cases h3 : schur (sort x) ys with
      | error e => simp [h1, h2, h3, bind, Except.bind] at h
      | ok c2 =>
        by_cases h4 : (regspace2 1 (x.length : Int)).length = x.length
        · cases h5 : mergeLoop x.length { c0 := sort x, c1 := ys, c2 := c2 } ys x.length
              (initLoop x.length) with
          | error e =>
            unfold initLoop at h5
            simp [h1, h2, h3, h4, h5, bind, Except.bind] at h
          | ok L =>
            have h5' := h5
            unfold initLoop at h5
            simp only [h1, h2, h3, h4, h5, bind, Except.bind, if_true, pure, Except.pure,
              Except.ok.injEq, List.length_map] at h
            subst h
            exact ⟨rfl, rfl, rfl, h2, rfl, rfl, h3, h5'⟩
        · simp [h1, h2, h3, h4, bind, Except.bind] at h

theorem levelsRun_zero (n : Nat) (v : Mat3 K) (ys : List K) (L : LoopState K) :
    levelsRun n v ys L 0 = .ok L := rfl

theorem levelsRun_succ (n : Nat) (v : Mat3 K) (ys : List K) (L : LoopState K) (k : Nat) :
    levelsRun n v ys L (k + 1) = levelsRun n v ys L k >>= mergeLevel n v ys := rfl

/-- Running `k + 1` passes is one pass followed by `k` passes. -/
theorem levelsRun_succ_left (n : Nat) (v : Mat3 K) (ys : List K) (L : LoopState K) (k : Nat) :
    levelsRun n v ys L (k + 1) = mergeLevel n v ys L >>= fun L1 => levelsRun n v ys L1 k := by
  induction k with
  | zero =>
    simp only [levelsRun, bind, Except.bind]
    cases mergeLevel n v ys L <;> rfl
  | succ k ih =>
    rw [levelsRun_succ, ih]
    simp only [bind, Except.bind]
    cases mergeLevel n v ys L with
    | error e => rfl
    | ok L1 => simp only [levelsRun, bind, Except.bind]

/-- A run of `while (i < n)` that ends has made some number `k` of passes: the
loop condition held before each of them and fails at the end. -/
theorem mergeLoop_levels (n : Nat) (v : Mat3 K) (ys : List K) (fuel : Nat) (L L' : LoopState K)
    (h : mergeLoop n v ys fuel L = .ok L') :
    ∃ k, levelsRun n v ys L k = .ok L'
      ∧ (∀ j, j < k → ∃ Lj, levelsRun n v ys L j = .ok Lj ∧ Lj.i < n)
      ∧ n ≤ L'.i := by
  induction fuel generalizing L with
  | zero =>
    by_cases hc : L.i < n
    · simp only [mergeLoop, hc, if_true, reduceCtorEq] at h
    · simp only [mergeLoop, hc, if_false, Except.ok.injEq] at h
      subst h
      exact ⟨0, rfl, fun j hj => absurd hj (Nat.not_lt_zero j), not_lt.mp hc⟩
  | succ fuel ih =>
    by_cases hc : L.i < n
    · simp only [mergeLoop, hc, if_true] at h
      cases h1 : mergeLevel n v ys L with
      | error e => simp only [h1, bind, Except.bind, reduceCtorEq] at h
      | ok L1 =>
        simp only [h1, bind, Except.bind] at h
        obtain ⟨k, hk, hj, hfin⟩ := ih L1 h
        refine ⟨k + 1, ?_, ?_, hfin⟩
        · rw [levelsRun_succ_left, h1]
          exact hk
        · intro j hjk
          cases j with
          | zero => exact ⟨L, rfl, hc⟩
          | succ j =>
            obtain ⟨Lj, hLj, hlt⟩ := hj j (by omega)
            refine ⟨Lj, ?_, hlt⟩
            rw [levelsRun_succ_left, h1]
            exact hLj
    · simp only [mergeLoop, hc, if_false, Except.ok.injEq] at h
      subst h
      exact ⟨0, rfl, fun j hj => absurd hj (Nat.not_lt_zero j), not_lt.mp hc⟩

/-- The invariant of `while (i < n)` holds when the loop is entered. -/
theorem loopInv_init (n : Nat) (hn : 1 ≤ n) (v : Mat3 K) (ys : List K) :
    LoopInv n v ys (initLoop n) (List.range n) := by
  have hcol := regspace2_col0 n hn
  constructor
  · left; exact ⟨rfl, rfl⟩
  · simp only [initLoop, if_true]; exact hcol
  · simp only [initLoop, if_true, List.length_replicate]
  · exact BlockInv.init _ _
  · simp [initLoop]
  · simp [initLoop]
  · simp [initLoop]
  · simp [initLoop]
  · intro p _; show _ = accSpec _ _ 1 p; rw [accSpec_one]; exact getD_replicate_zero n p
  · intro p _; show _ = accSpec _ _ 1 p; rw [accSpec_one]; exact getD_replicate_zero n p
  · intro p _; show _ = accSpec _ _ 1 p; rw [accSpec_one]; exact getD_replicate_zero n p
  · intro p _; show _ = accSpec _ _ 1 p; rw [accSpec_one]; exact getD_replicate_zero n p

/-- Every number of passes from the initial state succeeds; after `k` passes the
block size is `2^k` and the invariant holds. -/
theorem levelsRun_inv {n : Nat} {v : Mat3 K} {ys : List K} (hn : 1 ≤ n)
    (hys : ys.length = n) (hv0 : v.c0.length = n) (hv1 : v.c1.length = n)
    (hv2 : v.c2.length = n) (k : Nat) :
    ∃ Lk curk, levelsRun n v ys (initLoop n) k = .ok Lk ∧ Lk.i = 2 ^ k
      ∧ LoopInv n v ys Lk curk := by
  induction k with
  | zero => exact ⟨initLoop n, List.range n, rfl, rfl, loopInv_init n hn v ys⟩
  | succ k ih =>
    obtain ⟨Lk, curk, hrun, hi, I⟩ := ih
    obtain ⟨L1, h1, hi1, I1⟩ := mergeLevel_spec hn hys hv0 hv1 hv2 Lk curk I
    refine ⟨L1, _, ?_, ?_, I1⟩
    · rw [levelsRun_succ, hrun]; exact h1
    · rw [hi1, hi, pow_succ]; ring

/-- The loop over `j` of one pass succeeds: when it ends the write counter `k` is
`n` and the whole target column holds the merged order of the pass. -/
theorem levelFold_spec {n : Nat} {v : Mat3 K} {ys : List K} (hn : 1 ≤ n)
    (hys : ys.length = n) (hv0 : v.c0.length = n) (hv1 : v.c1.length = n)
    (hv2 : v.c2.length = n) (L : LoopState K) (cur0 : List Nat)
    (I : LoopInv n v ys L cur0) :
    ∃ σ, levelFold n v ys L = .ok σ ∧ σ.k = n ∧ σ.idxs.length = n
      ∧ σ.idxs
        = (levelOut (fun p => ys.getD p 0) cur0 L.i ((n - 1) / (2 * L.i) + 1)).map (· + 1) := by
  have hi := I.hB.hi
  have hlen0 := I.hB.length
  have hlt := I.hB.lt
  have hgt := mul_succ_div_gt n (2 * L.i) (by omega)
  have he0 := elem_ok v.c0 0 cur0 (fun p hp => by rw [hv0]; exact hlt p hp)
  have he1 := elem_ok v.c1 0 cur0 (fun p hp => by rw [hv1]; exact hlt p hp)
  have he2 := elem_ok v.c2 0 cur0 (fun p hp => by rw [hv2]; exact hlt p hp)
  have hjs := regspace_blocks n (2 * L.i) hn (by omega)
  have C : LevelCtx n ys v (cur0.map (· + 1)) cur0
      { c0 := 0 :: cumsum (cur0.map (fun p => v.c0.getD p 0))
        c1 := 0 :: cumsum (cur0.map (fun p => v.c1.getD p 0))
        c2 := 0 :: cumsum (cur0.map (fun p => v.c2.getD p 0)) } :=
    ⟨hys, rfl, hlen0, hlt, rfl, rfl, rfl⟩
  have hfin : ∀ σ0 σ : MergeState K,
      FoldPost (fun p => ys.getD p 0) v n L.i cur0 σ0 σ ((n - 1) / (2 * L.i) + 1) →
      σ.k = n ∧ σ.idxs.length = n ∧ σ.idxs
        = (levelOut (fun p => ys.getD p 0) cur0 L.i ((n - 1) / (2 * L.i) + 1)).map (· + 1) := by
    intro σ0 σ hp
    have h1 := hp.hidxs
    have hk : σ.k = n := by rw [hp.hk]; omega
    rw [hk, List.take_of_length_le (by rw [hp.hlen])] at h1
    exact ⟨hk, hp.hlen, h1⟩
  have hcast : (((2 * L.i : Nat) : Int)) = 2 * (L.i : Int) := by push_cast; ring
  rcases I.hrs with ⟨hr, hs⟩ | ⟨hr, hs⟩
  · have hcur := I.hcur
    have hother := I.hother
    simp only [hr, if_true] at hcur hother
    obtain ⟨σ, hrun, hp⟩ := level_fold C L.i hi
      { k := 0, st1 := 0, st2 := 0, idxs := L.col1,
        iv1 := L.iv1, iv2 := L.iv2, iv3 := L.iv3, iv4 := L.iv4 }
      rfl hother I.hl1 I.hl2 I.hl3 I.hl4 ((n - 1) / (2 * L.i) + 1) (le_refl _) hn
    refine ⟨σ, ?_, hfin _ _ hp⟩
    unfold levelFold
    simp only [hr, hs, LoopState.col, Nat.sub_self, if_true, bind,
      Except.bind, hcur, map_usub1_map_succ, he0, he1, he2, Nat.add_one_sub_one,
      Nat.succ_ne_zero, if_false, Nat.cast_mul, Nat.cast_ofNat]
    rw [← hcast, hjs, hrun]
  · have hcur := I.hcur
    have hother := I.hother
    simp only [hr, if_false, (by decide : ¬ (2 = 1))] at hcur hother
    obtain ⟨σ, hrun, hp⟩ := level_fold C L.i hi
      { k := 0, st1 := 0, st2 := 0, idxs := L.col0,
        iv1 := L.iv1, iv2 := L.iv2, iv3 := L.iv3, iv4 := L.iv4 }
      rfl hother I.hl1 I.hl2 I.hl3 I.hl4 ((n - 1) / (2 * L.i) + 1) (le_refl _) hn
    refine ⟨σ, ?_, hfin _ _ hp⟩
    unfold levelFold
    simp only [hr, hs, LoopState.col, Nat.sub_self, if_true, bind,
      Except.bind, hcur, map_usub1_map_succ, he0, he1, he2, Nat.add_one_sub_one,
      Nat.succ_ne_zero, if_false, Nat.cast_mul, Nat.cast_ofNat]
    rw [← hcast, hjs, hrun]

/-- Merging keeps the tie order when every position of the left list is smaller
than every position of the right list: on a tie the left entry is emitted first. -/
theorem mergeOut_stable (key : Nat → K) (L R : List Nat) (hLd : DescBy key L)
    (hL : StableBy key L) (hR : StableBy key R) (hLR : ∀ a ∈ L, ∀ b ∈ R, a < b) :
    StableBy key (mergeOut key L R) := by
  induction L generalizing R with
  | nil => simpa [mergeOut_nil_left] using hR
  | cons l L ihL =>
    induction R with
    | nil => simpa [mergeOut_nil_right] using hL
    | cons r R ihR =>
      have hLd' := List.pairwise_cons.mp hLd
      have hL' := List.pairwise_cons.mp hL
      have hR' := List.pairwise_cons.mp hR
      by_cases h : key l ≥ key r
      · rw [mergeOut_cons_left _ _ _ _ _ h]
        refine List.pairwise_cons.mpr ⟨?_, ihL (r :: R) hLd'.2 hL'.2 hR
          (fun a ha b hb => hLR a (List.mem_cons_of_mem l ha) b hb)⟩
        intro a ha
        have hmem := (mergeOut_perm key L (r :: R)).mem_iff.mp ha
        rcases List.mem_append.mp hmem with h1 | h1
        · exact hL'.1 a h1
        · exact fun _ => hLR l (List.mem_cons_self l L) a h1
      · rw [mergeOut_cons_right _ _ _ _ _ h]
        refine List.pairwise_cons.mpr ⟨?_, ihR hR'.2
          (fun a ha b hb => hLR a ha b (List.mem_cons_of_mem r hb))⟩
        intro a ha
        have hmem := (mergeOut_perm key (l :: L) R).mem_iff.mp ha
        have hlr : key l < key r := not_le.mp h
        rcases List.mem_append.mp hmem with h1 | h1
        · intro heq
          exfalso
          rcases List.mem_cons.mp h1 with h2 | h2
          · rw [h2] at heq; exact absurd heq.symm (ne_of_lt hlr)
          · have := hLd'.1 a h2
            rw [← heq] at this
            exact absurd hlr (not_lt.mpr this)
        · exact hR'.1 a h1

theorem stableInv_init {α : Type} (key : Nat → α) (n : Nat) :
    StableInv key 1 (List.range n) := by
  intro b
  unfold StableBy blockOf
  have : ((List.range n).drop (b * 1)).take 1 = []
      ∨ ∃ a, ((List.range n).drop (b * 1)).take 1 = [a] := by
    cases (List.range n).drop (b * 1) with
    | nil => left; rfl
    | cons a l => right; exact ⟨a, by simp⟩
  rcases this with h | ⟨a, h⟩ <;> rw [h] <;> simp

theorem stableInv_next {key : Nat → K} {n i : Nat} {cur0 : List Nat}
    (B : BlockInv key n i cur0) (S : StableInv key i cur0) :
    StableInv key (2 * i) (levelOut key cur0 i ((n - 1) / (2 * i) + 1)) := by
  have hi := B.hi
  intro b
  by_cases hb : b < (n - 1) / (2 * i) + 1
  · rw [blockOf_levelOut key cur0 i b _ hb]
    have e1 : b * (2 * i) = (2 * b) * i := by ring
    have e2 : b * (2 * i) + i = (2 * b + 1) * i := by ring
    rw [e2, e1]
    apply mergeOut_stable key _ _ (B.hdesc _) (S _) (S _)
    intro a ha c hc
    have h1 := B.hblk _ a ha
    have h2 := B.hblk _ c hc
    by_contra hcon
    have h3 := Nat.div_le_div_right (c := i) (not_lt.mp hcon)
    omega
  · have hle : ((n - 1) / (2 * i) + 1) * (2 * i) ≤ b * (2 * i) :=
      Nat.mul_le_mul_right _ (by omega)
    have hgt := mul_succ_div_gt n (2 * i) (by omega)
    have hlen : (levelOut key cur0 i ((n - 1) / (2 * i) + 1)).length = n := by
      rw [(levelOut_perm_full key cur0 i hi n B.length).length_eq, B.length]
    rw [blockOf_nil_of_le _ _ _ (by omega)]
    exact List.Pairwise.nil

theorem stableInv_final {key : Nat → K} {n i : Nat} {cur0 : List Nat}
    (B : BlockInv key n i cur0) (S : StableInv key i cur0) (h : n ≤ i) : StableBy key cur0 := by
  have := S 0
  unfold blockOf at this
  rw [Nat.zero_mul, List.drop_zero, List.take_of_length_le (by rw [B.length]; exact h)] at this
  exact this

/-- The merge loop ends with the invariant at a block size of at least `n` and
with the tie order of the index column. -/
theorem mergeLoop_stable {n : Nat} {v : Mat3 K} {ys : List K} (hn : 1 ≤ n)
    (hys : ys.length = n) (hv0 : v.c0.length = n) (hv1 : v.c1.length = n)
    (hv2 : v.c2.length = n) (fuel : Nat) (L : LoopState K) (cur0 : List Nat)
    (I : LoopInv n v ys L cur0) (S : StableInv (fun p => ys.getD p 0) L.i cur0)
    (hfuel : n - L.i ≤ fuel) :
    ∃ L' cur0', mergeLoop n v ys fuel L = .ok L' ∧ LoopInv n v ys L' cur0' ∧ n ≤ L'.i
      ∧ StableBy (fun p => ys.getD p 0) cur0' := by
  induction fuel generalizing L cur0 with
  | zero =>
    have h : ¬ L.i < n := by omega
    exact ⟨L, cur0, by simp only [mergeLoop, h, if_false], I, by omega,
      stableInv_final I.hB S (by omega)⟩
  | succ fuel ih =>
    by_cases h : L.i < n
    · obtain ⟨L1, hrun, hi1, I1⟩ := mergeLevel_spec hn hys hv0 hv1 hv2 L cur0 I
      have hi := I.hB.hi
      have S1 : StableInv (fun p => ys.getD p 0) L1.i
          (levelOut (fun p => ys.getD p 0) cur0 L.i ((n - 1) / (2 * L.i) + 1)) := by
        rw [hi1]; exact stableInv_next I.hB S
      obtain ⟨L', cur0', hrun', I', hfin, hst⟩ := ih L1 _ I1 S1 (by omega)
      refine ⟨L', cur0', ?_, I', hfin, hst⟩
      simp only [mergeLoop, h, if_true, hrun, bind, Except.bind]
      exact hrun'
    · exact ⟨L, cur0, by simp only [mergeLoop, h, if_false], I, by omega,
        stableInv_final I.hB S (by omega)⟩

/-- Everything that is known when lines 32 to 117 have run on samples of equal
length `n >= 1`: the sorted data, the loop invariant at a block size of at least
`n`, the tie order of the surviving index column, and the passes of the loop,
each entered with the invariant at block size `2^j < n`. -/
theorem dcovMerge_full (x y : List K) (hlen : x.length = y.length) (hn : 1 ≤ x.length) :
    ∃ m cur k, dcovMerge x y = .ok m ∧ m.n = x.length
      ∧ m.xs = sort x
      ∧ m.xs = (sort_index x).map (fun i => x.getD i 0)
      ∧ m.ys = (sort_index x).map (fun i => y.getD i 0)
      ∧ m.xs.length = x.length ∧ m.ys.length = x.length
      ∧ absDevSums x.length m.xs = .ok m.ax
      ∧ m.v = { c0 := m.xs, c1 := m.ys, c2 := List.zipWith (· * ·) m.xs m.ys }
      ∧ LoopInv x.length m.v m.ys m.L cur ∧ x.length ≤ m.L.i
      ∧ StableBy (fun p => m.ys.getD p 0) cur
      ∧ mergeLoop x.length m.v m.ys x.length (initLoop x.length) = .ok m.L
      ∧ levelsRun x.length m.v m.ys (initLoop x.length) k = .ok m.L
      ∧ m.L.i = 2 ^ k
      ∧ ∀ j, j < k → ∃ Lj curj, levelsRun x.length m.v m.ys (initLoop x.length) j = .ok Lj
          ∧ Lj.i = 2 ^ j ∧ 2 ^ j < x.length ∧ LoopInv x.length m.v m.ys Lj curj := by
  obtain ⟨m, cur0, hm, hmn, hxs, hys, hax, hv, _, _⟩ := dcovMerge_spec x y hn (le_of_eq hlen)
  obtain ⟨_, _, hsort, _, _, _, _, hloop⟩ := dcovMerge_inv x y m hm
  have hp := sort_index_perm x
  have hplen : (sort_index x).length = x.length := by rw [hp.length_eq, List.length_range]
  have hxl : m.xs.length = x.length := by rw [hxs, List.length_map, hplen]
  have hyl : m.ys.length = x.length := by rw [hys, List.length_map, hplen]
  have hv0 : m.v.c0.length = x.length := by rw [hv]; exact hxl
  have hv1 : m.v.c1.length = x.length := by rw [hv]; exact hyl
  have hv2 : m.v.c2.length = x.length := by
    rw [hv]; simp only [List.length_zipWith, hxl, hyl, min_self]
  obtain ⟨L', cur, hrun, I, hfin, hst⟩ := mergeLoop_stable hn hyl hv0 hv1 hv2 x.length
    (initLoop x.length) (List.range x.length) (loopInv_init x.length hn m.v m.ys)
    (stableInv_init _ _) (Nat.sub_le _ _)
  have hL : L' = m.L := Except.ok.inj (hrun.symm.trans hloop)
  subst hL
  obtain ⟨k, hk, hj, _⟩ := mergeLoop_levels x.length m.v m.ys x.length _ _ hloop
  obtain ⟨Lk, _, hLk, hik, _⟩ := levelsRun_inv hn hyl hv0 hv1 hv2 (v := m.v) k
  have hLk' : Lk = m.L := Except.ok.inj (hLk.symm.trans hk)
  rw [hLk'] at hik
  refine ⟨m, cur, k, hm, hmn, hsort, hxs, hys, hxl, hyl, hax, hv, I, hfin, hst, hloop, hk, hik,
    ?_⟩
  intro j hjk
  obtain ⟨Lj, hLj, hlt⟩ := hj j hjk
  obtain ⟨Lj', curj, hLj', hij, Ij⟩ := levelsRun_inv hn hyl hv0 hv1 hv2 (v := m.v) j
  have e : Lj' = Lj := Except.ok.inj (hLj'.symm.trans hLj)
  rw [e] at hij Ij
  exact ⟨Lj, curj, hLj, hij, by rw [← hij]; exact hlt, Ij⟩

/-- The closed form on any vector of length `n >= 1`, with the coefficient as the
code computes it: `(2i - n + 2) * s[i] + (total - 2 * prefix[i])`. -/
theorem absDevSums_formula (n : Nat) (s : List K) (hs : s.length = n) (hn : 1 ≤ n) :
    ∃ r, absDevSums n s = .ok r ∧ r.length = n
      ∧ ∀ i, i < n → r.getD i 0
          = (2 * (i : K) - (n : K) + 2) * s.getD i 0 + (s.sum - 2 * (s.take (i + 1)).sum) := by
  refine ⟨_, absDevSums_spec n s hs hn, by simp, ?_⟩
  intro i hi
  rw [getD_map_of_lt _ _ _ _ (by simpa using hi)]
  have hri : (List.range n).getD i 0 = i := by
    simp [List.getD_eq_getElem?_getD,
      List.getElem?_eq_getElem (show i < (List.range n).length by simpa using hi)]
  rw [hri]
  push_cast
  ring

/-- C14 (counterexample): for `xs = [1,2,4]` the code computes `ax[0] = 4`, the
sum of `|1-2|` and `|1-4|`, while `(2i - n + 1)*xs[i] + (total - 2*prefix[i])`
is `-2 + (7 - 2) = 3` at `i = 0`. -/
theorem prefix_formula_counterexample :
    ∃ m, dcovMerge ([1, 2, 4] : List ℚ) [1, 2, 4] = .ok m ∧ m.xs = [1, 2, 4]
      ∧ m.ax.getD 0 0 = 4
      ∧ (2 * 0 - 3 + 1) * m.xs.getD 0 0
          + (m.xs.sum - 2 * (m.xs.take (0 + 1)).sum) = 3
      ∧ m.ax.getD 0 0 ≠ (2 * 0 - 3 + 1) * m.xs.getD 0 0
          + (m.xs.sum - 2 * (m.xs.take (0 + 1)).sum) := by
  obtain ⟨m, _, _, hm, _, hsort, _, _, hxl, _, hax, _⟩ :=
    dcovMerge_full ([1, 2, 4] : List ℚ) [1, 2, 4] rfl (by decide)
  have hs : sort ([1, 2, 4] : List ℚ) = [1, 2, 4] := by
    simp [sort, List.insertionSort, List.orderedInsert]
  rw [hs] at hsort
  obtain ⟨r, hr, _, hg⟩ := absDevSums_formula 3 m.xs (by rw [hsort]; rfl) (by decide)
  have hax' : absDevSums 3 m.xs = .ok m.ax := hax
  have hrm : r = m.ax := Except.ok.inj (hr.symm.trans hax')
  have h0 := hg 0 (by decide)
  rw [hrm, hsort] at h0
  have e1 : m.ax.getD 0 0 = 4 := by
    rw [h0]
    norm_num
  have e2 : (2 * 0 - 3 + 1) * m.xs.getD 0 0
      + (m.xs.sum - 2 * (m.xs.take (0 + 1)).sum) = 3 := by
    rw [hsort]
    norm_num
  refine ⟨m, hm, hsort, e1, e2, ?_⟩
  rw [e1, e2]
  norm_num

/-- C14 (amended): for samples of equal length `n >= 1` and every index `i`, the
computed `ax[i]` is `(2i - n + 2)*xs[i] + (total - 2*prefix[i])`, with
`prefix[i] = xs[0] + ... + xs[i]` and `total = prefix[n-1]`; the closed form gives
this value on every vector of length `n`, sorted or not. -/
theorem prefix_sum_formula (x y : List K) (hlen : x.length = y.length) (hn : 1 ≤ x.length) :
    (∃ m, dcovMerge x y = .ok m ∧ m.xs = sort x ∧ m.ax.length = x.length
      ∧ ∀ i, i < x.length → m.ax.getD i 0
          = (2 * (i : K) - (x.length : K) + 2) * m.xs.getD i 0
            + (m.xs.sum - 2 * (m.xs.take (i + 1)).sum))
      ∧ ∀ s : List K, s.length = x.length →
        ∃ r, absDevSums x.length s = .ok r ∧ r.length = x.length
          ∧ ∀ i, i < x.length → r.getD i 0
              = (2 * (i : K) - (x.length : K) + 2) * s.getD i 0
                + (s.sum - 2 * (s.take (i + 1)).sum) := by
  obtain ⟨m, _, _, hm, _, hsort, _, _, hxl, _, hax, _⟩ := dcovMerge_full x y hlen hn
  obtain ⟨r, hr, hrl, hg⟩ := absDevSums_formula x.length m.xs hxl hn
  have hrm : r = m.ax := Except.ok.inj (hr.symm.trans hax)
  rw [hrm] at hrl hg
  exact ⟨⟨m, hm, hsort, hrl, hg⟩, fun s hs => absDevSums_formula x.length s hs hn⟩

/-- C14 (witness): the samples `[4,1,2]` and `[0,3,3]`. -/
theorem prefix_sum_formula_witness :
    ([4, 1, 2] : List ℚ).length = ([0, 3, 3] : List ℚ).length
      ∧ 1 ≤ ([4, 1, 2] : List ℚ).length
      ∧ ∃ m, dcovMerge ([4, 1, 2] : List ℚ) [0, 3, 3] = .ok m
          ∧ m.xs = sort ([4, 1, 2] : List ℚ)
          ∧ m.ax.length = ([4, 1, 2] : List ℚ).length
          ∧ ∀ i, i < ([4, 1, 2] : List ℚ).length → m.ax.getD i 0
              = (2 * (i : ℚ) - (([4, 1, 2] : List ℚ).length : ℚ) + 2) * m.xs.getD i 0
                + (m.xs.sum - 2 * (m.xs.take (i + 1)).sum) :=
  ⟨rfl, by decide, (prefix_sum_formula ([4, 1, 2] : List ℚ) [0, 3, 3] rfl (by decide)).1⟩

/-- C15: sum of absolute differences on the x side. For samples of equal length
`n >= 1`, ties included, `xs` is `x` sorted ascending and `ax[i]` is the sum over
all `j` of `|xs[i] - xs[j]|`. -/
theorem ax_abs_deviation_sums (x y : List K) (hlen : x.length = y.length)
    (hn : 1 ≤ x.length) :
    ∃ m, dcovMerge x y = .ok m ∧ m.xs = sort x ∧ m.xs.Pairwise (· ≤ ·) ∧ m.xs.Perm x
      ∧ m.ax.length = x.length
      ∧ ∀ i, i < x.length → m.ax.getD i 0
          = ∑ j in range x.length, |m.xs.getD i 0 - m.xs.getD j 0| := by
  obtain ⟨m, _, _, hm, _, hsort, _, _, hxl, _, hax, _⟩ := dcovMerge_full x y hlen hn
  have hsorted : m.xs.Pairwise (· ≤ ·) := by rw [hsort]; exact sort_sorted x
  obtain ⟨haxl, haxg⟩ := ax_spec x.length m.xs m.ax hxl hn hsorted hax
  refine ⟨m, hm, hsort, hsorted, by rw [hsort]; exact sort_perm x, haxl, ?_⟩
  intro i hi
  rw [haxg i hi]
  unfold rowSum dist
  rw [hxl]

/-- C15 (witness): the samples `[3,1,2,1]` and `[2,2,7,1]`; `x` has a tie. -/
theorem ax_abs_deviation_sums_witness :
    ([3, 1, 2, 1] : List ℚ).length = ([2, 2, 7, 1] : List ℚ).length
      ∧ 1 ≤ ([3, 1, 2, 1] : List ℚ).length
      ∧ ∃ m, dcovMerge ([3, 1, 2, 1] : List ℚ) [2, 2, 7, 1] = .ok m
          ∧ m.xs = sort ([3, 1, 2, 1] : List ℚ) ∧ m.xs.Pairwise (· ≤ ·)
          ∧ m.xs.Perm ([3, 1, 2, 1] : List ℚ)
          ∧ m.ax.length = ([3, 1, 2, 1] : List ℚ).length
          ∧ ∀ i, i < ([3, 1, 2, 1] : List ℚ).length → m.ax.getD i 0
              = ∑ j in range ([3, 1, 2, 1] : List ℚ).length,
                  |m.xs.getD i 0 - m.xs.getD j 0| :=
  ⟨rfl, by decide, ax_abs_deviation_sums _ _ rfl (by decide)⟩

/-- Any rearrangement of the indices along which `x` is sorted gathers the same
vector, the sorted `x`: the tie order of the index sort does not matter. -/
theorem gather_sorted_eq_sort (x : List K) (p : List Nat)
    (hp : p.Perm (List.range x.length))
    (hs : (p.map (fun i => x.getD i 0)).Pairwise (· ≤ ·)) :
    p.map (fun i => x.getD i 0) = sort x := by
  have h1 : (p.map (fun i => x.getD i 0)).Perm x := by
    have := hp.map (fun i => x.getD i 0)
    rw [← list_eq_map_range x 0] at this
    exact this
  exact List.eq_of_perm_of_sorted (h1.trans (sort_perm x).symm) hs (sort_sorted x)

theorem zip_eq_map_range (x y : List K) (hlen : x.length = y.length) :
    x.zip y = (List.range x.length).map (fun i => (x.getD i 0, y.getD i 0)) := by
  conv_lhs => rw [list_eq_map_range x 0, list_eq_map_range y 0, ← hlen]
  exact List.zip_map' _ _ _

/-- C19: sorter consistency. For samples of equal length, `xs = sort(x)` does not
decrease and the one rearrangement `p = sort_index(x)` of `0 .. n-1` gives
`xs[i] = x[p[i]]` and `ys[i] = y[p[i]]` for every `i`, so that the pairs
`(xs[i], ys[i])` are the input pairs reordered. The two sorting calls agree also
when `x` has ties: every rearrangement of the indices that sorts `x` gathers the
vector `sort(x)`. -/
theorem sorter_consistency (x y : List K) (hlen : x.length = y.length) :
    ∃ ys, elem y (sort_index x) = .ok ys
      ∧ (sort x).Pairwise (· ≤ ·)
      ∧ (sort_index x).Perm (List.range x.length)
      ∧ (sort x).length = x.length ∧ ys.length = x.length
      ∧ (∀ i, i < x.length →
          (sort x).getD i 0 = x.getD ((sort_index x).getD i 0) 0
            ∧ ys.getD i 0 = y.getD ((sort_index x).getD i 0) 0)
      ∧ ((sort x).zip ys).Perm (x.zip y)
      ∧ (∀ p : List Nat, p.Perm (List.range x.length) →
          (p.map (fun i => x.getD i 0)).Pairwise (· ≤ ·) →
          p.map (fun i => x.getD i 0) = sort x)
      ∧ (1 ≤ x.length → ∃ m, dcovMerge x y = .ok m ∧ m.xs = sort x ∧ m.ys = ys) := by
  have hp := sort_index_perm x
  have hplen : (sort_index x).length = x.length := by rw [hp.length_eq, List.length_range]
  have hplt : ∀ i ∈ sort_index x, i < y.length := fun i hi => by
    rw [← hlen]; exact List.mem_range.mp (hp.mem_iff.mp hi)
  have hys := elem_ok y 0 (sort_index x) hplt
  have hxs := sort_eq_map_sort_index x
  refine ⟨_, hys, sort_sorted x, hp, sort_length x, by rw [List.length_map, hplen], ?_, ?_,
    fun p hp hs => gather_sorted_eq_sort x p hp hs, ?_⟩
  · intro i hi
    constructor
    · rw [hxs]; exact getD_map_of_lt _ _ _ _ (by rw [hplen]; exact hi)
    · exact getD_map_of_lt _ _ _ _ (by rw [hplen]; exact hi)
  · rw [hxs, List.zip_map', zip_eq_map_range x y hlen]
    exact hp.map _
  · intro hn
    obtain ⟨m, _, _, hm, _, hsort, _, hmy, _⟩ := dcovMerge_full x y hlen hn
    exact ⟨m, hm, hsort, hmy⟩

/-- C19 (witness): the samples `[2,1,2,1]` and `[5,6,7,8]`; `x` has two ties. -/
theorem sorter_consistency_witness :
    ([2, 1, 2, 1] : List ℚ).length = ([5, 6, 7, 8] : List ℚ).length
      ∧ ∃ ys, elem ([5, 6, 7, 8] : List ℚ) (sort_index ([2, 1, 2, 1] : List ℚ)) = .ok ys
          ∧ (sort ([2, 1, 2, 1] : List ℚ)).Pairwise (· ≤ ·)
          ∧ (sort_index ([2, 1, 2, 1] : List ℚ)).Perm
              (List.range ([2, 1, 2, 1] : List ℚ).length)
          ∧ ((sort ([2, 1, 2, 1] : List ℚ)).zip ys).Perm
              (([2, 1, 2, 1] : List ℚ).zip ([5, 6, 7, 8] : List ℚ)) := by
  obtain ⟨ys, h1, h2, h3, _, _, _, h4, _⟩ :=
    sorter_consistency ([2, 1, 2, 1] : List ℚ) [5, 6, 7, 8] rfl
  exact ⟨rfl, ys, h1, h2, h3, h4⟩

/-- The merge with the loop counters as natural numbers. For samples of equal
length `n >= 1` lines 32 to 117 run without a failure: no bounds or size check of
the library fails inside the merge loop and no loop exhausts its iteration
budget. The loop `while (i < n)` makes `k` passes and ends with `i >= n`; pass `j`
is entered with `i = 2^j < n`, so that `gap = 2 * i` is below `2 * n`, and when
its loop over `j` ends the write counter `k` equals `n`, the length of the target
column, which the pass writes back to `idx`. -/
theorem mergeLoop_passes (x y : List K) (hlen : x.length = y.length) (hn : 1 ≤ x.length) :
    ∃ m k, dcovMerge x y = .ok m
      ∧ mergeLoop x.length m.v m.ys x.length (initLoop x.length) = .ok m.L
      ∧ levelsRun x.length m.v m.ys (initLoop x.length) k = .ok m.L
      ∧ x.length ≤ m.L.i
      ∧ ∀ j, j < k → ∃ Lj σ Lj1,
          levelsRun x.length m.v m.ys (initLoop x.length) j = .ok Lj
            ∧ Lj.i = 2 ^ j ∧ Lj.i < x.length ∧ 2 * Lj.i < 2 * x.length
            ∧ levelFold x.length m.v m.ys Lj = .ok σ
            ∧ σ.k = x.length ∧ σ.idxs.length = x.length
            ∧ mergeLevel x.length m.v m.ys Lj = .ok Lj1
            ∧ (Lj1.col0 = σ.idxs ∨ Lj1.col1 = σ.idxs) := by
  obtain ⟨m, cur, k, hm, _, _, _, _, hxl, hyl, _, hv, I, hfin, _, hloop, hk, _, hj⟩ :=
    dcovMerge_full x y hlen hn
  have hv0 : m.v.c0.length = x.length := by rw [hv]; exact hxl
  have hv1 : m.v.c1.length = x.length := by rw [hv]; exact hyl
  have hv2 : m.v.c2.length = x.length := by
    rw [hv]; simp only [List.length_zipWith, hxl, hyl, min_self]
  refine ⟨m, k, hm, hloop, hk, hfin, ?_⟩
  intro j hjk
  obtain ⟨Lj, curj, hLj, hij, hlt, Ij⟩ := hj j hjk
  obtain ⟨σ, hσ, hσk, hσl, _⟩ := levelFold_spec hn hyl hv0 hv1 hv2 Lj curj Ij
  obtain ⟨Lj1, hrun, _, _⟩ := mergeLevel_spec hn hyl hv0 hv1 hv2 Lj curj Ij
  refine ⟨Lj, σ, Lj1, hLj, hij, by rw [hij]; exact hlt, by rw [hij]; omega, hσ, hσk, hσl, hrun,
    ?_⟩
  rw [mergeLevel_eq_levelFold, hσ] at hrun
  rcases Ij.hrs with ⟨_, hs⟩ | ⟨_, hs⟩
  · right
    simp only [hs, LoopState.setCol, bind, Except.bind, pure, Except.pure, Nat.add_one_sub_one,
      Nat.succ_ne_zero, if_false, if_true, Except.ok.injEq] at hrun
    rw [← hrun]
  · left
    simp only [hs, LoopState.setCol, bind, Except.bind, pure, Except.pure, Nat.sub_self,
      if_true, Except.ok.injEq] at hrun
    rw [← hrun]

theorem regspace_neg_delta (delta stop : Int) (h1 : 0 < stop) (h2 : delta < 0) :
    regspace 0 delta stop = [] := by
  unfold regspace
  rw [if_pos (Or.inl ⟨h1, h2⟩)]

theorem regspace_zero_delta (start stop : Int) : regspace start 0 stop = [] := by
  unfold regspace
  rw [if_pos (Or.inr (Or.inr rfl))]

theorem wrap32_double_small (i : Nat) (h : 2 * i < 2 ^ 31) :
    wrap32 (2 * (i : Int)) = ((2 * i : Nat) : Int) := by
  unfold wrap32
  push_cast
  omega

/-- Doubling in 32-bit arithmetic does not leave the orbit. -/
theorem overflowOrbit_step (i : Int) (h : OverflowOrbit i) : OverflowOrbit (wrap32 (2 * i)) := by
  rcases h with h | h | ⟨k, hk, h⟩
  · subst h; left; decide
  · subst h; left; decide
  · subst h
    by_cases hk30 : k = 30
    · subst hk30; right; left; decide
    · right; right
      refine ⟨k + 1, by omega, ?_⟩
      have hlt : (2 : Int) ^ k ≤ 2 ^ 29 := pow_le_pow_right₀ (by norm_num) (by omega)
      have hpos : (0 : Int) < 2 ^ k := by positivity
      unfold wrap32
      rw [pow_succ]
      omega

/-- Every value of the orbit is at most `2^30`. -/
theorem overflowOrbit_le (i : Int) (h : OverflowOrbit i) : i ≤ 2 ^ 30 := by
  rcases h with h | h | ⟨k, hk, h⟩
  · subst h; decide
  · subst h; decide
  · subst h
    exact pow_le_pow_right₀ (by norm_num) hk

/-- For a length above `2^30` the loop `while (i < n)` with its `int` counter does
not return, whatever the passes do: either a pass fails, or the iteration budget
runs out, however large it is. -/
theorem mergeLoop32_never_returns (n : Nat) (hn : 2 ^ 30 < n) (v : Mat3 K) (ys : List K)
    (fuel : Nat) (i : Int) (hi : OverflowOrbit i) (L : LoopState K)
    (r : Int × LoopState K) : mergeLoop32 n v ys fuel i L ≠ .ok r := by
  have hlt : ∀ j : Int, OverflowOrbit j → j < (n : Int) := fun j hj => by
    have h1 := overflowOrbit_le j hj
    have h2 : ((2 ^ 30 : Nat) : Int) < (n : Int) := by exact_mod_cast hn
    push_cast at h2
    omega
  induction fuel generalizing i L with
  | zero =>
    simp only [mergeLoop32, hlt i hi, if_true]
    intro h
    exact Except.noConfusion h
  | succ fuel ih =>
    simp only [mergeLoop32, hlt i hi, if_true]
    cases h1 : mergeLevel32 n v ys i L with
    | error e =>
      simp only [bind, Except.bind]
      intro h
      exact Except.noConfusion h
    | ok p =>
      simp only [bind, Except.bind]
      have hp : p.1 = wrap32 (2 * i) := by
        unfold mergeLevel32 at h1
        dsimp only at h1
        cases h2 : L.col (L.r - 1) with
        | error e => simp only [h2, bind, Except.bind, reduceCtorEq] at h1
        | ok idxr =>
          cases h3 : elem v.c0 (idxr.map usub1) with
          | error e => simp only [h2, h3, bind, Except.bind, reduceCtorEq] at h1
          | ok e0 =>
            cases h4 : elem v.c1 (idxr.map usub1) with
            | error e => simp only [h2, h3, h4, bind, Except.bind, reduceCtorEq] at h1
            | ok e1 =>
              cases h5 : elem v.c2 (idxr.map usub1) with
              | error e => simp only [h2, h3, h4, h5, bind, Except.bind, reduceCtorEq] at h1
              | ok e2 =>
                cases h6 : L.col (L.s - 1) with
                | error e =>
                  simp only [h2, h3, h4, h5, h6, bind, Except.bind, reduceCtorEq] at h1
                | ok target =>
                  simp only [h2, h3, h4, h5, h6, bind, Except.bind] at h1
                  revert h1
                  cases ((regspace 0 (wrap32 (2 * i)) ((n : Int) - 1)).map Int.toNat).foldlM
                      (mergeBlock n i.toNat ys idxr
                        { c0 := 0 :: cumsum e0, c1 := 0 :: cumsum e1, c2 := 0 :: cumsum e2 })
                      { k := 0, st1 := 0, st2 := 0, idxs := target, iv1 := L.iv1,
                        iv2 := L.iv2, iv3 := L.iv3, iv4 := L.iv4 } with
                  | error e => intro h1; simp only [reduceCtorEq] at h1
                  | ok σ =>
                    intro h1
                    simp only at h1
                    revert h1
                    cases L.setCol (L.s - 1) σ.idxs with
                    | error e => intro h1; simp only [reduceCtorEq] at h1
                    | ok L1 =>
                      intro h1
                      simp only [pure, Except.pure, Except.ok.injEq] at h1
                      rw [← h1]
      exact ih p.1 (by rw [hp]; exact overflowOrbit_step i hi) p.2

/-- While `gap = 2 * i` stays inside the `int` range, the pass with the `int`
loop control is the pass with natural-number counters. -/
theorem mergeLevel32_eq_mergeLevel (n : Nat) (v : Mat3 K) (ys : List K) (L : LoopState K)
    (h : 2 * L.i < 2 ^ 31) :
    mergeLevel32 n v ys (L.i : Int) L
      = mergeLevel n v ys L >>= fun L1 => pure ((L1.i : Int), L1) := by
  have hg : wrap32 (2 * (L.i : Int)) = ((2 * L.i : Nat) : Int) := wrap32_double_small L.i h
  unfold mergeLevel32 mergeLevel
  simp only [hg, Int.toNat_ofNat, bind_assoc, pure_bind]

/-- For every length up to `2^30` the loop with the `int` counter is the loop
with natural-number counters. -/
theorem mergeLoop32_eq_mergeLoop (n : Nat) (hn : n ≤ 2 ^ 30) (v : Mat3 K) (ys : List K)
    (fuel : Nat) (L : LoopState K) :
    mergeLoop32 n v ys fuel (L.i : Int) L
      = mergeLoop n v ys fuel L >>= fun L1 => pure ((L1.i : Int), L1) := by
  induction fuel generalizing L with
  | zero =>
    by_cases hc : L.i < n
    · have hc' : (L.i : Int) < (n : Int) := by exact_mod_cast hc
      simp only [mergeLoop32, mergeLoop, hc, hc', if_true, bind, Except.bind]
    · have hc' : ¬ (L.i : Int) < (n : Int) := by exact_mod_cast hc
      simp only [mergeLoop32, mergeLoop, hc, hc', if_false, bind, Except.bind, pure,
        Except.pure]
  | succ fuel ih =>
    by_cases hc : L.i < n
    · have hc' : (L.i : Int) < (n : Int) := by exact_mod_cast hc
      have h2 : 2 * L.i < 2 ^ 31 := by omega
      simp only [mergeLoop32, mergeLoop, hc, hc', if_true]
      rw [mergeLevel32_eq_mergeLevel n v ys L h2]
      cases mergeLevel n v ys L with
      | error e => rfl
      | ok L1 =>
        simp only [bind, Except.bind, pure, Except.pure]
        exact ih L1
    · have hc' : ¬ (L.i : Int) < (n : Int) := by exact_mod_cast hc
      simp only [mergeLoop32, mergeLoop, hc, hc', if_false, bind, Except.bind, pure,
        Except.pure]

/-- Up to `n = 2^30` the merge is safe with the `int` loop control too: the loop
of lines 63 to 117 returns the state that the natural-number counters give. -/
theorem merge_index_safety_small (x y : List K) (hlen : x.length = y.length)
    (hn : 1 ≤ x.length) (hsmall : x.length ≤ 2 ^ 30) :
    ∃ m, dcovMerge x y = .ok m
      ∧ mergeLoop32 x.length m.v m.ys x.length 1 (initLoop x.length)
          = .ok ((m.L.i : Int), m.L)
      ∧ x.length ≤ m.L.i := by
  obtain ⟨m, _, hm, hloop, _, hfin, _⟩ := mergeLoop_passes x y hlen hn
  refine ⟨m, hm, ?_, hfin⟩
  have h := mergeLoop32_eq_mergeLoop x.length hsmall m.v m.ys x.length (initLoop x.length)
  rw [hloop] at h
  exact h

/-- C20 (failing input): for length `n = 2^30 + 1 = 1073741825` the pass entered
with `i = 2^30 < n` computes `gap = 2 * i` in 32-bit arithmetic as `-2^31`; the
list of block starts `regspace<uvec>(0, gap, n - 1)` is empty, so that no block is
merged and the write counter stays zero; the next values of `i` are `-2^31` and
zero, and the loop `while (i < n)` does not return for any data and any
iteration budget. -/
theorem merge_loop_diverges_at_1073741825 :
    (2 : Int) ^ 30 < ((1073741825 : Nat) : Int)
      ∧ wrap32 (2 * 2 ^ 30) = -2 ^ 31
      ∧ (regspace 0 (wrap32 (2 * 2 ^ 30)) (((1073741825 : Nat) : Int) - 1)).map Int.toNat = []
      ∧ wrap32 (2 * -2 ^ 31) = 0
      ∧ wrap32 (2 * 0) = 0
      ∧ (regspace 0 (wrap32 (2 * 0)) (((1073741825 : Nat) : Int) - 1)).map Int.toNat = []
      ∧ ∀ (v : Mat3 ℚ) (ys : List ℚ) (fuel : Nat) (r : Int × LoopState ℚ),
          mergeLoop32 1073741825 v ys fuel 1 (initLoop 1073741825) ≠ .ok r := by
  have hw : wrap32 (2 * 2 ^ 30) = -2 ^ 31 := by decide
  have hz : wrap32 (2 * 0) = 0 := by decide
  refine ⟨by decide, hw, ?_, by decide, hz, ?_, ?_⟩
  · rw [hw, regspace_neg_delta _ _ (by decide) (by decide)]
    rfl
  · rw [hz, regspace_zero_delta]
    rfl
  · intro v ys fuel r
    exact mergeLoop32_never_returns 1073741825 (by decide) v ys fuel 1
      (Or.inr (Or.inr ⟨0, by decide, by decide⟩)) _ r

end Dccpp
